import Mathlib

/-!
# Verification of `kpoint.c` (spglib k-point mesh reduction)

A shallow embedding of the integer engine of `src/c/spglib/kpoint.c`,
followed by the properties proved of it.

Modelling conventions.

* C `int` is modelled by the mathematical integers `Int`; C `/` and `%`
  are `Int.tdiv` and `Int.tmod` (truncation towards zero).  Signed overflow
  is undefined behaviour in C and is not modelled.
* A C array is a `Buf`: the content it had when the function was entered
  (arbitrary, for a caller's buffer) and the writes made since.
  `Buf.get a i` is the read `a[i]`, `Buf.set a i v` the assignment
  `a[i] = v`.
* A `PointSymmetry` is the list of its first `size` rotations.  The
  capacity of its array `rot` enters only `get_point_group_reciprocal_bounded`,
  as a parameter: there a write past the end of `rot` ends the run.
* C `double` is modelled by the exact rationals; rounding error is not
  modelled.
* The default build is modelled: `GRID_ORDER_XYZ` and
  `GRID_BOUNDARY_AS_NEGATIVE` are not defined.  The `_OPENMP` switch is a
  boolean argument of the entry points.  A `#pragma omp parallel for` loop
  is run in index order: every iteration of those loops reads and writes
  only its own cells.
-/

namespace Kpoint

/-! ## Data model -/

/-- A C `int[3]`. -/
structure Vec3 where
  c0 : Int
  c1 : Int
  c2 : Int
deriving DecidableEq, Repr

/-- A C `int[3][3]`, row major: `mIJ` is the entry of row `I`, column `J`. -/
structure Mat3 where
  m00 : Int
  m01 : Int
  m02 : Int
  m10 : Int
  m11 : Int
  m12 : Int
  m20 : Int
  m21 : Int
  m22 : Int
deriving DecidableEq, Repr

/-- The rotations `rot[0..size-1]` of a C `PointSymmetry`. -/
abbrev PointSymmetry := List Mat3

/-- The `size` field of a `PointSymmetry`. -/
def PointSymmetry.size (p : PointSymmetry) : Int := (p.length : Int)

/-- A C array: its content on entry and the writes made since, the latest
first. -/
structure Buf (α : Type) where
  base : Int → α
  writes : List (Int × α)

/-- The array read `a[i]`: the latest write to cell `i`, or the content on
entry. -/
def Buf.get {α : Type} (a : Buf α) (i : Int) : α :=
  match a.writes.lookup i with
  | some v => v
  | none => a.base i

/-- The array assignment `a[i] = v`. -/
def Buf.set {α : Type} (a : Buf α) (i : Int) (v : α) : Buf α :=
  ⟨a.base, (i, v) :: a.writes⟩

/-- A buffer holding `f`, with no write made yet. -/
def Buf.ofFn {α : Type} (f : Int → α) : Buf α := ⟨f, []⟩

/-- The identity matrix. -/
def identity : Mat3 := ⟨1, 0, 0, 0, 1, 0, 0, 0, 1⟩

/-- The constant `inversion` of `get_point_group_reciprocal`. -/
def inversion : Mat3 := ⟨-1, 0, 0, 0, -1, 0, 0, 0, -1⟩

/-! ## Integer matrix utilities (`mathfunc.c`) -/

/-- Modelled from the spec: `mat_transpose_matrix_i3` of `mathfunc.c`
(not among the sources), "transpose(M): returns Mᵀ". -/
def mat_transpose_matrix_i3 (a : Mat3) : Mat3 :=
  ⟨a.m00, a.m10, a.m20, a.m01, a.m11, a.m21, a.m02, a.m12, a.m22⟩

/-- Modelled from the spec: `mat_multiply_matrix_i3` of `mathfunc.c`
(not among the sources), "multiply(A, B): returns A·B (integer 3×3)". -/
def mat_multiply_matrix_i3 (a b : Mat3) : Mat3 :=
  ⟨a.m00 * b.m00 + a.m01 * b.m10 + a.m02 * b.m20,
   a.m00 * b.m01 + a.m01 * b.m11 + a.m02 * b.m21,
   a.m00 * b.m02 + a.m01 * b.m12 + a.m02 * b.m22,
   a.m10 * b.m00 + a.m11 * b.m10 + a.m12 * b.m20,
   a.m10 * b.m01 + a.m11 * b.m11 + a.m12 * b.m21,
   a.m10 * b.m02 + a.m11 * b.m12 + a.m12 * b.m22,
   a.m20 * b.m00 + a.m21 * b.m10 + a.m22 * b.m20,
   a.m20 * b.m01 + a.m21 * b.m11 + a.m22 * b.m21,
   a.m20 * b.m02 + a.m21 * b.m12 + a.m22 * b.m22⟩

/-- Modelled from the spec: `mat_multiply_matrix_vector_i3` of `mathfunc.c`
(not among the sources), "multiply_vec(M, v): returns M·v". -/
def mat_multiply_matrix_vector_i3 (a : Mat3) (v : Vec3) : Vec3 :=
  ⟨a.m00 * v.c0 + a.m01 * v.c1 + a.m02 * v.c2,
   a.m10 * v.c0 + a.m11 * v.c1 + a.m12 * v.c2,
   a.m20 * v.c0 + a.m21 * v.c1 + a.m22 * v.c2⟩

/-- Modelled from the spec: `mat_check_identity_matrix_i3` of `mathfunc.c`
(not among the sources), "equal(A, B): pointwise equality". -/
def mat_check_identity_matrix_i3 (a b : Mat3) : Bool :=
  decide (a = b)

/-! ## Grid addressing -/

/-- The function `get_vector_modulo`, one component: `v % m`, plus `m`
when that is negative. -/
def modulo_component (v m : Int) : Int :=
  let r := v.tmod m
  if r < 0 then r + m else r

/-- The function `get_vector_modulo`. -/
def get_vector_modulo (v m : Vec3) : Vec3 :=
  ⟨modulo_component v.c0 m.c0, modulo_component v.c1 m.c1,
   modulo_component v.c2 m.c2⟩

/-- One turn of the loop of `grid_to_address`: the halved component, or
`none` where the C code returns `-1`. -/
def grid_component (grid_double is_shift : Int) : Option Int :=
  if grid_double.tmod 2 = 0 ∧ is_shift = 0 then
    some (grid_double.tdiv 2)
  else if grid_double.tmod 2 ≠ 0 ∧ is_shift ≠ 0 then
    some ((grid_double - 1).tdiv 2)
  else
    none

/-- The function `grid_to_address` (ZYX order). -/
def grid_to_address (grid_double mesh is_shift : Vec3) : Int :=
  match grid_component grid_double.c0 is_shift.c0 with
  | none => -1
  | some g0 =>
    match grid_component grid_double.c1 is_shift.c1 with
    | none => -1
    | some g1 =>
      match grid_component grid_double.c2 is_shift.c2 with
      | none => -1
      | some g2 => g2 * mesh.c0 * mesh.c1 + g1 * mesh.c0 + g0

/-- The function `address_to_grid` (ZYX order). -/
def address_to_grid (address : Int) (mesh is_shift : Vec3) : Vec3 :=
  let grid2 := address.tdiv (mesh.c0 * mesh.c1)
  let grid1 := (address - grid2 * mesh.c0 * mesh.c1).tdiv mesh.c0
  let grid0 := address.tmod mesh.c0
  ⟨grid0 * 2 + is_shift.c0, grid1 * 2 + is_shift.c1, grid2 * 2 + is_shift.c2⟩

/-- One component of `get_grid_points` (default boundary convention):
halve, then subtract the mesh when the result exceeds `mesh / 2`. -/
def grid_point_component (grid_double mesh : Int) : Int :=
  let g := if grid_double.tmod 2 = 0 then grid_double.tdiv 2
           else (grid_double - 1).tdiv 2
  g - mesh * (if g > mesh.tdiv 2 then 1 else 0)

/-- The function `get_grid_points`. -/
def get_grid_points (grid_double mesh : Vec3) : Vec3 :=
  ⟨grid_point_component grid_double.c0 mesh.c0,
   grid_point_component grid_double.c1 mesh.c1,
   grid_point_component grid_double.c2 mesh.c2⟩

/-- The doubled mesh `mesh_double[i] = mesh[i] * 2`. -/
def mesh_double (mesh : Vec3) : Vec3 :=
  ⟨mesh.c0 * 2, mesh.c1 * 2, mesh.c2 * 2⟩

/-- The number of grid points `mesh[0] * mesh[1] * mesh[2]`. -/
def num_grid (mesh : Vec3) : Int := mesh.c0 * mesh.c1 * mesh.c2

/-! ## Reciprocal point group -/

/-- The de-duplicating loop of `get_point_group_reciprocal`: a candidate
equal to a rotation already accepted is skipped (`goto escape`), any other
is appended. -/
def dedup_step (point_symmetry : List Mat3) (cand : Mat3) : List Mat3 :=
  if point_symmetry.any (fun r => mat_check_identity_matrix_i3 r cand) then
    point_symmetry
  else
    point_symmetry ++ [cand]

/-- The array `rot_reciprocal` of `get_point_group_reciprocal`: the
transposes, followed under time reversal by `inversion` times each. -/
def rot_reciprocal (rotations : List Mat3) (is_time_reversal : Int) :
    List Mat3 :=
  if is_time_reversal ≠ 0 then
    rotations.map mat_transpose_matrix_i3 ++
      rotations.map
        (fun r => mat_multiply_matrix_i3 inversion (mat_transpose_matrix_i3 r))
  else
    rotations.map mat_transpose_matrix_i3

/-- The function `get_point_group_reciprocal`. -/
def get_point_group_reciprocal (rotations : List Mat3)
    (is_time_reversal : Int) : PointSymmetry :=
  (rot_reciprocal rotations is_time_reversal).foldl dedup_step []

/-! ## Irreducible mesh reducers -/

/-- The output buffers and counter of the mesh reducers. -/
structure MeshState where
  grid_points : Buf Vec3
  map : Buf Int
  num_ir : Int

/-- The doubled coordinate set at the top of the loop body for loop
indices `i`, `j`, `k` (ZYX order). -/
def loop_grid_double (is_shift : Vec3) (i j k : Int) : Vec3 :=
  ⟨k * 2 + is_shift.c0, j * 2 + is_shift.c1, i * 2 + is_shift.c2⟩

/-- The address reached from `grid_double` by one rotation:
`grid_to_address` of `get_vector_modulo` of the rotated coordinate. -/
def rotated_address (mesh is_shift : Vec3) (rot : Mat3) (grid_double : Vec3) :
    Int :=
  grid_to_address
    (get_vector_modulo (mat_multiply_matrix_vector_i3 rot grid_double)
      (mesh_double mesh))
    mesh is_shift

/-- The loop over `l` of `get_ir_reciprocal_mesh`: the first rotation
whose address is valid and already mapped sets `map[address]` and leaves
the loop. -/
def serial_rot_loop (mesh is_shift grid_double : Vec3) (address : Int) :
    List Mat3 → Buf Int → Buf Int
  | [], map => map
  | rot :: rest, map =>
    let address_rot := rotated_address mesh is_shift rot grid_double
    if address_rot > -1 ∧ map.get address_rot > -1 then
      map.set address (map.get address_rot)
    else
      serial_rot_loop mesh is_shift grid_double address rest map

/-- The body of the triple loop of `get_ir_reciprocal_mesh`. -/
def serial_body (mesh is_shift : Vec3) (point_symmetry : PointSymmetry)
    (st : MeshState) (i j k : Int) : MeshState :=
  let grid_double := loop_grid_double is_shift i j k
  let address := grid_to_address grid_double mesh is_shift
  let grid_points := st.grid_points.set address
    (get_grid_points grid_double mesh)
  let map := serial_rot_loop mesh is_shift grid_double address
    point_symmetry st.map
  if map.get address = -1 then
    ⟨grid_points, map.set address address, st.num_ir + 1⟩
  else
    ⟨grid_points, map, st.num_ir⟩

/-- The C loop `for (i = 0; i < n; i++)` threading a state. -/
def for_loop {σ : Type} (n : Int) (body : σ → Int → σ) (init : σ) : σ :=
  (List.range n.toNat).foldl (fun st (i : Nat) => body st (i : Int)) init

/-- The triple loop of both mesh reducers (ZYX order): `i` over `mesh[2]`,
`j` over `mesh[1]`, `k` over `mesh[0]`. -/
def mesh_loop (mesh : Vec3) (body : MeshState → Int → Int → Int → MeshState)
    (init : MeshState) : MeshState :=
  for_loop mesh.c2 (fun st i =>
    for_loop mesh.c1 (fun st j =>
      for_loop mesh.c0 (fun st k => body st i j k) st) st) init

/-- The function `get_ir_reciprocal_mesh`, started on the caller's buffers;
the result holds the buffers written and the returned `num_ir`. -/
def get_ir_reciprocal_mesh (grid_points : Buf Vec3) (map : Buf Int)
    (mesh is_shift : Vec3) (point_symmetry : PointSymmetry) : MeshState :=
  let map := for_loop (num_grid mesh) (fun m i => m.set i (-1)) map
  mesh_loop mesh (serial_body mesh is_shift point_symmetry)
    ⟨grid_points, map, 0⟩

/-- The loop over `l` of `get_ir_reciprocal_mesh_openmp`: every valid
rotated address smaller than `map[address]` replaces it. -/
def openmp_rot_loop (mesh is_shift grid_double : Vec3) (address : Int) :
    List Mat3 → Buf Int → Buf Int
  | [], map => map
  | rot :: rest, map =>
    let address_rot := rotated_address mesh is_shift rot grid_double
    let map := if address_rot > -1 ∧ address_rot < map.get address then
        map.set address address_rot
      else map
    openmp_rot_loop mesh is_shift grid_double address rest map

/-- The body of the triple loop of `get_ir_reciprocal_mesh_openmp`. -/
def openmp_body (mesh is_shift : Vec3) (point_symmetry : PointSymmetry)
    (st : MeshState) (i j k : Int) : MeshState :=
  let grid_double := loop_grid_double is_shift i j k
  let address := grid_to_address grid_double mesh is_shift
  let map := st.map.set address address
  let grid_points := st.grid_points.set address
    (get_grid_points grid_double mesh)
  ⟨grid_points,
   openmp_rot_loop mesh is_shift grid_double address point_symmetry map,
   st.num_ir⟩

/-- The function `get_ir_reciprocal_mesh_openmp`, started on the caller's
buffers; `num_ir` is counted in the closing loop. -/
def get_ir_reciprocal_mesh_openmp (grid_points : Buf Vec3)
    (map : Buf Int) (mesh is_shift : Vec3)
    (point_symmetry : PointSymmetry) : MeshState :=
  let st := mesh_loop mesh (openmp_body mesh is_shift point_symmetry)
    ⟨grid_points, map, 0⟩
  let num_ir := for_loop (num_grid mesh)
    (fun n i => if st.map.get i = i then n + 1 else n) 0
  ⟨st.grid_points, st.map, num_ir⟩

/-- The function `kpt_get_irreducible_reciprocal_mesh`; `openmp` tells
whether the build defines `_OPENMP`. -/
def kpt_get_irreducible_reciprocal_mesh (openmp : Bool)
    (grid_points : Buf Vec3) (map : Buf Int) (mesh is_shift : Vec3)
    (is_time_reversal : Int) (symmetry : List Mat3) : MeshState :=
  let point_symmetry := get_point_group_reciprocal symmetry is_time_reversal
  if openmp then
    get_ir_reciprocal_mesh_openmp grid_points map mesh is_shift point_symmetry
  else
    get_ir_reciprocal_mesh grid_points map mesh is_shift point_symmetry

/-! ## Stabilizer filter -/

/-- A C `double[3]`, over the rationals. -/
structure QVec where
  q0 : ℚ
  q1 : ℚ
  q2 : ℚ
deriving DecidableEq

/-- Modelled from the spec: `mat_Nint` of `mathfunc.c` (not among the
sources), "nint(x): nearest integer to a double, half away from zero". -/
def mat_Nint (x : ℚ) : Int :=
  if x < 0 then -⌊-x + 1 / 2⌋ else ⌊x + 1 / 2⌋

/-- Modelled from the spec: `mat_Dabs` of `mathfunc.c` (not among the
sources), the "absolute value". -/
def mat_Dabs (x : ℚ) : ℚ :=
  if x < 0 then -x else x

/-- Modelled from the spec: `mat_multiply_matrix_vector_id3` of `mathfunc.c`
(not among the sources), "multiply_vec(M, v): returns M·v where v is integer
or double". -/
def mat_multiply_matrix_vector_id3 (a : Mat3) (v : QVec) : QVec :=
  ⟨a.m00 * v.q0 + a.m01 * v.q1 + a.m02 * v.q2,
   a.m10 * v.q0 + a.m11 * v.q1 + a.m12 * v.q2,
   a.m20 * v.q0 + a.m21 * v.q1 + a.m22 * v.q2⟩

/-- One component of the test in the loop over `k` of
`get_point_group_reciprocal_with_q`: `diff = q_rot - q`, less its nearest
integer, is below `symprec` in absolute value. -/
def diff_small (symprec q_rot q : ℚ) : Bool :=
  let diff := q_rot - q
  let diff := diff - (mat_Nint diff : ℚ)
  decide (mat_Dabs diff < symprec)

/-- The loop over `k` of `get_point_group_reciprocal_with_q`: the value of
`is_all_ok` after it, `1` as soon as some `qpoints[k]` matches `q_rot`. -/
def stabilizer_k_loop (symprec : ℚ) (q_rot : QVec) (qpoints : List QVec) :
    Bool :=
  qpoints.any (fun q => diff_small symprec q_rot.q0 q.q0 &&
    diff_small symprec q_rot.q1 q.q1 && diff_small symprec q_rot.q2 q.q2)

/-- The loop over `j` of `get_point_group_reciprocal_with_q`, on the
`qpoints[j]` still to visit: the value of `is_all_ok` after it.  The flag
keeps the value it had when no `j` is left to visit. -/
def stabilizer_j_loop (symprec : ℚ) (rot : Mat3) (qpoints : List QVec) :
    List QVec → Bool → Bool
  | [], is_all_ok => is_all_ok
  | qj :: rest, _ =>
    let q_rot := mat_multiply_matrix_vector_id3 rot qj
    if stabilizer_k_loop symprec q_rot qpoints then
      stabilizer_j_loop symprec rot qpoints rest true
    else
      false

/-- The function `get_point_group_reciprocal_with_q`; `num_q` is the length
of `qpoints`.  The state of the loop over `i` is the flag `is_all_ok`, set
to `0` once before the loop, and the rotations accepted. -/
def get_point_group_reciprocal_with_q (pointgroup : PointSymmetry)
    (symprec : ℚ) (qpoints : List QVec) : PointSymmetry :=
  (pointgroup.foldl
    (fun (st : Bool × List Mat3) rot =>
      let is_all_ok := stabilizer_j_loop symprec rot qpoints qpoints st.1
      if is_all_ok then (is_all_ok, st.2 ++ [rot]) else (is_all_ok, st.2))
    (false, [])).2

/-! ## Triplets at a fixed q -/

/-- The buffers `get_ir_triplets_at_q` allocates with `malloc`; their
initial content is arbitrary. -/
structure TripletScratch where
  map_q : Buf Int
  ir_addresses : Buf Int
  weight_q : Buf Int

/-- The state of the first loop of `get_ir_triplets_at_q`. -/
structure TripletInit where
  ir_addresses : Buf Int
  weight_q : Buf Int
  third_q : Buf Int
  weights : Buf Int
  num_ir_q : Int

/-- The output buffers and the returned count of `get_ir_triplets_at_q`. -/
structure TripletState where
  weights : Buf Int
  grid_points : Buf Vec3
  third_q : Buf Int
  num_ir_triplets : Int

/-- The first loop of `get_ir_triplets_at_q`: collect the addresses with
`map_q[i] == i` and clear `weight_q`, `third_q` and `weights`. -/
def triplet_init_loop (num_grid : Int) (map_q : Buf Int)
    (init : TripletInit) : TripletInit :=
  for_loop num_grid (fun st i =>
    let ir_addresses :=
      if map_q.get i = i then st.ir_addresses.set st.num_ir_q i
      else st.ir_addresses
    let num_ir_q := if map_q.get i = i then st.num_ir_q + 1 else st.num_ir_q
    ⟨ir_addresses, st.weight_q.set i 0, st.third_q.set i (-1),
      st.weights.set i 0, num_ir_q⟩) init

/-- The second loop of `get_ir_triplets_at_q`: `weight_q[map_q[i]]++`. -/
def weight_q_loop (num_grid : Int) (map_q weight_q : Buf Int) : Buf Int :=
  for_loop num_grid (fun wq i =>
    wq.set (map_q.get i) (wq.get (map_q.get i) + 1)) weight_q

/-- The third leg of the triplet of `grid_double0` and the address
`address`: `grid_to_address` of `get_vector_modulo` of
`- grid_double0 - grid_double1`. -/
def third_address (mesh is_shift grid_double0 : Vec3) (address : Int) : Int :=
  let grid_double1 := address_to_grid address mesh is_shift
  let grid_double2 : Vec3 :=
    ⟨-grid_double0.c0 - grid_double1.c0, -grid_double0.c1 - grid_double1.c1,
     -grid_double0.c2 - grid_double1.c2⟩
  grid_to_address (get_vector_modulo grid_double2 (mesh_double mesh)) mesh
    is_shift

/-- The third loop of `get_ir_triplets_at_q`: set `third_q` at every
irreducible address. -/
def third_q_loop (num_ir_q : Int) (mesh is_shift grid_double0 : Vec3)
    (ir_addresses third_q : Buf Int) : Buf Int :=
  for_loop num_ir_q (fun tq i =>
    tq.set (ir_addresses.get i)
      (third_address mesh is_shift grid_double0 (ir_addresses.get i))) third_q

/-- The body of the fourth loop of `get_ir_triplets_at_q` at the irreducible
address `ir_address`, on the pair of `weights` and `num_ir_triplets`. -/
def triplet_weight_step (map_q weight_q third_q : Buf Int)
    (st : Buf Int × Int) (ir_address : Int) : Buf Int × Int :=
  let q_2 := third_q.get ir_address
  if st.1.get (map_q.get q_2) ≠ 0 then
    (st.1.set (map_q.get q_2)
      (st.1.get (map_q.get q_2) + weight_q.get ir_address), st.2)
  else
    (st.1.set ir_address (weight_q.get ir_address), st.2 + 1)

/-- The fourth loop of `get_ir_triplets_at_q`. -/
def triplet_weight_loop (num_ir_q : Int)
    (map_q weight_q third_q ir_addresses weights : Buf Int) : Buf Int × Int :=
  for_loop num_ir_q (fun st i =>
    triplet_weight_step map_q weight_q third_q st (ir_addresses.get i))
    (weights, 0)

/-- The part of `get_ir_triplets_at_q` after the mesh reducer returned
`map_q`. -/
def triplets_of_map (scratch : TripletScratch) (weights third_q : Buf Int)
    (mesh is_shift grid_double0 : Vec3) (map_q : Buf Int) :
    Buf Int × Buf Int × Int :=
  let st := triplet_init_loop (num_grid mesh) map_q
    ⟨scratch.ir_addresses, scratch.weight_q, third_q, weights, 0⟩
  let weight_q := weight_q_loop (num_grid mesh) map_q st.weight_q
  let third_q := third_q_loop st.num_ir_q mesh is_shift grid_double0
    st.ir_addresses st.third_q
  let res := triplet_weight_loop st.num_ir_q map_q weight_q third_q
    st.ir_addresses st.weights
  (res.1, third_q, res.2)

/-- The stabilizer point `stabilizer_q[0]` of `get_ir_triplets_at_q`. -/
def stabilizer_point (grid_double0 mesh_double : Vec3) : QVec :=
  ⟨(grid_double0.c0 : ℚ) / (mesh_double.c0 : ℚ),
   (grid_double0.c1 : ℚ) / (mesh_double.c1 : ℚ),
   (grid_double0.c2 : ℚ) / (mesh_double.c2 : ℚ)⟩

/-- The function `get_ir_triplets_at_q`; `openmp` tells whether the build
defines `_OPENMP`. -/
def get_ir_triplets_at_q (openmp : Bool) (scratch : TripletScratch)
    (weights : Buf Int) (grid_points : Buf Vec3) (third_q : Buf Int)
    (grid_point : Int) (mesh : Vec3) (pointgroup : PointSymmetry) :
    TripletState :=
  let tolerance : ℚ := (1 / 10) / ((mesh.c0 + mesh.c1 + mesh.c2 : Int) : ℚ)
  let is_shift : Vec3 := ⟨0, 0, 0⟩
  let grid_double0 := address_to_grid grid_point mesh is_shift
  let stabilizer_q := [stabilizer_point grid_double0 (mesh_double mesh)]
  let pointgroup_q :=
    get_point_group_reciprocal_with_q pointgroup tolerance stabilizer_q
  let red :=
    if openmp then
      get_ir_reciprocal_mesh_openmp grid_points scratch.map_q mesh is_shift
        pointgroup_q
    else
      get_ir_reciprocal_mesh grid_points scratch.map_q mesh is_shift
        pointgroup_q
  let res := triplets_of_map scratch weights third_q mesh is_shift grid_double0
    red.map
  ⟨res.1, red.grid_points, res.2.1, res.2.2⟩

/-- The function `kpt_get_ir_triplets_at_q`. -/
def kpt_get_ir_triplets_at_q (openmp : Bool) (scratch : TripletScratch)
    (weights : Buf Int) (grid_points : Buf Vec3) (third_q : Buf Int)
    (grid_point : Int) (mesh : Vec3) (is_time_reversal : Int)
    (rotations : List Mat3) : TripletState :=
  let pointgroup := get_point_group_reciprocal rotations is_time_reversal
  get_ir_triplets_at_q openmp scratch weights grid_points third_q grid_point
    mesh pointgroup

/-- The addresses `0, 1, ..., n - 1`. -/
def address_list (n : Int) : List Int :=
  (List.range n.toNat).map (fun a : Nat => (a : Int))

/-- The sum of the cells `[0, n)` of a buffer. -/
def buf_sum (b : Buf Int) (n : Int) : Int :=
  ((address_list n).map b.get).sum

/-! ## Predicates on the inputs -/

/-- A mesh with positive divisions. -/
abbrev mesh_positive (mesh : Vec3) : Prop :=
  0 < mesh.c0 ∧ 0 < mesh.c1 ∧ 0 < mesh.c2

/-- A shift in `{0,1}^3`. -/
abbrev shift_valid (is_shift : Vec3) : Prop :=
  (is_shift.c0 = 0 ∨ is_shift.c0 = 1) ∧ (is_shift.c1 = 0 ∨ is_shift.c1 = 1) ∧
    (is_shift.c2 = 0 ∨ is_shift.c2 = 1)

/-- Every component of `g` has the parity of the shift. -/
abbrev parity_ok (g is_shift : Vec3) : Prop :=
  g.c0 % 2 = is_shift.c0 ∧ g.c1 % 2 = is_shift.c1 ∧ g.c2 % 2 = is_shift.c2

/-- Every component of `g` lies in `[0, 2 * mesh_i)`. -/
abbrev in_double_range (g mesh : Vec3) : Prop :=
  (0 ≤ g.c0 ∧ g.c0 < 2 * mesh.c0) ∧ (0 ≤ g.c1 ∧ g.c1 < 2 * mesh.c1) ∧
    (0 ≤ g.c2 ∧ g.c2 < 2 * mesh.c2)

/-- The rotation is compatible with the mesh: `N_i` divides `R_ij * N_j`
for all `i`, `j`. -/
abbrev compatible (mesh : Vec3) (R : Mat3) : Prop :=
  (mesh.c0 ∣ R.m00 * mesh.c0 ∧ mesh.c0 ∣ R.m01 * mesh.c1 ∧
    mesh.c0 ∣ R.m02 * mesh.c2) ∧
  (mesh.c1 ∣ R.m10 * mesh.c0 ∧ mesh.c1 ∣ R.m11 * mesh.c1 ∧
    mesh.c1 ∣ R.m12 * mesh.c2) ∧
  (mesh.c2 ∣ R.m20 * mesh.c0 ∧ mesh.c2 ∣ R.m21 * mesh.c1 ∧
    mesh.c2 ∣ R.m22 * mesh.c2)

/-- The list holds a point group: it contains the identity and is closed
under product and inverse. -/
abbrev is_point_group (G : List Mat3) : Prop :=
  identity ∈ G ∧
  (∀ A ∈ G, ∀ B ∈ G, mat_multiply_matrix_i3 A B ∈ G) ∧
  (∀ A ∈ G, ∃ B ∈ G, mat_multiply_matrix_i3 A B = identity ∧
    mat_multiply_matrix_i3 B A = identity)

/-- Every rotation of the list is compatible with the mesh. -/
abbrev group_compatible (mesh : Vec3) (G : List Mat3) : Prop :=
  ∀ R ∈ G, compatible mesh R

/-! ## Address-wise view of the serial reducer -/

/-- The address a rotation sends the address `a` to, as the reducers
compute it; `-1` when the rotated coordinate is off the shifted grid. -/
def rot_address (mesh is_shift : Vec3) (rot : Mat3) (a : Int) : Int :=
  rotated_address mesh is_shift rot (address_to_grid a mesh is_shift)

/-- The rotation sends `a` to a valid address below `a`. -/
def lower (mesh is_shift : Vec3) (a : Int) (rot : Mat3) : Bool :=
  decide (-1 < rot_address mesh is_shift rot a ∧
    rot_address mesh is_shift rot a < a)

/-- The body of `get_ir_reciprocal_mesh` at the address `a`. -/
def serial_step (mesh is_shift : Vec3) (point_symmetry : PointSymmetry)
    (st : MeshState) (a : Int) : MeshState :=
  let grid_double := address_to_grid a mesh is_shift
  let grid_points := st.grid_points.set a (get_grid_points grid_double mesh)
  let map := serial_rot_loop mesh is_shift grid_double a point_symmetry st.map
  if map.get a = -1 then
    ⟨grid_points, map.set a a, st.num_ir + 1⟩
  else
    ⟨grid_points, map, st.num_ir⟩

/-- The value the serial sweep gives the address `b`: the entry of the
first rotation's lower valid address, or `b` when there is none. -/
def serial_value (mesh is_shift : Vec3) (G : PointSymmetry) (map : Buf Int)
    (b : Int) : Int :=
  match G.find? (lower mesh is_shift b) with
  | some R => map.get (rot_address mesh is_shift R b)
  | none => b

/-- The number of addresses below `n` that no rotation of `G` sends to a
valid lower address. -/
def count_irreducible (mesh is_shift : Vec3) (G : PointSymmetry) (n : Nat) :
    Nat :=
  (List.range n).countP
    (fun b : Nat => (G.find? (lower mesh is_shift (b : Int))).isNone)

/-- The state of the serial sweep after the addresses below `n`. -/
structure SerialInv (mesh s : Vec3) (G : PointSymmetry) (n : Nat)
    (st : MeshState) : Prop where
  untouched : ∀ b : Int, (n : Int) ≤ b → b < num_grid mesh → st.map.get b = -1
  nonneg : ∀ b : Int, 0 ≤ b → b < n → 0 ≤ st.map.get b
  value : ∀ b : Int, 0 ≤ b → b < n →
    st.map.get b = serial_value mesh s G st.map b
  count : st.num_ir = (count_irreducible mesh s G n : Int)
  points : ∀ b : Int, 0 ≤ b → b < n →
    st.grid_points.get b = get_grid_points (address_to_grid b mesh s) mesh

/-! ## Address-wise view of the parallel reducer -/

/-- The running minimum of the loop over `l` of the parallel reducer:
every valid value of `f` below the current minimum replaces it. -/
def fold_min (f : Mat3 → Int) (G : List Mat3) (m0 : Int) : Int :=
  G.foldl (fun m R => if f R > -1 ∧ f R < m then f R else m) m0

/-- The entry the parallel reducer writes at `a`: the least of `a` and the
valid addresses the rotations send `a` to. -/
def min_address (mesh is_shift : Vec3) (G : PointSymmetry) (a : Int) : Int :=
  fold_min (fun R => rot_address mesh is_shift R a) G a

/-- The body of `get_ir_reciprocal_mesh_openmp` at the address `a`. -/
def openmp_step (mesh is_shift : Vec3) (point_symmetry : PointSymmetry)
    (st : MeshState) (a : Int) : MeshState :=
  let grid_double := address_to_grid a mesh is_shift
  ⟨st.grid_points.set a (get_grid_points grid_double mesh),
   openmp_rot_loop mesh is_shift grid_double a point_symmetry (st.map.set a a),
   st.num_ir⟩

/-- The number of addresses in `[0, n)` that the map sends to themselves. -/
def count_fixed (map : Buf Int) (n : Int) : Int :=
  (((List.range n.toNat).countP (fun a : Nat => decide (map.get (a : Int) = a)) : Nat) : Int)

/-! ## Inputs of the examples -/

/-- The rotation exchanging the first two axes. -/
def swap_xy : Mat3 := ⟨0, 1, 0, 1, 0, 0, 0, 0, 1⟩

/-- A grid-point buffer holding zeros. -/
def zero_points : Buf Vec3 := Buf.ofFn (fun _ => ⟨0, 0, 0⟩)

/-- A map buffer holding zeros. -/
def zero_map : Buf Int := Buf.ofFn (fun _ => 0)

/-! ## Irreducible addresses of the triplet reducer -/

/-- The addresses in `[0, n)` that `map_q` sends to themselves. -/
def fixed_addresses (map_q : Buf Int) (n : Int) : List Int :=
  (address_list n).filter (fun a => decide (map_q.get a = a))

/-- The state of the first loop of `get_ir_triplets_at_q` after the
addresses below `k`. -/
structure InitInv (map_q : Buf Int) (k : Nat) (st : TripletInit) : Prop where
  count : st.num_ir_q = ((fixed_addresses map_q (k : Int)).length : Int)
  listed : (List.range (fixed_addresses map_q (k : Int)).length).map
      (fun j : Nat => st.ir_addresses.get (j : Int)) =
    fixed_addresses map_q (k : Int)
  cleared : ∀ a : Int, 0 ≤ a → a < k →
    st.weight_q.get a = 0 ∧ st.third_q.get a = -1 ∧ st.weights.get a = 0

/-- Scratch buffers holding zeros. -/
def zero_scratch : TripletScratch := ⟨zero_map, zero_map, zero_map⟩

/-! ## Counts and tables of the mesh reducers -/

/-- The number of addresses `a` in `[0, N)` such that no rotation of the list
sends `g(a)` to a valid address strictly smaller than `a`. -/
def count_no_lower (mesh is_shift : Vec3) (G : List Mat3) : Int :=
  (((List.range (num_grid mesh).toNat).countP (fun a : Nat =>
    decide (∀ R ∈ G,
      ¬ (-1 < rotated_address mesh is_shift R
            (address_to_grid (a : Int) mesh is_shift) ∧
        rotated_address mesh is_shift R
            (address_to_grid (a : Int) mesh is_shift) < (a : Int)))) : Nat) : Int)

/-- The short coordinate `k` is the folded form of the doubled coordinate `g`
on the mesh: per axis, `k_i` is congruent to `(g_i - s_i) / 2` modulo `N_i`
and `-N_i / 2 < k_i ≤ N_i / 2`, written without fractions. -/
abbrev folded_form (k g is_shift mesh : Vec3) : Prop :=
  (mesh.c0 ∣ k.c0 - (g.c0 - is_shift.c0) / 2 ∧ -mesh.c0 < 2 * k.c0 ∧
    2 * k.c0 ≤ mesh.c0) ∧
  (mesh.c1 ∣ k.c1 - (g.c1 - is_shift.c1) / 2 ∧ -mesh.c1 < 2 * k.c1 ∧
    2 * k.c1 ≤ mesh.c1) ∧
  (mesh.c2 ∣ k.c2 - (g.c2 - is_shift.c2) / 2 ∧ -mesh.c2 < 2 * k.c2 ∧
    2 * k.c2 ≤ mesh.c2)

/-! ## The loops of the triplet reducer over the irreducible addresses -/

/-- The state after the first loop of `get_ir_triplets_at_q`. -/
def triplet_cleared (scratch : TripletScratch) (weights third_q : Buf Int)
    (mesh : Vec3) (map_q : Buf Int) : TripletInit :=
  triplet_init_loop (num_grid mesh) map_q
    ⟨scratch.ir_addresses, scratch.weight_q, third_q, weights, 0⟩

/-- The buffer `third_q` after the third loop of `get_ir_triplets_at_q`, as a
sweep over the irreducible addresses. -/
def triplet_third (scratch : TripletScratch) (weights third_q : Buf Int)
    (mesh is_shift grid_double0 : Vec3) (map_q : Buf Int) : Buf Int :=
  (fixed_addresses map_q (num_grid mesh)).foldl
    (fun tq r => tq.set r (third_address mesh is_shift grid_double0 r))
    (triplet_cleared scratch weights third_q mesh map_q).third_q

/-- The buffer `weight_q` after the second loop of `get_ir_triplets_at_q`. -/
def triplet_weight_q (scratch : TripletScratch) (weights third_q : Buf Int)
    (mesh : Vec3) (map_q : Buf Int) : Buf Int :=
  weight_q_loop (num_grid mesh) map_q
    (triplet_cleared scratch weights third_q mesh map_q).weight_q

/-- The pair of `weights` and `num_ir_triplets` after the fourth loop of
`get_ir_triplets_at_q`, as a sweep over the irreducible addresses. -/
def triplet_weights (scratch : TripletScratch) (weights third_q : Buf Int)
    (mesh is_shift grid_double0 : Vec3) (map_q : Buf Int) : Buf Int × Int :=
  (fixed_addresses map_q (num_grid mesh)).foldl
    (triplet_weight_step map_q
      (triplet_weight_q scratch weights third_q mesh map_q)
      (triplet_third scratch weights third_q mesh is_shift grid_double0 map_q))
    ((triplet_cleared scratch weights third_q mesh map_q).weights, 0)

/-- The number of addresses `a` in `[0, n)` with `third_q[a] ≥ a`. -/
def count_third_ge (third_q : Buf Int) (n : Int) : Int :=
  (((address_list n).countP (fun a => decide (a ≤ third_q.get a)) : Nat) : Int)

/-! ## Grid triplets -/

/-- The C library function `abs`. -/
def c_abs (x : Int) : Int := if x < 0 then -x else x

/-- The entry `k` of a column `(grid_double[0][j], grid_double[1][j],
grid_double[2][j])`. -/
def col_get (c : Int × Int × Int) (k : Int) : Int :=
  if k = 0 then c.1 else if k = 1 then c.2.1 else c.2.2

/-- The assignment `grid_double[k][j] = v` on a column. -/
def col_set (c : Int × Int × Int) (k : Int) (v : Int) : Int × Int × Int :=
  if k = 0 then (v, c.2.1, c.2.2)
  else if k = 1 then (c.1, v, c.2.2)
  else (c.1, c.2.1, v)

/-- The loop over `k` of `set_grid_triplets_at_q` that counts the entries of a
column on the edge `abs(grid_double[k][j]) == mesh[j]`: the pair of
`num_edge` and `edge_pos`. -/
def edge_scan (m : Int) (c : Int × Int × Int) : Int × Int :=
  [0, 1, 2].foldl
    (fun (st : Int × Int) (k : Int) =>
      if c_abs (col_get c k) = m then (st.1 + 1, k) else st)
    (0, -1)

/-- The folding of one column in `set_grid_triplets_at_q`: with one entry on
the edge it becomes minus the sum of the others, with two the last one
changes sign. -/
def edge_fold (m : Int) (c : Int × Int × Int) : Int × Int × Int :=
  let num_edge := (edge_scan m c).1
  let edge_pos := (edge_scan m c).2
  let c1 :=
    if num_edge = 1 then
      [0, 1, 2].foldl
        (fun (d : Int × Int × Int) (k : Int) =>
          if k ≠ edge_pos then
            col_set d edge_pos (col_get d edge_pos - col_get d k)
          else d)
        (col_set c edge_pos 0)
    else c
  if num_edge = 2 then col_set c1 edge_pos (-(col_get c1 edge_pos)) else c1

/-- The state of the loop of `set_grid_triplets_at_q`: the row
`grid_double[0]`, which is kept from one address to the next, the rows
written and their number `num_ir`. -/
structure TripletRows where
  grid_double0 : Vec3
  triplets : Buf Vec3
  num_ir : Int

/-- The extended mesh `ex_mesh[i] = mesh[i] + (mesh[i] % 2 == 0)`. -/
def ex_mesh (mesh : Vec3) : Vec3 :=
  ⟨mesh.c0 + (if mesh.c0.tmod 2 = 0 then 1 else 0),
   mesh.c1 + (if mesh.c1.tmod 2 = 0 then 1 else 0),
   mesh.c2 + (if mesh.c2.tmod 2 = 0 then 1 else 0)⟩

/-- The body of the loop over the addresses of `set_grid_triplets_at_q`. -/
def grid_triplets_body (grid_points : Buf Vec3) (third_q : Buf Int)
    (mesh : Vec3) (st : TripletRows) (i : Int) : TripletRows :=
  if third_q.get i < 0 then st
  else
    let p1 := grid_points.get i
    let p2 := grid_points.get (third_q.get i)
    let col0 := edge_fold mesh.c0 (st.grid_double0.c0, p1.c0 * 2, p2.c0 * 2)
    let col1 := edge_fold mesh.c1 (st.grid_double0.c1, p1.c1 * 2, p2.c1 * 2)
    let col2 := edge_fold mesh.c2 (st.grid_double0.c2, p1.c2 * 2, p2.c2 * 2)
    let ex_mesh_double := mesh_double (ex_mesh mesh)
    let g0 := get_vector_modulo ⟨col0.1, col1.1, col2.1⟩ ex_mesh_double
    let g1 := get_vector_modulo ⟨col0.2.1, col1.2.1, col2.2.1⟩ ex_mesh_double
    let g2 := get_vector_modulo ⟨col0.2.2, col1.2.2, col2.2.2⟩ ex_mesh_double
    let row : Vec3 :=
      ⟨grid_to_address g0 (ex_mesh mesh) ⟨0, 0, 0⟩,
       grid_to_address g1 (ex_mesh mesh) ⟨0, 0, 0⟩,
       grid_to_address g2 (ex_mesh mesh) ⟨0, 0, 0⟩⟩
    ⟨g0, st.triplets.set st.num_ir row, st.num_ir + 1⟩

/-- The function `set_grid_triplets_at_q`; the result holds the rows written
to `triplets` and their number. -/
def set_grid_triplets_at_q (triplets : Buf Vec3) (q_grid_point : Int)
    (grid_points : Buf Vec3) (third_q : Buf Int) (mesh : Vec3) : TripletRows :=
  let p0 := grid_points.get q_grid_point
  for_loop (num_grid mesh) (grid_triplets_body grid_points third_q mesh)
    ⟨⟨p0.c0 * 2, p0.c1 * 2, p0.c2 * 2⟩, triplets, 0⟩

/-- The number of addresses `i` in `[0, n)` with `third_q[i] ≥ 0`. -/
def count_third_nonneg (third_q : Buf Int) (n : Int) : Int :=
  (((address_list n).countP (fun a => decide (0 ≤ third_q.get a)) : Nat) : Int)

/-! ## The stabilizer filter, in the words of the specification -/

/-- The difference `x - y` lies within `eps` of an integer:
`|d - nint(d)| < eps` for `d = x - y`. -/
abbrev near_integer (eps x y : ℚ) : Prop :=
  |(x - y) - (mat_Nint (x - y) : ℚ)| < eps

/-- The rotation `R` permutes the list `Q` within `eps`: for every `q_j` in
`Q` there is `q_k` in `Q` with `R * q_j - q_k` within `eps` of an integer
vector in each component. -/
abbrev permutes_within (eps : ℚ) (R : Mat3) (Q : List QVec) : Prop :=
  ∀ qj ∈ Q, ∃ qk ∈ Q,
    near_integer eps (mat_multiply_matrix_vector_id3 R qj).q0 qk.q0 ∧
    near_integer eps (mat_multiply_matrix_vector_id3 R qj).q1 qk.q1 ∧
    near_integer eps (mat_multiply_matrix_vector_id3 R qj).q2 qk.q2

/-- The sub-list of `G`, in the order of `G`, of the rotations that permute
`Q` within `eps`. -/
def stabilizer_sublist (G : PointSymmetry) (eps : ℚ) (Q : List QVec) :
    PointSymmetry :=
  G.filter (fun R => decide (permutes_within eps R Q))

/-! ## Irreducible k-points of a list -/

/-- The test of `get_ir_kpoints` on a rotated k-point and a k-point: each
component of their difference, less its nearest integer, is below `symprec`
in absolute value. -/
def kpt_close (symprec : ℚ) (kpt_rot k : QVec) : Bool :=
  diff_small symprec kpt_rot.q0 k.q0 && diff_small symprec kpt_rot.q1 k.q1 &&
    diff_small symprec kpt_rot.q2 k.q2

/-- The loop over `k` of `get_ir_kpoints`: the first `ir_map[k]` with
`k < num_ir_kpoint` whose k-point matches `kpt_rot`, or `none` when the loop
ends without a match. -/
def kpt_search (symprec : ℚ) (kpoints : Buf QVec) (ir_map : Buf Int)
    (num_ir_kpoint : Int) (kpt_rot : QVec) : Option Int :=
  ((List.range num_ir_kpoint.toNat).find?
    (fun k : Nat =>
      kpt_close symprec kpt_rot (kpoints.get (ir_map.get (k : Int))))).map
    (fun k : Nat => ir_map.get (k : Int))

/-- The loop over `j` of `get_ir_kpoints` for the k-point `ki`: `some r` when
the loop is left with `is_found = 0` and `map[i] = r`, `none` when it ends
with `is_found = 1`.  A rotation that sends `ki` to itself is skipped. -/
def kpt_rot_loop (symprec : ℚ) (kpoints : Buf QVec) (ir_map : Buf Int)
    (num_ir_kpoint : Int) (ki : QVec) : List Mat3 → Option Int
  | [] => none
  | rot :: rest =>
    let kpt_rot := mat_multiply_matrix_vector_id3 rot ki
    if kpt_close symprec kpt_rot ki then
      kpt_rot_loop symprec kpoints ir_map num_ir_kpoint ki rest
    else
      match kpt_search symprec kpoints ir_map num_ir_kpoint kpt_rot with
      | some r => some r
      | none => kpt_rot_loop symprec kpoints ir_map num_ir_kpoint ki rest

/-- The state of the loop of `get_ir_kpoints`. -/
structure KpointState where
  map : Buf Int
  ir_map : Buf Int
  num_ir_kpoint : Int

/-- The body of the loop over `i` of `get_ir_kpoints`. -/
def kpt_body (symprec : ℚ) (kpoints : Buf QVec)
    (point_symmetry : PointSymmetry) (st : KpointState) (i : Int) :
    KpointState :=
  let map := st.map.set i i
  match kpt_rot_loop symprec kpoints st.ir_map st.num_ir_kpoint
      (kpoints.get i) point_symmetry with
  | some r => ⟨map.set i r, st.ir_map, st.num_ir_kpoint⟩
  | none => ⟨map, st.ir_map.set st.num_ir_kpoint i, st.num_ir_kpoint + 1⟩

/-- The function `get_ir_kpoints`; `ir_map` is the buffer it allocates. The
result holds `map` and the returned `num_ir_kpoint`. -/
def get_ir_kpoints (ir_map map : Buf Int) (kpoints : Buf QVec)
    (num_kpoint : Int) (point_symmetry : PointSymmetry) (symprec : ℚ) :
    KpointState :=
  for_loop num_kpoint (kpt_body symprec kpoints point_symmetry)
    ⟨map, ir_map, 0⟩

/-- The function `kpt_get_irreducible_kpoints`. -/
def kpt_get_irreducible_kpoints (ir_map map : Buf Int) (kpoints : Buf QVec)
    (num_kpoint : Int) (symmetry : List Mat3) (is_time_reversal : Int)
    (symprec : ℚ) : KpointState :=
  get_ir_kpoints ir_map map kpoints num_kpoint
    (get_point_group_reciprocal symmetry is_time_reversal) symprec

/-- The array holding the k-points of a list, zero elsewhere. -/
def kpoints_of_list (K : List QVec) : Buf QVec :=
  Buf.ofFn (fun i => K.getD i.toNat ⟨0, 0, 0⟩)

/-- The k-points of scenario S4. -/
def example_kpoints : List QVec :=
  [⟨0, 0, 0⟩, ⟨1 / 2, 0, 0⟩, ⟨0, 1 / 2, 0⟩, ⟨1 / 4, 1 / 4, 1 / 4⟩,
   ⟨-1 / 4, -1 / 4, -1 / 4⟩]

/-- The rotation `R` sends the k-point `ki` to the k-point `kr` modulo
integers, within `eps` in each component. -/
abbrev kpt_related (eps : ℚ) (R : Mat3) (ki kr : QVec) : Prop :=
  near_integer eps (mat_multiply_matrix_vector_id3 R ki).q0 kr.q0 ∧
  near_integer eps (mat_multiply_matrix_vector_id3 R ki).q1 kr.q1 ∧
  near_integer eps (mat_multiply_matrix_vector_id3 R ki).q2 kr.q2

/-- The state of the loop of `get_ir_kpoints` after the k-points below `k`. -/
structure KptInv (eps : ℚ) (kpoints : Buf QVec) (G : PointSymmetry) (k : Nat)
    (st : KpointState) : Prop where
  num_nonneg : 0 ≤ st.num_ir_kpoint
  reps : ∀ j : Int, 0 ≤ j → j < st.num_ir_kpoint →
    (0 ≤ st.ir_map.get j ∧ st.ir_map.get j < k) ∧
      st.map.get (st.ir_map.get j) = st.ir_map.get j
  bound : ∀ i : Int, 0 ≤ i → i < k → 0 ≤ st.map.get i ∧ st.map.get i ≤ i
  idem : ∀ i : Int, 0 ≤ i → i < k → st.map.get (st.map.get i) = st.map.get i
  related : ∀ i : Int, 0 ≤ i → i < k → st.map.get i ≠ i →
    ∃ R ∈ G, kpt_related eps R (kpoints.get i) (kpoints.get (st.map.get i))
  count : st.num_ir_kpoint = count_fixed st.map (k : Int)

/-! ## The reciprocal point group over a bounded array -/

/-- The outcome of a run that fills the array `rot` of a `PointSymmetry`:
the `PointSymmetry` returned, or the index of the first write past the end
of `rot`, where the behaviour of the C program stops being defined. -/
inductive BoundedRun where
  | returned (point_symmetry : PointSymmetry)
  | overrun (index : Nat)
deriving DecidableEq

/-- The de-duplicating loop of `get_point_group_reciprocal` with the array
`point_symmetry.rot` holding `capacity` matrices (the declaration of
`PointSymmetry` is not among the sources, so its capacity is a parameter): a
candidate equal to a rotation already accepted is skipped (`goto escape`),
any other is copied to `rot[num_pt]`, which lies past the array when
`num_pt` has reached `capacity`.  The loop makes no test on `num_pt`. -/
def dedup_step_bounded (capacity : Nat) (run : BoundedRun) (cand : Mat3) :
    BoundedRun :=
  match run with
  | BoundedRun.overrun index => BoundedRun.overrun index
  | BoundedRun.returned point_symmetry =>
    if point_symmetry.any (fun r => mat_check_identity_matrix_i3 r cand) then
      BoundedRun.returned point_symmetry
    else if point_symmetry.length < capacity then
      BoundedRun.returned (point_symmetry ++ [cand])
    else
      BoundedRun.overrun point_symmetry.length

/-- The function `get_point_group_reciprocal` with the array
`point_symmetry.rot` holding `capacity` matrices. -/
def get_point_group_reciprocal_bounded (capacity : Nat) (rotations : List Mat3)
    (is_time_reversal : Int) : BoundedRun :=
  (rot_reciprocal rotations is_time_reversal).foldl (dedup_step_bounded capacity)
    (BoundedRun.returned [])

/-- A list of 97 distinct integer matrices. -/
def many_rotations : List Mat3 :=
  (List.range 97).map (fun i : Nat => (⟨(i : Int), 0, 0, 0, 1, 0, 0, 0, 1⟩ : Mat3))

/-- A list of 49 distinct integer matrices; their transposes and the
opposites of these are 98 distinct matrices. -/
def many_rotations_half : List Mat3 :=
  (List.range 49).map
    (fun i : Nat => (⟨(i : Int) + 1, 0, 0, 0, 1, 0, 0, 0, 1⟩ : Mat3))

/-! ## Addresses fixed by the inversion -/

/-- The number of addresses of one axis of `n` divisions that the inversion
fixes on an unshifted mesh: `2` if `n` is even, else `1`. -/
def fixed_factor (n : Int) : Int := if n % 2 = 0 then 2 else 1

/-- The number `F` of addresses fixed by the inversion on an unshifted mesh:
the product over the axes of `2` if `N_i` is even, else `1`. -/
def inversion_fixed_count (mesh : Vec3) : Int :=
  fixed_factor mesh.c0 * fixed_factor mesh.c1 * fixed_factor mesh.c2

/-! ## Arithmetic of the addressing -/

theorem Buf.get_set {α : Type} (a : Buf α) (i j : Int) (v : α) :
    (a.set i v).get j = if j = i then v else a.get j := by
  unfold Buf.get Buf.set
  by_cases h : j = i
  · subst h
    simp [List.lookup]
  · have hb : (j == i) = false := by simpa using h
    simp [List.lookup, hb, h]

theorem tmod_two_eq_zero_iff (a : Int) : a.tmod 2 = 0 ↔ a % 2 = 0 := by
  rw [← Int.dvd_iff_tmod_eq_zero]
  omega

theorem tdiv_two_of_even (a : Int) (h : a % 2 = 0) : a.tdiv 2 = a / 2 :=
  Int.tdiv_eq_ediv_of_dvd (by omega)

theorem grid_component_eq (g s : Int) (hs : s = 0 ∨ s = 1) :
    grid_component g s = if g % 2 = s then some ((g - s) / 2) else none := by
  unfold grid_component
  simp only [ne_eq, tmod_two_eq_zero_iff]
  rcases hs with rfl | rfl
  · by_cases h : g % 2 = 0
    · simp [h, tdiv_two_of_even g h]
    · simp [h]
  · by_cases h : g % 2 = 0
    · have h1 : ¬ g % 2 = 1 := by omega
      simp [h, h1]
    · have h1 : g % 2 = 1 := by omega
      have h2 : (g - 1) % 2 = 0 := by omega
      simp [h1, tdiv_two_of_even (g - 1) h2]

theorem grid_to_address_eq (g mesh s : Vec3) (hs : shift_valid s) :
    grid_to_address g mesh s =
      if parity_ok g s then
        (g.c2 - s.c2) / 2 * mesh.c0 * mesh.c1 + (g.c1 - s.c1) / 2 * mesh.c0 +
          (g.c0 - s.c0) / 2
      else -1 := by
  obtain ⟨h0, h1, h2⟩ := hs
  unfold grid_to_address
  rw [grid_component_eq _ _ h0, grid_component_eq _ _ h1,
    grid_component_eq _ _ h2]
  by_cases p0 : g.c0 % 2 = s.c0 <;> by_cases p1 : g.c1 % 2 = s.c1 <;>
    by_cases p2 : g.c2 % 2 = s.c2 <;> simp [parity_ok, p0, p1, p2]

theorem modulo_component_eq (v m : Int) (hm : 0 < m) :
    modulo_component v m = v % m := by
  have key : ∀ r : Int, 0 ≤ r → r < m → (∃ k, v = r + m * k) → r = v % m := by
    rintro r h0 h1 ⟨k, rfl⟩
    rw [Int.add_mul_emod_self_left, Int.emod_eq_of_lt h0 h1]
  unfold modulo_component
  have hdef := Int.tmod_add_tdiv v m
  have hlt := Int.tmod_lt_of_pos v hm
  by_cases hv : 0 ≤ v
  · have h0 := Int.tmod_nonneg m hv
    simp only [not_lt.mpr h0, if_false]
    exact key _ h0 hlt ⟨v.tdiv m, by linarith⟩
  · have hneg : 0 ≤ -v := by omega
    have h0 := Int.tmod_nonneg m hneg
    have hlt2 := Int.tmod_lt_of_pos (-v) hm
    have hdef2 := Int.tmod_add_tdiv (-v) m
    rw [Int.neg_tdiv] at hdef2
    have e : v.tmod m = -((-v).tmod m) := by linarith
    by_cases hz : (-v).tmod m = 0
    · have : ¬ v.tmod m < 0 := by omega
      simp only [this, if_false]
      exact key _ (by omega) hlt ⟨v.tdiv m, by linarith⟩
    · have : v.tmod m < 0 := by omega
      simp only [this, if_true]
      exact key _ (by omega) (by omega) ⟨v.tdiv m - 1, by linarith⟩

theorem ediv_emod_unique (a q r m : Int) (h : a = q * m + r) (h0 : 0 ≤ r)
    (h1 : r < m) : a / m = q ∧ a % m = r := by
  have hm : m ≠ 0 := by omega
  subst h
  constructor
  · rw [Int.add_comm, Int.add_mul_ediv_right _ _ hm, Int.ediv_eq_zero_of_lt h0 h1]
    simp
  · rw [Int.add_comm, Int.add_mul_emod_self, Int.emod_eq_of_lt h0 h1]

theorem get_vector_modulo_eq (v mesh : Vec3) (hm : mesh_positive mesh) :
    get_vector_modulo v (mesh_double mesh) =
      ⟨v.c0 % (mesh.c0 * 2), v.c1 % (mesh.c1 * 2), v.c2 % (mesh.c2 * 2)⟩ := by
  obtain ⟨h0, h1, h2⟩ := hm
  unfold get_vector_modulo mesh_double
  simp only
  rw [modulo_component_eq _ _ (by omega), modulo_component_eq _ _ (by omega),
    modulo_component_eq _ _ (by omega)]

theorem address_bound (k0 k1 k2 n0 n1 n2 : Int) (h0 : 0 ≤ k0) (l0 : k0 < n0)
    (h1 : 0 ≤ k1) (l1 : k1 < n1) (h2 : 0 ≤ k2) (l2 : k2 < n2) :
    0 ≤ k2 * n0 * n1 + k1 * n0 + k0 ∧
      k2 * n0 * n1 + k1 * n0 + k0 < n0 * n1 * n2 := by
  have hn0 : 0 < n0 := by omega
  have hn1 : 0 < n1 := by omega
  have a1 : 0 ≤ k1 * n0 := mul_nonneg h1 hn0.le
  have a2 : 0 ≤ k2 * n0 * n1 := mul_nonneg (mul_nonneg h2 hn0.le) hn1.le
  have b1 : k1 * n0 ≤ (n1 - 1) * n0 :=
    mul_le_mul_of_nonneg_right (by omega) hn0.le
  have b2 : k2 * (n0 * n1) ≤ (n2 - 1) * (n0 * n1) :=
    mul_le_mul_of_nonneg_right (by omega) (mul_pos hn0 hn1).le
  constructor
  · omega
  · nlinarith

theorem grid_component_double (k s : Int) (hs : s = 0 ∨ s = 1) :
    grid_component (k * 2 + s) s = some k := by
  rw [grid_component_eq _ _ hs]
  have h1 : (k * 2 + s) % 2 = s := by omega
  have h2 : (k * 2 + s - s) / 2 = k := by omega
  simp [h1, h2]

theorem grid_to_address_double (k0 k1 k2 : Int) (mesh s : Vec3)
    (hs : shift_valid s) :
    grid_to_address ⟨k0 * 2 + s.c0, k1 * 2 + s.c1, k2 * 2 + s.c2⟩ mesh s =
      k2 * mesh.c0 * mesh.c1 + k1 * mesh.c0 + k0 := by
  obtain ⟨h0, h1, h2⟩ := hs
  unfold grid_to_address
  simp only [grid_component_double _ _ h0, grid_component_double _ _ h1,
    grid_component_double _ _ h2]

theorem address_to_grid_of_cells (k0 k1 k2 : Int) (mesh s : Vec3)
    (h0 : 0 ≤ k0) (l0 : k0 < mesh.c0) (h1 : 0 ≤ k1) (l1 : k1 < mesh.c1)
    (h2 : 0 ≤ k2) :
    address_to_grid (k2 * mesh.c0 * mesh.c1 + k1 * mesh.c0 + k0) mesh s =
      ⟨k0 * 2 + s.c0, k1 * 2 + s.c1, k2 * 2 + s.c2⟩ := by
  have hn0 : 0 < mesh.c0 := by omega
  have hn1 : 0 < mesh.c1 := by omega
  have a1 : 0 ≤ k1 * mesh.c0 := mul_nonneg h1 hn0.le
  have a2 : 0 ≤ k2 * mesh.c0 * mesh.c1 :=
    mul_nonneg (mul_nonneg h2 hn0.le) hn1.le
  have b1 : k1 * mesh.c0 ≤ (mesh.c1 - 1) * mesh.c0 :=
    mul_le_mul_of_nonneg_right (by omega) hn0.le
  have hr : k1 * mesh.c0 + k0 < mesh.c0 * mesh.c1 := by nlinarith
  have e2 := ediv_emod_unique (k2 * mesh.c0 * mesh.c1 + k1 * mesh.c0 + k0) k2
    (k1 * mesh.c0 + k0) (mesh.c0 * mesh.c1) (by ring) (by omega) hr
  have e1 := ediv_emod_unique (k1 * mesh.c0 + k0) k1 k0 mesh.c0 rfl h0 l0
  have e0 := ediv_emod_unique (k2 * mesh.c0 * mesh.c1 + k1 * mesh.c0 + k0)
    (k2 * mesh.c1 + k1) k0 mesh.c0 (by ring) h0 l0
  unfold address_to_grid
  simp only
  rw [Int.tdiv_eq_ediv (by omega) (mul_pos hn0 hn1).le, e2.1,
    Int.tmod_eq_emod (by omega) hn0.le, e0.2]
  have e : k2 * mesh.c0 * mesh.c1 + k1 * mesh.c0 + k0 - k2 * mesh.c0 * mesh.c1 =
      k1 * mesh.c0 + k0 := by ring
  rw [e, Int.tdiv_eq_ediv (by omega) hn0.le, e1.1]

theorem address_cells (a : Int) (mesh : Vec3) (hm : mesh_positive mesh)
    (h0 : 0 ≤ a) (h1 : a < num_grid mesh) :
    ∃ k0 k1 k2 : Int, (0 ≤ k0 ∧ k0 < mesh.c0) ∧ (0 ≤ k1 ∧ k1 < mesh.c1) ∧
      (0 ≤ k2 ∧ k2 < mesh.c2) ∧
      a = k2 * mesh.c0 * mesh.c1 + k1 * mesh.c0 + k0 := by
  obtain ⟨p0, p1, p2⟩ := hm
  unfold num_grid at h1
  have p01 : 0 < mesh.c0 * mesh.c1 := mul_pos p0 p1
  refine ⟨a % mesh.c0, a / mesh.c0 % mesh.c1, a / mesh.c0 / mesh.c1,
    ⟨Int.emod_nonneg _ (by omega), Int.emod_lt_of_pos _ p0⟩,
    ⟨Int.emod_nonneg _ (by omega), Int.emod_lt_of_pos _ p1⟩, ⟨?_, ?_⟩, ?_⟩
  · exact Int.ediv_nonneg (Int.ediv_nonneg h0 p0.le) p1.le
  · apply Int.ediv_lt_of_lt_mul p1
    apply Int.ediv_lt_of_lt_mul p0
    linarith
  · have e1 := Int.ediv_add_emod a mesh.c0
    have e2 := Int.ediv_add_emod (a / mesh.c0) mesh.c1
    have e3 : a / mesh.c0 / mesh.c1 * mesh.c0 * mesh.c1 +
        a / mesh.c0 % mesh.c1 * mesh.c0 =
        mesh.c0 * (mesh.c1 * (a / mesh.c0 / mesh.c1) + a / mesh.c0 % mesh.c1) := by
      ring
    rw [e3, e2]
    linarith

theorem address_to_grid_round_trip (a : Int) (mesh s : Vec3)
    (hm : mesh_positive mesh) (hs : shift_valid s) (h0 : 0 ≤ a)
    (h1 : a < num_grid mesh) :
    grid_to_address (address_to_grid a mesh s) mesh s = a := by
  obtain ⟨k0, k1, k2, ⟨a0, b0⟩, ⟨a1, b1⟩, ⟨a2, _⟩, rfl⟩ :=
    address_cells a mesh hm h0 h1
  rw [address_to_grid_of_cells k0 k1 k2 mesh s a0 b0 a1 b1 a2,
    grid_to_address_double k0 k1 k2 mesh s hs]

theorem grid_address_range_or_sentinel (g mesh s : Vec3)
    (hs : shift_valid s) :
    (in_double_range g mesh → parity_ok g s →
      0 ≤ grid_to_address g mesh s ∧ grid_to_address g mesh s < num_grid mesh) ∧
    (¬ parity_ok g s → grid_to_address g mesh s = -1) := by
  constructor
  · intro hr hp
    rw [grid_to_address_eq g mesh s hs, if_pos hp]
    obtain ⟨s0, s1, s2⟩ := hs
    obtain ⟨r0, r1, r2⟩ := hr
    obtain ⟨p0, p1, p2⟩ := hp
    exact address_bound _ _ _ _ _ _ (by omega) (by omega) (by omega) (by omega)
      (by omega) (by omega)
  · intro hp
    rw [grid_to_address_eq g mesh s hs, if_neg hp]

/-! ## The triple loop as one loop over addresses -/

theorem foldl_range_succ {σ : Type} (f : σ → Nat → σ) (init : σ) (n : Nat) :
    (List.range (n + 1)).foldl f init = f ((List.range n).foldl f init) n := by
  rw [List.range_succ, List.foldl_append]
  rfl

theorem foldl_range_pair {σ : Type} (n : Nat) (f : σ → Nat → Nat → σ)
    (g : σ → Nat → σ) :
    ∀ (m : Nat), (∀ st j k, j < m → k < n → f st j k = g st (j * n + k)) →
    ∀ init : σ,
    (List.range m).foldl
        (fun st j => (List.range n).foldl (fun st k => f st j k) st) init =
      (List.range (m * n)).foldl g init := by
  intro m
  induction m with
  | zero => intro _ init; simp
  | succ m ih =>
    intro h init
    rw [foldl_range_succ, ih (fun st j k hj hk => h st j k (by omega) hk) init,
      Nat.succ_mul, List.range_add, List.foldl_append, List.foldl_map]
    apply List.foldl_ext
    intro st k hk
    exact h st m k (by omega) (List.mem_range.mp hk)

theorem for_loop_succ {σ : Type} (body : σ → Int → σ) (init : σ) (n : Nat) :
    for_loop ((n : Int) + 1) body init = body (for_loop (n : Int) body init) n := by
  unfold for_loop
  have e : ((n : Int) + 1).toNat = n + 1 := by omega
  rw [e, Int.toNat_natCast, foldl_range_succ]

theorem for_loop_zero {σ : Type} (body : σ → Int → σ) (init : σ) :
    for_loop 0 body init = init := by
  simp [for_loop]

theorem mesh_loop_flat (mesh : Vec3) (hm : mesh_positive mesh)
    (body : MeshState → Int → Int → Int → MeshState)
    (step : MeshState → Int → MeshState)
    (h : ∀ st (k0 k1 k2 : Int), 0 ≤ k0 → k0 < mesh.c0 → 0 ≤ k1 → k1 < mesh.c1 →
      0 ≤ k2 → k2 < mesh.c2 →
      body st k2 k1 k0 = step st (k2 * mesh.c0 * mesh.c1 + k1 * mesh.c0 + k0))
    (init : MeshState) :
    mesh_loop mesh body init = for_loop (num_grid mesh) step init := by
  obtain ⟨p0, p1, p2⟩ := hm
  have c0 : ((mesh.c0.toNat : Nat) : Int) = mesh.c0 := Int.toNat_of_nonneg p0.le
  have c1 : ((mesh.c1.toNat : Nat) : Int) = mesh.c1 := Int.toNat_of_nonneg p1.le
  have c2 : ((mesh.c2.toNat : Nat) : Int) = mesh.c2 := Int.toNat_of_nonneg p2.le
  have hN : (num_grid mesh).toNat = mesh.c2.toNat * (mesh.c1.toNat * mesh.c0.toNat) := by
    have e : ((mesh.c2.toNat * (mesh.c1.toNat * mesh.c0.toNat) : Nat) : Int) =
        num_grid mesh := by
      push_cast
      rw [c0, c1, c2]
      unfold num_grid
      ring
    rw [← e, Int.toNat_natCast]
  unfold mesh_loop for_loop
  rw [hN]
  beta_reduce
  have inner : ∀ (i : Nat), i < mesh.c2.toNat → ∀ st : MeshState,
      (List.range mesh.c1.toNat).foldl
        (fun st (j : Nat) => (List.range mesh.c0.toNat).foldl
          (fun st (k : Nat) => body st (i : Int) (j : Int) (k : Int)) st) st =
      (List.range (mesh.c1.toNat * mesh.c0.toNat)).foldl
        (fun st jk => step st (((i * (mesh.c1.toNat * mesh.c0.toNat) + jk : Nat)) : Int))
        st := by
    intro i hi st
    apply foldl_range_pair mesh.c0.toNat
      (fun st j k => body st (i : Int) (j : Int) (k : Int))
      (fun st jk => step st (((i * (mesh.c1.toNat * mesh.c0.toNat) + jk : Nat)) : Int))
    intro st j k hj hk
    rw [h st k j i (by omega) (by omega) (by omega) (by omega) (by omega) (by omega)]
    congr 1
    push_cast
    rw [c0, c1]
    ring
  rw [← foldl_range_pair (mesh.c1.toNat * mesh.c0.toNat)
    (fun st i jk => step st (((i * (mesh.c1.toNat * mesh.c0.toNat) + jk : Nat)) : Int))
    (fun st a => step st (a : Int)) mesh.c2.toNat (fun _ _ _ _ _ => rfl) init]
  apply List.foldl_ext
  intro st i hi
  exact inner i (List.mem_range.mp hi) st

/-! ## The serial reducer, address by address -/

theorem loop_grid_double_eq (mesh s : Vec3) (k0 k1 k2 : Int)
    (h0 : 0 ≤ k0) (l0 : k0 < mesh.c0) (h1 : 0 ≤ k1) (l1 : k1 < mesh.c1)
    (h2 : 0 ≤ k2) :
    loop_grid_double s k2 k1 k0 =
      address_to_grid (k2 * mesh.c0 * mesh.c1 + k1 * mesh.c0 + k0) mesh s := by
  rw [address_to_grid_of_cells k0 k1 k2 mesh s h0 l0 h1 l1 h2]
  rfl

theorem serial_body_eq_step (mesh s : Vec3) (hs : shift_valid s)
    (G : PointSymmetry) (st : MeshState) (k0 k1 k2 : Int)
    (h0 : 0 ≤ k0) (l0 : k0 < mesh.c0) (h1 : 0 ≤ k1) (l1 : k1 < mesh.c1)
    (h2 : 0 ≤ k2) :
    serial_body mesh s G st k2 k1 k0 =
      serial_step mesh s G st (k2 * mesh.c0 * mesh.c1 + k1 * mesh.c0 + k0) := by
  unfold serial_body serial_step
  have e := loop_grid_double_eq mesh s k0 k1 k2 h0 l0 h1 l1 h2
  have a : grid_to_address (loop_grid_double s k2 k1 k0) mesh s =
      k2 * mesh.c0 * mesh.c1 + k1 * mesh.c0 + k0 :=
    grid_to_address_double k0 k1 k2 mesh s hs
  simp only [a]
  rw [e]

theorem get_ir_reciprocal_mesh_eq (gp0 : Buf Vec3) (map0 : Buf Int)
    (mesh s : Vec3) (hm : mesh_positive mesh) (hs : shift_valid s)
    (G : PointSymmetry) :
    get_ir_reciprocal_mesh gp0 map0 mesh s G =
      for_loop (num_grid mesh) (serial_step mesh s G)
        ⟨gp0, for_loop (num_grid mesh) (fun m i => m.set i (-1)) map0, 0⟩ := by
  unfold get_ir_reciprocal_mesh
  exact mesh_loop_flat mesh hm _ _
    (fun st k0 k1 k2 h0 l0 h1 l1 h2 _ =>
      serial_body_eq_step mesh s hs G st k0 k1 k2 h0 l0 h1 l1 h2) _

theorem init_loop_get (map0 : Buf Int) (n : Nat) (b : Int) :
    (for_loop (n : Int) (fun m i => m.set i (-1)) map0).get b =
      if 0 ≤ b ∧ b < n then -1 else map0.get b := by
  induction n with
  | zero =>
    have : ¬ (0 ≤ b ∧ b < ((0 : Nat) : Int)) := by omega
    simp only [this, if_false]
    rfl
  | succ n ih =>
    have e : ((n + 1 : Nat) : Int) = (n : Int) + 1 := by push_cast; rfl
    rw [e, for_loop_succ, Buf.get_set, ih]
    by_cases hb : b = n
    · subst hb
      have : 0 ≤ (n : Int) ∧ (n : Int) < n + 1 := by omega
      simp [this]
    · by_cases hc : 0 ≤ b ∧ b < n
      · have : 0 ≤ b ∧ b < (n : Int) + 1 := by omega
        simp [hb, hc, this]
      · have : ¬ (0 ≤ b ∧ b < (n : Int) + 1) := by omega
        simp [hb, hc, this]

theorem rotated_address_range (mesh s : Vec3) (hm : mesh_positive mesh)
    (hs : shift_valid s) (R : Mat3) (g : Vec3) :
    rotated_address mesh s R g = -1 ∨
      (0 ≤ rotated_address mesh s R g ∧
        rotated_address mesh s R g < num_grid mesh) := by
  unfold rotated_address
  rw [get_vector_modulo_eq _ mesh hm]
  obtain ⟨p0, p1, p2⟩ := hm
  set v : Vec3 := ⟨(mat_multiply_matrix_vector_i3 R g).c0 % (mesh.c0 * 2),
    (mat_multiply_matrix_vector_i3 R g).c1 % (mesh.c1 * 2),
    (mat_multiply_matrix_vector_i3 R g).c2 % (mesh.c2 * 2)⟩ with hv
  have hr : in_double_range v mesh := by
    refine ⟨⟨Int.emod_nonneg _ (by omega), ?_⟩, ⟨Int.emod_nonneg _ (by omega), ?_⟩,
      ⟨Int.emod_nonneg _ (by omega), ?_⟩⟩
    · have := Int.emod_lt_of_pos (mat_multiply_matrix_vector_i3 R g).c0
        (show 0 < mesh.c0 * 2 by omega)
      simp only [hv]; omega
    · have := Int.emod_lt_of_pos (mat_multiply_matrix_vector_i3 R g).c1
        (show 0 < mesh.c1 * 2 by omega)
      simp only [hv]; omega
    · have := Int.emod_lt_of_pos (mat_multiply_matrix_vector_i3 R g).c2
        (show 0 < mesh.c2 * 2 by omega)
      simp only [hv]; omega
  by_cases hp : parity_ok v s
  · right
    exact (grid_address_range_or_sentinel v mesh s hs).1 hr hp
  · left
    exact (grid_address_range_or_sentinel v mesh s hs).2 hp

theorem rot_address_range (mesh s : Vec3) (hm : mesh_positive mesh)
    (hs : shift_valid s) (R : Mat3) (a : Int) :
    rot_address mesh s R a = -1 ∨
      (0 ≤ rot_address mesh s R a ∧ rot_address mesh s R a < num_grid mesh) :=
  rotated_address_range mesh s hm hs R _

theorem serial_rot_loop_spec (mesh s gd : Vec3) (a : Int) (map : Buf Int)
    (p : Mat3 → Bool)
    (hp : ∀ R, p R = true ↔ (rotated_address mesh s R gd > -1 ∧
      map.get (rotated_address mesh s R gd) > -1)) :
    ∀ G : List Mat3, serial_rot_loop mesh s gd a G map =
      match G.find? p with
      | some R => map.set a (map.get (rotated_address mesh s R gd))
      | none => map := by
  intro G
  induction G with
  | nil => rfl
  | cons R rest ih =>
    unfold serial_rot_loop
    by_cases h : p R = true
    · have h2 := (hp R).mp h
      simp only [List.find?, h, h2, and_self, if_true]
    · have h2 : ¬ (rotated_address mesh s R gd > -1 ∧
          map.get (rotated_address mesh s R gd) > -1) := fun c => h ((hp R).mpr c)
      have h3 : p R = false := by simpa using h
      simp only [List.find?, h3, h2, if_false]
      exact ih

theorem lower_spec (mesh s : Vec3) (a : Int) (R : Mat3) :
    lower mesh s a R = true ↔
      (-1 < rot_address mesh s R a ∧ rot_address mesh s R a < a) := by
  simp [lower]

theorem count_irreducible_succ (mesh s : Vec3) (G : PointSymmetry) (n : Nat) :
    count_irreducible mesh s G (n + 1) =
      count_irreducible mesh s G n +
        (if (G.find? (lower mesh s (n : Int))).isNone then 1 else 0) := by
  unfold count_irreducible
  rw [List.range_succ, List.countP_append]
  simp [List.countP_cons]

theorem serial_value_congr (mesh s : Vec3) (G : PointSymmetry)
    (m1 m2 : Buf Int) (b : Int)
    (h : ∀ c : Int, c < b → m1.get c = m2.get c) :
    serial_value mesh s G m1 b = serial_value mesh s G m2 b := by
  unfold serial_value
  cases hf : G.find? (lower mesh s b) with
  | none => rfl
  | some R =>
    have := (lower_spec mesh s b R).mp (List.find?_some hf)
    exact h _ this.2

theorem serial_step_inv (mesh s : Vec3) (hm : mesh_positive mesh)
    (hs : shift_valid s) (G : PointSymmetry) (n : Nat) (st : MeshState)
    (hn : (n : Int) < num_grid mesh) (inv : SerialInv mesh s G n st) :
    SerialInv mesh s G (n + 1) (serial_step mesh s G st n) := by
  have hp : ∀ R, lower mesh s n R = true ↔
      (rotated_address mesh s R (address_to_grid n mesh s) > -1 ∧
        st.map.get (rotated_address mesh s R (address_to_grid n mesh s)) > -1) := by
    intro R
    rw [lower_spec]
    show (-1 < rot_address mesh s R n ∧ rot_address mesh s R n < n) ↔
      (rot_address mesh s R n > -1 ∧ st.map.get (rot_address mesh s R n) > -1)
    rcases rot_address_range mesh s hm hs R n with h | ⟨h0, h1⟩
    · rw [h]; omega
    · constructor
      · rintro ⟨_, hlt⟩
        have := inv.nonneg _ h0 hlt
        omega
      · rintro ⟨_, hg⟩
        refine ⟨by omega, ?_⟩
        by_contra hc
        have := inv.untouched _ (by omega) h1
        omega
  have hloop := serial_rot_loop_spec mesh s (address_to_grid n mesh s) n st.map
    (lower mesh s n) hp G
  have hcnt := count_irreducible_succ mesh s G n
  unfold serial_step
  simp only [hloop]
  cases hf : G.find? (lower mesh s n) with
  | none =>
    simp only [hf, Option.isNone_none, if_true] at hcnt
    have hu : st.map.get (n : Int) = -1 := inv.untouched _ (le_refl _) hn
    simp only [hu, if_true]
    refine ⟨?_, ?_, ?_, ?_, ?_⟩
    · intro b h1 h2
      simp only [Buf.get_set]
      rw [if_neg (by omega)]
      exact inv.untouched b (by omega) h2
    · intro b h1 h2
      simp only [Buf.get_set]
      by_cases hb : b = n
      · simp only [hb, if_true]; omega
      · rw [if_neg hb]
        exact inv.nonneg b h1 (by omega)
    · intro b h1 h2
      by_cases hb : b = n
      · subst hb
        simp only [Buf.get_set, if_true]
        unfold serial_value
        rw [hf]
      · have e : serial_value mesh s G (st.map.set n n) b =
            serial_value mesh s G st.map b :=
          serial_value_congr mesh s G _ _ b (fun c hc => by
            simp only [Buf.get_set]
            rw [if_neg (by omega)])
        rw [e]
        simp only [Buf.get_set]
        rw [if_neg hb]
        exact inv.value b h1 (by omega)
    · simp only [inv.count, hcnt]
      push_cast
      rfl
    · intro b h1 h2
      simp only [Buf.get_set]
      by_cases hb : b = n
      · simp [hb]
      · rw [if_neg hb]
        exact inv.points b h1 (by omega)
  | some R =>
    simp only [hf, Option.isNone_some] at hcnt
    have hl := (lower_spec mesh s n R).mp (List.find?_some hf)
    have hge : 0 ≤ st.map.get (rot_address mesh s R n) :=
      inv.nonneg _ (by omega) hl.2
    have hra : rotated_address mesh s R (address_to_grid n mesh s) =
        rot_address mesh s R n := rfl
    simp only [hra]
    have hne : ¬ ((st.map.set n (st.map.get (rot_address mesh s R n))).get n = -1) := by
      simp only [Buf.get_set, if_true]
      omega
    simp only [hne, if_false]
    refine ⟨?_, ?_, ?_, ?_, ?_⟩
    · intro b h1 h2
      simp only [Buf.get_set]
      rw [if_neg (by omega)]
      exact inv.untouched b (by omega) h2
    · intro b h1 h2
      simp only [Buf.get_set]
      by_cases hb : b = n
      · simp only [hb, if_true]; exact hge
      · rw [if_neg hb]
        exact inv.nonneg b h1 (by omega)
    · intro b h1 h2
      by_cases hb : b = n
      · subst hb
        simp only [Buf.get_set, if_true]
        unfold serial_value
        rw [hf]
        simp only [Buf.get_set]
        rw [if_neg (by omega)]
      · have e : serial_value mesh s G
            (st.map.set n (st.map.get (rot_address mesh s R n))) b =
            serial_value mesh s G st.map b :=
          serial_value_congr mesh s G _ _ b (fun c hc => by
            simp only [Buf.get_set]
            rw [if_neg (by omega)])
        rw [e]
        simp only [Buf.get_set]
        rw [if_neg hb]
        exact inv.value b h1 (by omega)
    · simp only [inv.count, hcnt]
      simp
    · intro b h1 h2
      simp only [Buf.get_set]
      by_cases hb : b = n
      · simp [hb]
      · rw [if_neg hb]
        exact inv.points b h1 (by omega)

theorem serial_run_inv (mesh s : Vec3) (hm : mesh_positive mesh)
    (hs : shift_valid s) (G : PointSymmetry) (init : MeshState)
    (h0 : SerialInv mesh s G 0 init) :
    ∀ n : Nat, (n : Int) ≤ num_grid mesh →
      SerialInv mesh s G n (for_loop (n : Int) (serial_step mesh s G) init) := by
  intro n
  induction n with
  | zero =>
    intro _
    rw [show ((0 : Nat) : Int) = 0 from rfl, for_loop_zero]
    exact h0
  | succ n ih =>
    intro hn
    have e : ((n + 1 : Nat) : Int) = (n : Int) + 1 := by push_cast; rfl
    rw [e, for_loop_succ]
    exact serial_step_inv mesh s hm hs G n _ (by omega) (ih (by omega))

theorem num_grid_pos (mesh : Vec3) (hm : mesh_positive mesh) :
    0 < num_grid mesh := by
  obtain ⟨p0, p1, p2⟩ := hm
  exact mul_pos (mul_pos p0 p1) p2

theorem serial_final_inv (gp0 : Buf Vec3) (map0 : Buf Int) (mesh s : Vec3)
    (hm : mesh_positive mesh) (hs : shift_valid s) (G : PointSymmetry) :
    SerialInv mesh s G (num_grid mesh).toNat
      (get_ir_reciprocal_mesh gp0 map0 mesh s G) := by
  have hN : (((num_grid mesh).toNat : Nat) : Int) = num_grid mesh :=
    Int.toNat_of_nonneg (num_grid_pos mesh hm).le
  rw [get_ir_reciprocal_mesh_eq gp0 map0 mesh s hm hs G]
  have h := serial_run_inv mesh s hm hs G
    ⟨gp0, for_loop (num_grid mesh) (fun m i => m.set i (-1)) map0, 0⟩ ?_
    (num_grid mesh).toNat (by omega)
  · rw [hN] at h
    exact h
  · refine ⟨?_, ?_, ?_, ?_, ?_⟩
    · intro b h1 h2
      show (for_loop (num_grid mesh) (fun m i => m.set i (-1)) map0).get b = -1
      rw [← hN, init_loop_get]
      have : 0 ≤ b ∧ b < (((num_grid mesh).toNat : Nat) : Int) := by
        constructor
        · exact le_trans (by simp) h1
        · omega
      simp only [this, and_self, if_true]
    · intro b h1 h2
      simp at h2
      omega
    · intro b h1 h2
      simp at h2
      omega
    · simp [count_irreducible]
    · intro b h1 h2
      simp at h2
      omega

theorem serial_map_props (mesh s : Vec3) (G : PointSymmetry) (map : Buf Int)
    (k : Nat)
    (hv : ∀ b : Int, 0 ≤ b → b < k → map.get b = serial_value mesh s G map b) :
    ∀ b : Int, 0 ≤ b → b < k →
      map.get b ≤ b ∧ map.get (map.get b) = map.get b := by
  induction k with
  | zero =>
    intro b h0 h1
    simp at h1
    omega
  | succ k ih =>
    have ih2 := ih (fun b h0 h1 => hv b h0 (by push_cast; omega))
    intro b h0 h1
    by_cases hb : b < k
    · exact ih2 b h0 hb
    · have hv2 := hv b h0 h1
      unfold serial_value at hv2
      cases hf : G.find? (lower mesh s b) with
      | none =>
        rw [hf] at hv2
        simp only at hv2
        rw [hv2]
        exact ⟨le_refl _, hv2⟩
      | some R =>
        rw [hf] at hv2
        simp only at hv2
        have hl := (lower_spec mesh s b R).mp (List.find?_some hf)
        have h3 := ih2 (rot_address mesh s R b) (by omega) (by push_cast at h1; omega)
        rw [hv2]
        exact ⟨by omega, h3.2⟩

/-! ## The parallel reducer, address by address -/

theorem fold_min_le (f : Mat3 → Int) (G : List Mat3) :
    ∀ m0 : Int, fold_min f G m0 ≤ m0 := by
  induction G with
  | nil => intro m0; exact le_refl _
  | cons R rest ih =>
    intro m0
    show fold_min f rest (if f R > -1 ∧ f R < m0 then f R else m0) ≤ m0
    have := ih (if f R > -1 ∧ f R < m0 then f R else m0)
    split_ifs at this ⊢ <;> omega

theorem fold_min_le_of_mem (f : Mat3 → Int) (G : List Mat3) :
    ∀ m0 : Int, ∀ R ∈ G, f R > -1 → fold_min f G m0 ≤ f R := by
  induction G with
  | nil => intro m0 R hR; simp at hR
  | cons R0 rest ih =>
    intro m0 R hR hv
    show fold_min f rest (if f R0 > -1 ∧ f R0 < m0 then f R0 else m0) ≤ f R
    rcases List.mem_cons.mp hR with rfl | hmem
    · have := fold_min_le f rest (if f R > -1 ∧ f R < m0 then f R else m0)
      split_ifs at this ⊢ <;> omega
    · exact ih _ R hmem hv

theorem fold_min_cases (f : Mat3 → Int) (G : List Mat3) :
    ∀ m0 : Int, fold_min f G m0 = m0 ∨
      ∃ R ∈ G, f R > -1 ∧ fold_min f G m0 = f R := by
  induction G with
  | nil => intro m0; left; rfl
  | cons R0 rest ih =>
    intro m0
    show fold_min f rest (if f R0 > -1 ∧ f R0 < m0 then f R0 else m0) = m0 ∨
      ∃ R ∈ R0 :: rest, f R > -1 ∧
        fold_min f rest (if f R0 > -1 ∧ f R0 < m0 then f R0 else m0) = f R
    by_cases h : f R0 > -1 ∧ f R0 < m0
    · simp only [h, and_self, if_true]
      rcases ih (f R0) with e | ⟨R, hR, hv, e⟩
      · right
        exact ⟨R0, List.mem_cons_self _ _, h.1, e⟩
      · right
        exact ⟨R, List.mem_cons_of_mem _ hR, hv, e⟩
    · simp only [h, if_false]
      rcases ih m0 with e | ⟨R, hR, hv, e⟩
      · left; exact e
      · right
        exact ⟨R, List.mem_cons_of_mem _ hR, hv, e⟩

theorem openmp_rot_loop_get (mesh s gd : Vec3) (a : Int) (G : List Mat3) :
    ∀ (map : Buf Int) (b : Int),
      (openmp_rot_loop mesh s gd a G map).get b =
        if b = a then fold_min (fun R => rotated_address mesh s R gd) G (map.get a)
        else map.get b := by
  induction G with
  | nil =>
    intro map b
    by_cases hb : b = a
    · simp [openmp_rot_loop, fold_min, hb]
    · simp [openmp_rot_loop, hb]
  | cons R rest ih =>
    intro map b
    unfold openmp_rot_loop
    simp only [ih]
    by_cases hb : b = a
    · simp only [hb, if_true]
      show _ = fold_min _ rest
        (if rotated_address mesh s R gd > -1 ∧ rotated_address mesh s R gd < map.get a
          then rotated_address mesh s R gd else map.get a)
      by_cases hc : rotated_address mesh s R gd > -1 ∧
          rotated_address mesh s R gd < map.get a
      · simp only [hc, and_self, if_true, Buf.get_set]
      · simp only [hc, if_false]
    · simp only [hb, if_false]
      split_ifs
      · simp only [Buf.get_set, hb, if_false]
      · rfl

theorem openmp_body_eq_step (mesh s : Vec3) (hs : shift_valid s)
    (G : PointSymmetry) (st : MeshState) (k0 k1 k2 : Int)
    (h0 : 0 ≤ k0) (l0 : k0 < mesh.c0) (h1 : 0 ≤ k1) (l1 : k1 < mesh.c1)
    (h2 : 0 ≤ k2) :
    openmp_body mesh s G st k2 k1 k0 =
      openmp_step mesh s G st (k2 * mesh.c0 * mesh.c1 + k1 * mesh.c0 + k0) := by
  unfold openmp_body openmp_step
  have e := loop_grid_double_eq mesh s k0 k1 k2 h0 l0 h1 l1 h2
  have a : grid_to_address (loop_grid_double s k2 k1 k0) mesh s =
      k2 * mesh.c0 * mesh.c1 + k1 * mesh.c0 + k0 :=
    grid_to_address_double k0 k1 k2 mesh s hs
  simp only [a]
  rw [e]

theorem openmp_step_get (mesh s : Vec3) (G : PointSymmetry) (st : MeshState)
    (a b : Int) :
    (openmp_step mesh s G st a).map.get b =
      if b = a then min_address mesh s G a else st.map.get b := by
  unfold openmp_step
  simp only [openmp_rot_loop_get, Buf.get_set]
  by_cases hb : b = a
  · simp only [hb, if_true]
    rfl
  · simp only [hb, if_false]

theorem openmp_run_get (mesh s : Vec3) (G : PointSymmetry) (init : MeshState)
    (n : Nat) (b : Int) :
    (for_loop (n : Int) (openmp_step mesh s G) init).map.get b =
      if 0 ≤ b ∧ b < n then min_address mesh s G b else init.map.get b := by
  induction n with
  | zero =>
    have : ¬ (0 ≤ b ∧ b < ((0 : Nat) : Int)) := by omega
    simp only [this, if_false]
    rfl
  | succ n ih =>
    have e : ((n + 1 : Nat) : Int) = (n : Int) + 1 := by push_cast; rfl
    rw [e, for_loop_succ, openmp_step_get, ih]
    by_cases hb : b = n
    · subst hb
      have : 0 ≤ (n : Int) ∧ (n : Int) < n + 1 := by omega
      simp [this]
    · by_cases hc : 0 ≤ b ∧ b < n
      · have : 0 ≤ b ∧ b < (n : Int) + 1 := by omega
        simp [hb, hc, this]
      · have : ¬ (0 ≤ b ∧ b < (n : Int) + 1) := by omega
        simp [hb, hc, this]

theorem count_loop_eq (map : Buf Int) (n : Nat) :
    for_loop (n : Int) (fun c i => if map.get i = i then c + 1 else c) 0 =
      count_fixed map n := by
  unfold count_fixed
  rw [Int.toNat_natCast]
  induction n with
  | zero => rfl
  | succ n ih =>
    have e : ((n + 1 : Nat) : Int) = (n : Int) + 1 := by push_cast; rfl
    rw [e, for_loop_succ, ih, List.range_succ, List.countP_append]
    by_cases h : map.get (n : Int) = n
    · simp [List.countP_cons, h]
    · simp [List.countP_cons, h]

theorem openmp_map_get (gp0 : Buf Vec3) (map0 : Buf Int) (mesh s : Vec3)
    (hm : mesh_positive mesh) (hs : shift_valid s) (G : PointSymmetry)
    (b : Int) (h0 : 0 ≤ b) (h1 : b < num_grid mesh) :
    (get_ir_reciprocal_mesh_openmp gp0 map0 mesh s G).map.get b =
      min_address mesh s G b := by
  have hN : (((num_grid mesh).toNat : Nat) : Int) = num_grid mesh :=
    Int.toNat_of_nonneg (num_grid_pos mesh hm).le
  unfold get_ir_reciprocal_mesh_openmp
  simp only
  rw [mesh_loop_flat mesh hm _ (openmp_step mesh s G)
    (fun st k0 k1 k2 h0 l0 h1 l1 h2 _ =>
      openmp_body_eq_step mesh s hs G st k0 k1 k2 h0 l0 h1 l1 h2)]
  have := openmp_run_get mesh s G ⟨gp0, map0, 0⟩ (num_grid mesh).toNat b
  rw [hN] at this
  rw [this, if_pos ⟨h0, h1⟩]

theorem openmp_num_ir (gp0 : Buf Vec3) (map0 : Buf Int) (mesh s : Vec3)
    (G : PointSymmetry) :
    (get_ir_reciprocal_mesh_openmp gp0 map0 mesh s G).num_ir =
      count_fixed (get_ir_reciprocal_mesh_openmp gp0 map0 mesh s G).map
        (num_grid mesh) := by
  unfold get_ir_reciprocal_mesh_openmp
  simp only
  by_cases hN : 0 ≤ num_grid mesh
  · have e : (((num_grid mesh).toNat : Nat) : Int) = num_grid mesh :=
      Int.toNat_of_nonneg hN
    rw [← e]
    exact count_loop_eq _ _
  · have e : (num_grid mesh).toNat = 0 := by omega
    simp [for_loop, count_fixed, e]

/-! ## The action of the rotations on the addresses -/

theorem mul_vector_assoc (A B : Mat3) (v : Vec3) :
    mat_multiply_matrix_vector_i3 (mat_multiply_matrix_i3 A B) v =
      mat_multiply_matrix_vector_i3 A (mat_multiply_matrix_vector_i3 B v) := by
  unfold mat_multiply_matrix_vector_i3 mat_multiply_matrix_i3
  simp only [Vec3.mk.injEq]
  refine ⟨by ring, by ring, by ring⟩

theorem identity_mul_vector (v : Vec3) :
    mat_multiply_matrix_vector_i3 identity v = v := by
  unfold mat_multiply_matrix_vector_i3 identity
  cases v
  simp

theorem emod_eq_of_sub_eq (x y m t : Int) (h : x = y + m * t) :
    x % m = y % m := by
  rw [h, Int.add_mul_emod_self_left]

theorem row_congr (a b c n0 n1 n2 m v0 v1 v2 : Int)
    (ha : m ∣ a * n0) (hb : m ∣ b * n1) (hc : m ∣ c * n2) :
    (a * (v0 % (n0 * 2)) + b * (v1 % (n1 * 2)) + c * (v2 % (n2 * 2))) % (m * 2) =
      (a * v0 + b * v1 + c * v2) % (m * 2) := by
  obtain ⟨ta, hta⟩ := ha
  obtain ⟨tb, htb⟩ := hb
  obtain ⟨tc, htc⟩ := hc
  have e0 := Int.emod_add_ediv v0 (n0 * 2)
  have e1 := Int.emod_add_ediv v1 (n1 * 2)
  have e2 := Int.emod_add_ediv v2 (n2 * 2)
  apply emod_eq_of_sub_eq _ _ _
    (-(ta * (v0 / (n0 * 2)) + tb * (v1 / (n1 * 2)) + tc * (v2 / (n2 * 2))))
  have f0 : a * (v0 % (n0 * 2)) = a * v0 - (a * n0) * 2 * (v0 / (n0 * 2)) := by
    have : v0 % (n0 * 2) = v0 - n0 * 2 * (v0 / (n0 * 2)) := by linarith
    rw [this]; ring
  have f1 : b * (v1 % (n1 * 2)) = b * v1 - (b * n1) * 2 * (v1 / (n1 * 2)) := by
    have : v1 % (n1 * 2) = v1 - n1 * 2 * (v1 / (n1 * 2)) := by linarith
    rw [this]; ring
  have f2 : c * (v2 % (n2 * 2)) = c * v2 - (c * n2) * 2 * (v2 / (n2 * 2)) := by
    have : v2 % (n2 * 2) = v2 - n2 * 2 * (v2 / (n2 * 2)) := by linarith
    rw [this]; ring
  rw [f0, f1, f2, hta, htb, htc]
  ring

theorem modulo_rotate_congr (mesh : Vec3) (hm : mesh_positive mesh) (R : Mat3)
    (hc : compatible mesh R) (v : Vec3) :
    get_vector_modulo
        (mat_multiply_matrix_vector_i3 R (get_vector_modulo v (mesh_double mesh)))
        (mesh_double mesh) =
      get_vector_modulo (mat_multiply_matrix_vector_i3 R v) (mesh_double mesh) := by
  obtain ⟨⟨a0, a1, a2⟩, ⟨b0, b1, b2⟩, ⟨c0, c1, c2⟩⟩ := hc
  rw [get_vector_modulo_eq _ mesh hm, get_vector_modulo_eq _ mesh hm,
    get_vector_modulo_eq _ mesh hm]
  unfold mat_multiply_matrix_vector_i3
  simp only [Vec3.mk.injEq]
  exact ⟨row_congr _ _ _ _ _ _ _ _ _ _ a0 a1 a2,
    row_congr _ _ _ _ _ _ _ _ _ _ b0 b1 b2,
    row_congr _ _ _ _ _ _ _ _ _ _ c0 c1 c2⟩

theorem address_to_grid_of_address (g mesh s : Vec3) (hs : shift_valid s)
    (hr : in_double_range g mesh) (hp : parity_ok g s) :
    address_to_grid (grid_to_address g mesh s) mesh s = g := by
  obtain ⟨s0, s1, s2⟩ := hs
  obtain ⟨r0, r1, r2⟩ := hr
  obtain ⟨p0, p1, p2⟩ := hp
  have e : g = ⟨(g.c0 - s.c0) / 2 * 2 + s.c0, (g.c1 - s.c1) / 2 * 2 + s.c1,
      (g.c2 - s.c2) / 2 * 2 + s.c2⟩ := by
    cases g
    simp only [Vec3.mk.injEq] at *
    refine ⟨by omega, by omega, by omega⟩
  rw [e, grid_to_address_double _ _ _ mesh s ⟨s0, s1, s2⟩,
    address_to_grid_of_cells _ _ _ mesh s (by omega) (by omega) (by omega)
      (by omega) (by omega)]

theorem modulo_in_range (v mesh : Vec3) (hm : mesh_positive mesh) :
    in_double_range (get_vector_modulo v (mesh_double mesh)) mesh := by
  rw [get_vector_modulo_eq _ mesh hm]
  obtain ⟨p0, p1, p2⟩ := hm
  have a0 := Int.emod_lt_of_pos v.c0 (show 0 < mesh.c0 * 2 by omega)
  have a1 := Int.emod_lt_of_pos v.c1 (show 0 < mesh.c1 * 2 by omega)
  have a2 := Int.emod_lt_of_pos v.c2 (show 0 < mesh.c2 * 2 by omega)
  refine ⟨⟨Int.emod_nonneg _ (by omega), by simp only; omega⟩,
    ⟨Int.emod_nonneg _ (by omega), by simp only; omega⟩,
    ⟨Int.emod_nonneg _ (by omega), by simp only; omega⟩⟩

theorem address_to_grid_rotated (mesh s : Vec3) (hm : mesh_positive mesh)
    (hs : shift_valid s) (R : Mat3) (g : Vec3)
    (hv : rotated_address mesh s R g > -1) :
    address_to_grid (rotated_address mesh s R g) mesh s =
      get_vector_modulo (mat_multiply_matrix_vector_i3 R g) (mesh_double mesh) := by
  unfold rotated_address at hv ⊢
  have hr := modulo_in_range (mat_multiply_matrix_vector_i3 R g) mesh hm
  by_cases hp : parity_ok
      (get_vector_modulo (mat_multiply_matrix_vector_i3 R g) (mesh_double mesh)) s
  · exact address_to_grid_of_address _ mesh s hs hr hp
  · have := (grid_address_range_or_sentinel _ mesh s hs).2 hp
    omega

theorem rot_address_mul (mesh s : Vec3) (hm : mesh_positive mesh)
    (hs : shift_valid s) (A B : Mat3) (hc : compatible mesh A) (a : Int)
    (hv : rot_address mesh s B a > -1) :
    rot_address mesh s A (rot_address mesh s B a) =
      rot_address mesh s (mat_multiply_matrix_i3 A B) a := by
  unfold rot_address at hv ⊢
  rw [address_to_grid_rotated mesh s hm hs B _ hv]
  unfold rotated_address
  rw [modulo_rotate_congr mesh hm A hc, mul_vector_assoc]

theorem address_to_grid_props (a : Int) (mesh s : Vec3)
    (hm : mesh_positive mesh) (hs : shift_valid s) (h0 : 0 ≤ a)
    (h1 : a < num_grid mesh) :
    in_double_range (address_to_grid a mesh s) mesh ∧
      parity_ok (address_to_grid a mesh s) s := by
  obtain ⟨k0, k1, k2, ⟨a0, b0⟩, ⟨a1, b1⟩, ⟨a2, b2⟩, rfl⟩ :=
    address_cells a mesh hm h0 h1
  rw [address_to_grid_of_cells k0 k1 k2 mesh s a0 b0 a1 b1 a2]
  obtain ⟨s0, s1, s2⟩ := hs
  refine ⟨⟨⟨?_, ?_⟩, ⟨?_, ?_⟩, ⟨?_, ?_⟩⟩, ⟨?_, ?_, ?_⟩⟩ <;> simp only <;> omega

theorem rot_address_identity (mesh s : Vec3) (hm : mesh_positive mesh)
    (hs : shift_valid s) (a : Int) (h0 : 0 ≤ a) (h1 : a < num_grid mesh) :
    rot_address mesh s identity a = a := by
  unfold rot_address rotated_address
  rw [identity_mul_vector, get_vector_modulo_eq _ mesh hm]
  obtain ⟨⟨⟨r0, r0'⟩, ⟨r1, r1'⟩, ⟨r2, r2'⟩⟩, _⟩ :=
    address_to_grid_props a mesh s hm hs h0 h1
  rw [Int.emod_eq_of_lt r0 (by omega), Int.emod_eq_of_lt r1 (by omega),
    Int.emod_eq_of_lt r2 (by omega)]
  exact address_to_grid_round_trip a mesh s hm hs h0 h1

theorem min_address_cases (mesh s : Vec3) (G : PointSymmetry) (a : Int) :
    min_address mesh s G a = a ∨
      ∃ R ∈ G, rot_address mesh s R a > -1 ∧
        min_address mesh s G a = rot_address mesh s R a :=
  fold_min_cases (fun R => rot_address mesh s R a) G a

theorem min_address_le (mesh s : Vec3) (G : PointSymmetry) (a : Int) :
    min_address mesh s G a ≤ a :=
  fold_min_le (fun R => rot_address mesh s R a) G a

theorem min_address_le_of_mem (mesh s : Vec3) (G : PointSymmetry) (a : Int)
    (R : Mat3) (hR : R ∈ G) (hv : rot_address mesh s R a > -1) :
    min_address mesh s G a ≤ rot_address mesh s R a :=
  fold_min_le_of_mem (fun R => rot_address mesh s R a) G a R hR hv

theorem min_address_nonneg (mesh s : Vec3) (G : PointSymmetry) (a : Int)
    (h0 : 0 ≤ a) : 0 ≤ min_address mesh s G a := by
  rcases min_address_cases mesh s G a with e | ⟨R, _, hv, e⟩
  · omega
  · omega

theorem min_address_idem (mesh s : Vec3) (hm : mesh_positive mesh)
    (hs : shift_valid s) (G : PointSymmetry)
    (hmul : ∀ A ∈ G, ∀ B ∈ G, mat_multiply_matrix_i3 A B ∈ G)
    (hc : group_compatible mesh G) (a : Int) :
    min_address mesh s G (min_address mesh s G a) = min_address mesh s G a := by
  rcases min_address_cases mesh s G a with e | ⟨R0, hR0, hv, e⟩
  · rw [e]
    exact e
  · rw [e]
    apply le_antisymm (min_address_le _ _ _ _)
    rcases min_address_cases mesh s G (rot_address mesh s R0 a) with
      e2 | ⟨R, hR, hv2, e2⟩
    · rw [e2]
    · rw [e2, rot_address_mul mesh s hm hs R R0 (hc R hR) a hv, ← e]
      apply min_address_le_of_mem _ _ _ _ _ (hmul R hR R0 hR0)
      rw [← rot_address_mul mesh s hm hs R R0 (hc R hR) a hv]
      exact hv2

theorem min_address_orbit (mesh s : Vec3) (hm : mesh_positive mesh)
    (hs : shift_valid s) (G : PointSymmetry) (hg : is_point_group G)
    (hc : group_compatible mesh G) (a : Int) (h0 : 0 ≤ a)
    (h1 : a < num_grid mesh) (R : Mat3) (hR : R ∈ G)
    (hv : rot_address mesh s R a > -1) :
    min_address mesh s G (rot_address mesh s R a) = min_address mesh s G a := by
  obtain ⟨_, hmul, hinv⟩ := hg
  obtain ⟨Ri, hRi, _, hRiR⟩ := hinv R hR
  have back : rot_address mesh s Ri (rot_address mesh s R a) = a := by
    rw [rot_address_mul mesh s hm hs Ri R (hc Ri hRi) a hv, hRiR]
    exact rot_address_identity mesh s hm hs a h0 h1
  apply le_antisymm
  · rcases min_address_cases mesh s G a with e | ⟨R2, hR2, hv2, e⟩
    · rw [e]
      have := min_address_le_of_mem mesh s G (rot_address mesh s R a) Ri hRi
        (by rw [back]; omega)
      rw [back] at this
      exact this
    · rw [e]
      have e3 : rot_address mesh s R2 a =
          rot_address mesh s (mat_multiply_matrix_i3 R2 Ri)
            (rot_address mesh s R a) := by
        rw [← rot_address_mul mesh s hm hs R2 Ri (hc R2 hR2) _
          (by rw [back]; omega), back]
      rw [e3]
      apply min_address_le_of_mem _ _ _ _ _ (hmul R2 hR2 Ri hRi)
      rw [← e3]
      exact hv2
  · rcases min_address_cases mesh s G (rot_address mesh s R a) with
      e | ⟨R2, hR2, hv2, e⟩
    · rw [e]
      exact min_address_le_of_mem mesh s G a R hR hv
    · rw [e, rot_address_mul mesh s hm hs R2 R (hc R2 hR2) a hv]
      apply min_address_le_of_mem _ _ _ _ _ (hmul R2 hR2 R hR)
      rw [← rot_address_mul mesh s hm hs R2 R (hc R2 hR2) a hv]
      exact hv2

theorem min_address_fixed_iff (mesh s : Vec3) (G : PointSymmetry) (a : Int) :
    min_address mesh s G a = a ↔ G.find? (lower mesh s a) = none := by
  rw [List.find?_eq_none]
  constructor
  · intro e R hR hl
    have hl2 := (lower_spec mesh s a R).mp hl
    have := min_address_le_of_mem mesh s G a R hR hl2.1
    omega
  · intro h
    rcases min_address_cases mesh s G a with e | ⟨R, hR, hv, e⟩
    · exact e
    · have h2 := h R hR
      rw [lower_spec] at h2
      have := min_address_le mesh s G a
      omega

theorem serial_eq_min (mesh s : Vec3) (hm : mesh_positive mesh)
    (hs : shift_valid s) (G : PointSymmetry) (hg : is_point_group G)
    (hc : group_compatible mesh G) (map : Buf Int) (k : Nat)
    (hk : (k : Int) ≤ num_grid mesh)
    (hv : ∀ b : Int, 0 ≤ b → b < k → map.get b = serial_value mesh s G map b) :
    ∀ b : Int, 0 ≤ b → b < k → map.get b = min_address mesh s G b := by
  induction k with
  | zero =>
    intro b h0 h1
    simp at h1
    omega
  | succ k ih =>
    have ih2 := ih (by push_cast at hk; omega)
      (fun b h0 h1 => hv b h0 (by push_cast; omega))
    intro b h0 h1
    by_cases hb : b < k
    · exact ih2 b h0 hb
    · have hv2 := hv b h0 h1
      unfold serial_value at hv2
      cases hf : G.find? (lower mesh s b) with
      | none =>
        rw [hf] at hv2
        simp only at hv2
        rw [hv2, (min_address_fixed_iff mesh s G b).mpr hf]
      | some R =>
        rw [hf] at hv2
        simp only at hv2
        have hl := (lower_spec mesh s b R).mp (List.find?_some hf)
        have hR := List.mem_of_find?_eq_some hf
        push_cast at h1 hk
        rw [hv2, ih2 _ (by omega) (by omega)]
        exact min_address_orbit mesh s hm hs G hg hc b h0 (by omega) R hR hl.1

theorem serial_map_eq_min (gp0 : Buf Vec3) (map0 : Buf Int) (mesh s : Vec3)
    (hm : mesh_positive mesh) (hs : shift_valid s) (G : PointSymmetry)
    (hg : is_point_group G) (hc : group_compatible mesh G) (b : Int)
    (h0 : 0 ≤ b) (h1 : b < num_grid mesh) :
    (get_ir_reciprocal_mesh gp0 map0 mesh s G).map.get b =
      min_address mesh s G b := by
  have hN : (((num_grid mesh).toNat : Nat) : Int) = num_grid mesh :=
    Int.toNat_of_nonneg (num_grid_pos mesh hm).le
  have inv := serial_final_inv gp0 map0 mesh s hm hs G
  exact serial_eq_min mesh s hm hs G hg hc _ (num_grid mesh).toNat (by omega)
    inv.value b h0 (by omega)

theorem serial_map_props_final (gp0 : Buf Vec3) (map0 : Buf Int) (mesh s : Vec3)
    (hm : mesh_positive mesh) (hs : shift_valid s) (G : PointSymmetry) (a : Int)
    (h0 : 0 ≤ a) (h1 : a < num_grid mesh) :
    0 ≤ (get_ir_reciprocal_mesh gp0 map0 mesh s G).map.get a ∧
    (get_ir_reciprocal_mesh gp0 map0 mesh s G).map.get a ≤ a ∧
    (get_ir_reciprocal_mesh gp0 map0 mesh s G).map.get
        ((get_ir_reciprocal_mesh gp0 map0 mesh s G).map.get a) =
      (get_ir_reciprocal_mesh gp0 map0 mesh s G).map.get a := by
  have hN : (((num_grid mesh).toNat : Nat) : Int) = num_grid mesh :=
    Int.toNat_of_nonneg (num_grid_pos mesh hm).le
  have inv := serial_final_inv gp0 map0 mesh s hm hs G
  have h := serial_map_props mesh s G _ (num_grid mesh).toNat inv.value a h0
    (by omega)
  exact ⟨inv.nonneg a h0 (by omega), h.1, h.2⟩

theorem serial_fixed_iff (gp0 : Buf Vec3) (map0 : Buf Int) (mesh s : Vec3)
    (hm : mesh_positive mesh) (hs : shift_valid s) (G : PointSymmetry) (a : Int)
    (h0 : 0 ≤ a) (h1 : a < num_grid mesh) :
    (get_ir_reciprocal_mesh gp0 map0 mesh s G).map.get a = a ↔
      G.find? (lower mesh s a) = none := by
  have hN : (((num_grid mesh).toNat : Nat) : Int) = num_grid mesh :=
    Int.toNat_of_nonneg (num_grid_pos mesh hm).le
  have inv := serial_final_inv gp0 map0 mesh s hm hs G
  have hv := inv.value a h0 (by omega)
  unfold serial_value at hv
  cases hf : G.find? (lower mesh s a) with
  | none =>
    rw [hf] at hv
    simp only at hv
    simp [hv]
  | some R =>
    rw [hf] at hv
    simp only at hv
    have hl := (lower_spec mesh s a R).mp (List.find?_some hf)
    have := (serial_map_props_final gp0 map0 mesh s hm hs G
      (rot_address mesh s R a) (by omega) (by omega)).2.1
    constructor
    · intro e
      omega
    · intro e
      cases e

theorem serial_num_ir (gp0 : Buf Vec3) (map0 : Buf Int) (mesh s : Vec3)
    (hm : mesh_positive mesh) (hs : shift_valid s) (G : PointSymmetry) :
    (get_ir_reciprocal_mesh gp0 map0 mesh s G).num_ir =
      (count_irreducible mesh s G (num_grid mesh).toNat : Int) :=
  (serial_final_inv gp0 map0 mesh s hm hs G).count

theorem mem_range_address (mesh : Vec3) (hm : mesh_positive mesh) (b : Nat)
    (hb : b ∈ List.range (num_grid mesh).toNat) :
    0 ≤ (b : Int) ∧ (b : Int) < num_grid mesh := by
  have hN : (((num_grid mesh).toNat : Nat) : Int) = num_grid mesh :=
    Int.toNat_of_nonneg (num_grid_pos mesh hm).le
  have := List.mem_range.mp hb
  omega

theorem serial_count_fixed (gp0 : Buf Vec3) (map0 : Buf Int) (mesh s : Vec3)
    (hm : mesh_positive mesh) (hs : shift_valid s) (G : PointSymmetry) :
    count_fixed (get_ir_reciprocal_mesh gp0 map0 mesh s G).map (num_grid mesh) =
      (count_irreducible mesh s G (num_grid mesh).toNat : Int) := by
  unfold count_fixed count_irreducible
  congr 1
  apply List.countP_congr
  intro b hb
  obtain ⟨h0, h1⟩ := mem_range_address mesh hm b hb
  rw [decide_eq_true_iff, serial_fixed_iff gp0 map0 mesh s hm hs G b h0 h1]
  simp

theorem openmp_count_fixed (gp0 : Buf Vec3) (map0 : Buf Int) (mesh s : Vec3)
    (hm : mesh_positive mesh) (hs : shift_valid s) (G : PointSymmetry) :
    count_fixed (get_ir_reciprocal_mesh_openmp gp0 map0 mesh s G).map
        (num_grid mesh) =
      (count_irreducible mesh s G (num_grid mesh).toNat : Int) := by
  unfold count_fixed count_irreducible
  congr 1
  apply List.countP_congr
  intro b hb
  obtain ⟨h0, h1⟩ := mem_range_address mesh hm b hb
  rw [decide_eq_true_iff, openmp_map_get gp0 map0 mesh s hm hs G b h0 h1,
    min_address_fixed_iff]
  simp

/-! ## C5, C6: addressing -/

/-- C6: `grid_to_address` returns `-1` when some component of `g` has a parity
different from the shift, for every integer triple `g`; otherwise it
returns `g2' * N0 * N1 + g1' * N0 + g0'` where `2 * gi'` is exactly
`g_i - s_i`; and for `g` with every `g_i` in `[0, 2 * N_i)` the result of
an in-parity `g` lies in `[0, N0 * N1 * N2)`, so that `-1` is returned if and
only if there is a parity mismatch. -/
theorem grid_to_address_sentinel_and_formula (g mesh s : Vec3)
    (hs : shift_valid s) :
    (¬ parity_ok g s → grid_to_address g mesh s = -1) ∧
    (parity_ok g s → ∃ g0 g1 g2 : Int,
      2 * g0 = g.c0 - s.c0 ∧ 2 * g1 = g.c1 - s.c1 ∧ 2 * g2 = g.c2 - s.c2 ∧
      grid_to_address g mesh s = g2 * mesh.c0 * mesh.c1 + g1 * mesh.c0 + g0) ∧
    (in_double_range g mesh → parity_ok g s →
      0 ≤ grid_to_address g mesh s ∧ grid_to_address g mesh s < num_grid mesh) ∧
    (in_double_range g mesh →
      (grid_to_address g mesh s = -1 ↔ ¬ parity_ok g s)) := by
  have hrange : in_double_range g mesh → parity_ok g s →
      0 ≤ grid_to_address g mesh s ∧
        grid_to_address g mesh s < num_grid mesh := by
    intro hr hp
    rw [grid_to_address_eq g mesh s hs, if_pos hp]
    obtain ⟨s0, s1, s2⟩ := hs
    obtain ⟨r0, r1, r2⟩ := hr
    obtain ⟨p0, p1, p2⟩ := hp
    exact address_bound _ _ _ _ _ _ (by omega) (by omega) (by omega) (by omega)
      (by omega) (by omega)
  refine ⟨?_, ?_, hrange, ?_⟩
  · intro hp
    rw [grid_to_address_eq g mesh s hs, if_neg hp]
  · intro hp
    refine ⟨(g.c0 - s.c0) / 2, (g.c1 - s.c1) / 2, (g.c2 - s.c2) / 2, ?_, ?_, ?_, ?_⟩
    · obtain ⟨p0, _, _⟩ := hp
      omega
    · obtain ⟨_, p1, _⟩ := hp
      omega
    · obtain ⟨_, _, p2⟩ := hp
      omega
    · rw [grid_to_address_eq g mesh s hs, if_pos hp]
  · intro hr
    constructor
    · intro h hp
      have := (hrange hr hp).1
      omega
    · intro hp
      rw [grid_to_address_eq g mesh s hs, if_neg hp]

/-- Witness of C6 on the mesh (2,3,4) with shift (1,0,1): the in-parity
coordinate (3,4,7) has address 23 and an address in range; flipping the
parity of the first component gives the sentinel. -/
theorem grid_to_address_sentinel_and_formula_witness :
    shift_valid ⟨1, 0, 1⟩ ∧ in_double_range ⟨3, 4, 7⟩ ⟨2, 3, 4⟩ ∧
      parity_ok ⟨3, 4, 7⟩ ⟨1, 0, 1⟩ ∧ ¬ parity_ok ⟨2, 4, 7⟩ ⟨1, 0, 1⟩ ∧
      (0 ≤ grid_to_address ⟨3, 4, 7⟩ ⟨2, 3, 4⟩ ⟨1, 0, 1⟩ ∧
        grid_to_address ⟨3, 4, 7⟩ ⟨2, 3, 4⟩ ⟨1, 0, 1⟩ < num_grid ⟨2, 3, 4⟩) ∧
      grid_to_address ⟨2, 4, 7⟩ ⟨2, 3, 4⟩ ⟨1, 0, 1⟩ = -1 :=
  ⟨by decide, by decide, by decide, by decide,
    (grid_to_address_sentinel_and_formula ⟨3, 4, 7⟩ ⟨2, 3, 4⟩ ⟨1, 0, 1⟩
      (by decide)).2.2.1 (by decide) (by decide),
    (grid_to_address_sentinel_and_formula ⟨2, 4, 7⟩ ⟨2, 3, 4⟩ ⟨1, 0, 1⟩
      (by decide)).1 (by decide)⟩

/-- C5: on a mesh with positive divisions and a shift in `{0,1}^3`,
(i) `address_to_grid (grid_to_address g) = g` for every doubled coordinate
`g_i = 2 * k_i + s_i` with `0 ≤ k_i < N_i`, and
(ii) `grid_to_address (address_to_grid a) = a` for every address
`0 ≤ a < N0 * N1 * N2`. -/
theorem address_round_trip (mesh s : Vec3) (hm : mesh_positive mesh)
    (hs : shift_valid s) :
    (∀ k0 k1 k2 : Int, 0 ≤ k0 → k0 < mesh.c0 → 0 ≤ k1 → k1 < mesh.c1 →
      0 ≤ k2 → k2 < mesh.c2 →
      address_to_grid
        (grid_to_address ⟨2 * k0 + s.c0, 2 * k1 + s.c1, 2 * k2 + s.c2⟩ mesh s)
        mesh s = ⟨2 * k0 + s.c0, 2 * k1 + s.c1, 2 * k2 + s.c2⟩) ∧
    (∀ a : Int, 0 ≤ a → a < num_grid mesh →
      grid_to_address (address_to_grid a mesh s) mesh s = a) := by
  constructor
  · intro k0 k1 k2 a0 b0 a1 b1 a2 _
    have e : (⟨2 * k0 + s.c0, 2 * k1 + s.c1, 2 * k2 + s.c2⟩ : Vec3) =
        ⟨k0 * 2 + s.c0, k1 * 2 + s.c1, k2 * 2 + s.c2⟩ := by
      simp [mul_comm]
    rw [e, grid_to_address_double k0 k1 k2 mesh s hs,
      address_to_grid_of_cells k0 k1 k2 mesh s a0 b0 a1 b1 a2]
  · intro a h0 h1
    exact address_to_grid_round_trip a mesh s hm hs h0 h1

/-- Witness of C5 on the mesh (2,3,4) with shift (1,0,1), at the cell
(1,2,3) and at the address 17. -/
theorem address_round_trip_witness :
    mesh_positive ⟨2, 3, 4⟩ ∧ shift_valid ⟨1, 0, 1⟩ ∧
      address_to_grid (grid_to_address ⟨3, 4, 7⟩ ⟨2, 3, 4⟩ ⟨1, 0, 1⟩)
        ⟨2, 3, 4⟩ ⟨1, 0, 1⟩ = ⟨3, 4, 7⟩ ∧
      grid_to_address (address_to_grid 17 ⟨2, 3, 4⟩ ⟨1, 0, 1⟩)
        ⟨2, 3, 4⟩ ⟨1, 0, 1⟩ = 17 :=
  ⟨by decide, by decide,
    (address_round_trip ⟨2, 3, 4⟩ ⟨1, 0, 1⟩ (by decide) (by decide)).1 1 2 3
      (by decide) (by decide) (by decide) (by decide) (by decide) (by decide),
    (address_round_trip ⟨2, 3, 4⟩ ⟨1, 0, 1⟩ (by decide) (by decide)).2 17
      (by decide) (by decide)⟩

/-! ## C1 to C4, C7: the reduction maps -/

/-- C1: orbit closure. For a mesh with positive divisions, a shift in
`{0,1}^3` and a point group `G` compatible with the mesh, the maps written
by `get_ir_reciprocal_mesh` and by `get_ir_reciprocal_mesh_openmp` satisfy:
for every address `a` in `[0, N0*N1*N2)` and every `R` in `G`, either
`grid_to_address (modulo (R * g(a), 2N))` is `-1`, or the map has the same
entry at that address as at `a`. -/
theorem orbit_closure (gp0 : Buf Vec3) (map0 : Buf Int) (mesh s : Vec3)
    (G : PointSymmetry) (hm : mesh_positive mesh) (hs : shift_valid s)
    (hg : is_point_group G) (hc : group_compatible mesh G) (a : Int)
    (h0 : 0 ≤ a) (h1 : a < num_grid mesh) (R : Mat3) (hR : R ∈ G) :
    (grid_to_address
        (get_vector_modulo
          (mat_multiply_matrix_vector_i3 R (address_to_grid a mesh s))
          (mesh_double mesh)) mesh s = -1 ∨
      (get_ir_reciprocal_mesh gp0 map0 mesh s G).map.get
        (grid_to_address
          (get_vector_modulo
            (mat_multiply_matrix_vector_i3 R (address_to_grid a mesh s))
            (mesh_double mesh)) mesh s) =
        (get_ir_reciprocal_mesh gp0 map0 mesh s G).map.get a) ∧
    (grid_to_address
        (get_vector_modulo
          (mat_multiply_matrix_vector_i3 R (address_to_grid a mesh s))
          (mesh_double mesh)) mesh s = -1 ∨
      (get_ir_reciprocal_mesh_openmp gp0 map0 mesh s G).map.get
        (grid_to_address
          (get_vector_modulo
            (mat_multiply_matrix_vector_i3 R (address_to_grid a mesh s))
            (mesh_double mesh)) mesh s) =
        (get_ir_reciprocal_mesh_openmp gp0 map0 mesh s G).map.get a) := by
  show (rot_address mesh s R a = -1 ∨
      (get_ir_reciprocal_mesh gp0 map0 mesh s G).map.get (rot_address mesh s R a) =
        (get_ir_reciprocal_mesh gp0 map0 mesh s G).map.get a) ∧
    (rot_address mesh s R a = -1 ∨
      (get_ir_reciprocal_mesh_openmp gp0 map0 mesh s G).map.get
          (rot_address mesh s R a) =
        (get_ir_reciprocal_mesh_openmp gp0 map0 mesh s G).map.get a)
  rcases rot_address_range mesh s hm hs R a with h | ⟨r0, r1⟩
  · exact ⟨Or.inl h, Or.inl h⟩
  · have e := min_address_orbit mesh s hm hs G hg hc a h0 h1 R hR (by omega)
    constructor
    · right
      rw [serial_map_eq_min gp0 map0 mesh s hm hs G hg hc _ r0 r1,
        serial_map_eq_min gp0 map0 mesh s hm hs G hg hc a h0 h1, e]
    · right
      rw [openmp_map_get gp0 map0 mesh s hm hs G _ r0 r1,
        openmp_map_get gp0 map0 mesh s hm hs G a h0 h1, e]

/-- Witness of C1: the 3x3x3 unshifted mesh with the group of the identity
and the inversion, at the address 1 and the inversion. -/
theorem orbit_closure_witness :
    mesh_positive ⟨3, 3, 3⟩ ∧ shift_valid ⟨0, 0, 0⟩ ∧
      is_point_group [identity, inversion] ∧
      group_compatible ⟨3, 3, 3⟩ [identity, inversion] ∧
      ((rot_address ⟨3, 3, 3⟩ ⟨0, 0, 0⟩ inversion 1 = -1 ∨
        (get_ir_reciprocal_mesh zero_points zero_map ⟨3, 3, 3⟩ ⟨0, 0, 0⟩
            [identity, inversion]).map.get
            (rot_address ⟨3, 3, 3⟩ ⟨0, 0, 0⟩ inversion 1) =
          (get_ir_reciprocal_mesh zero_points zero_map ⟨3, 3, 3⟩ ⟨0, 0, 0⟩
            [identity, inversion]).map.get 1) ∧
      (rot_address ⟨3, 3, 3⟩ ⟨0, 0, 0⟩ inversion 1 = -1 ∨
        (get_ir_reciprocal_mesh_openmp zero_points zero_map ⟨3, 3, 3⟩ ⟨0, 0, 0⟩
            [identity, inversion]).map.get
            (rot_address ⟨3, 3, 3⟩ ⟨0, 0, 0⟩ inversion 1) =
          (get_ir_reciprocal_mesh_openmp zero_points zero_map ⟨3, 3, 3⟩ ⟨0, 0, 0⟩
            [identity, inversion]).map.get 1)) :=
  ⟨by decide, by decide, by decide, by decide,
    orbit_closure zero_points zero_map ⟨3, 3, 3⟩ ⟨0, 0, 0⟩ [identity, inversion]
      (by decide) (by decide) (by decide) (by decide) 1 (by decide) (by decide)
      inversion (by decide)⟩

/-- C2: after `get_ir_reciprocal_mesh`, for every mesh with positive
divisions, every shift in `{0,1}^3` and every list of rotations (a group or
not), every address `a` in `[0, N)` has `0 ≤ map[a] ≤ a` and
`map[map[a]] = map[a]`. -/
theorem serial_map_valid (gp0 : Buf Vec3) (map0 : Buf Int) (mesh s : Vec3)
    (G : PointSymmetry) (hm : mesh_positive mesh) (hs : shift_valid s)
    (a : Int) (h0 : 0 ≤ a) (h1 : a < num_grid mesh) :
    0 ≤ (get_ir_reciprocal_mesh gp0 map0 mesh s G).map.get a ∧
    (get_ir_reciprocal_mesh gp0 map0 mesh s G).map.get a ≤ a ∧
    (get_ir_reciprocal_mesh gp0 map0 mesh s G).map.get
        ((get_ir_reciprocal_mesh gp0 map0 mesh s G).map.get a) =
      (get_ir_reciprocal_mesh gp0 map0 mesh s G).map.get a :=
  serial_map_props_final gp0 map0 mesh s hm hs G a h0 h1

/-- Witness of C2: the 2x3x1 mesh with the list of the identity and the
exchange of the first two axes (not compatible with the mesh), at the
address 5. -/
theorem serial_map_valid_witness :
    mesh_positive ⟨2, 3, 1⟩ ∧ shift_valid ⟨0, 0, 0⟩ ∧
      (0 ≤ (get_ir_reciprocal_mesh zero_points zero_map ⟨2, 3, 1⟩ ⟨0, 0, 0⟩
          [identity, swap_xy]).map.get 5 ∧
      (get_ir_reciprocal_mesh zero_points zero_map ⟨2, 3, 1⟩ ⟨0, 0, 0⟩
          [identity, swap_xy]).map.get 5 ≤ 5 ∧
      (get_ir_reciprocal_mesh zero_points zero_map ⟨2, 3, 1⟩ ⟨0, 0, 0⟩
          [identity, swap_xy]).map.get
          ((get_ir_reciprocal_mesh zero_points zero_map ⟨2, 3, 1⟩ ⟨0, 0, 0⟩
            [identity, swap_xy]).map.get 5) =
        (get_ir_reciprocal_mesh zero_points zero_map ⟨2, 3, 1⟩ ⟨0, 0, 0⟩
          [identity, swap_xy]).map.get 5) :=
  ⟨by decide, by decide,
    serial_map_valid zero_points zero_map ⟨2, 3, 1⟩ ⟨0, 0, 0⟩ [identity, swap_xy]
      (by decide) (by decide) 5 (by decide) (by decide)⟩

/-- C3 as stated fails: on the 2x3x1 unshifted mesh with the point group of
the identity and the exchange of the first two axes, which is not
compatible with the mesh, `get_ir_reciprocal_mesh_openmp` writes
`map[5] = 2` and `map[2] = 1`, so `map[map[5]] ≠ map[5]`. -/
theorem openmp_map_not_idempotent :
    mesh_positive ⟨2, 3, 1⟩ ∧ shift_valid ⟨0, 0, 0⟩ ∧
      is_point_group [identity, swap_xy] ∧
      ¬ ((get_ir_reciprocal_mesh_openmp zero_points zero_map ⟨2, 3, 1⟩ ⟨0, 0, 0⟩
          [identity, swap_xy]).map.get
          ((get_ir_reciprocal_mesh_openmp zero_points zero_map ⟨2, 3, 1⟩
            ⟨0, 0, 0⟩ [identity, swap_xy]).map.get 5) =
        (get_ir_reciprocal_mesh_openmp zero_points zero_map ⟨2, 3, 1⟩ ⟨0, 0, 0⟩
          [identity, swap_xy]).map.get 5) := by
  have e5 : (get_ir_reciprocal_mesh_openmp zero_points zero_map ⟨2, 3, 1⟩
      ⟨0, 0, 0⟩ [identity, swap_xy]).map.get 5 = 2 := by
    rw [openmp_map_get zero_points zero_map ⟨2, 3, 1⟩ ⟨0, 0, 0⟩ (by decide)
      (by decide) [identity, swap_xy] 5 (by decide) (by decide)]
    decide
  have e2 : (get_ir_reciprocal_mesh_openmp zero_points zero_map ⟨2, 3, 1⟩
      ⟨0, 0, 0⟩ [identity, swap_xy]).map.get 2 = 1 := by
    rw [openmp_map_get zero_points zero_map ⟨2, 3, 1⟩ ⟨0, 0, 0⟩ (by decide)
      (by decide) [identity, swap_xy] 2 (by decide) (by decide)]
    decide
  refine ⟨by decide, by decide, by decide, ?_⟩
  rw [e5, e2]
  decide

/-- C3, amended: for a mesh with positive divisions, a shift in `{0,1}^3`
and a point group `G` that is compatible with the mesh, after
`get_ir_reciprocal_mesh_openmp` every address `a` in `[0, N)` has
`map[a] ≤ a` and `map[map[a]] = map[a]`. -/
theorem openmp_map_valid (gp0 : Buf Vec3) (map0 : Buf Int) (mesh s : Vec3)
    (G : PointSymmetry) (hm : mesh_positive mesh) (hs : shift_valid s)
    (hg : is_point_group G) (hc : group_compatible mesh G) (a : Int)
    (h0 : 0 ≤ a) (h1 : a < num_grid mesh) :
    (get_ir_reciprocal_mesh_openmp gp0 map0 mesh s G).map.get a ≤ a ∧
    (get_ir_reciprocal_mesh_openmp gp0 map0 mesh s G).map.get
        ((get_ir_reciprocal_mesh_openmp gp0 map0 mesh s G).map.get a) =
      (get_ir_reciprocal_mesh_openmp gp0 map0 mesh s G).map.get a := by
  rw [openmp_map_get gp0 map0 mesh s hm hs G a h0 h1]
  have hle := min_address_le mesh s G a
  rw [openmp_map_get gp0 map0 mesh s hm hs G _ (min_address_nonneg mesh s G a h0)
    (by omega)]
  exact ⟨hle, min_address_idem mesh s hm hs G hg.2.1 hc a⟩

/-- Witness of the amended C3: the 3x3x3 unshifted mesh with the group of
the identity and the inversion, at the address 2, which the inversion sends
to the address 1: `map[2] = 1 < 2` and `map[1] = 1`. -/
theorem openmp_map_valid_witness :
    mesh_positive ⟨3, 3, 3⟩ ∧ shift_valid ⟨0, 0, 0⟩ ∧
      is_point_group [identity, inversion] ∧
      group_compatible ⟨3, 3, 3⟩ [identity, inversion] ∧
      ((0 : Int) ≤ 2 ∧ (2 : Int) < num_grid ⟨3, 3, 3⟩) ∧
      (get_ir_reciprocal_mesh_openmp zero_points zero_map ⟨3, 3, 3⟩ ⟨0, 0, 0⟩
          [identity, inversion]).map.get 2 = 1 ∧
      ((get_ir_reciprocal_mesh_openmp zero_points zero_map ⟨3, 3, 3⟩ ⟨0, 0, 0⟩
          [identity, inversion]).map.get 2 ≤ 2 ∧
      (get_ir_reciprocal_mesh_openmp zero_points zero_map ⟨3, 3, 3⟩ ⟨0, 0, 0⟩
          [identity, inversion]).map.get
          ((get_ir_reciprocal_mesh_openmp zero_points zero_map ⟨3, 3, 3⟩
            ⟨0, 0, 0⟩ [identity, inversion]).map.get 2) =
        (get_ir_reciprocal_mesh_openmp zero_points zero_map ⟨3, 3, 3⟩ ⟨0, 0, 0⟩
          [identity, inversion]).map.get 2) :=
  ⟨by decide, by decide, by decide, by decide, ⟨by decide, by decide⟩,
    (openmp_map_get zero_points zero_map ⟨3, 3, 3⟩ ⟨0, 0, 0⟩ (by decide)
      (by decide) [identity, inversion] 2 (by decide) (by decide)).trans
      (by decide),
    openmp_map_valid zero_points zero_map ⟨3, 3, 3⟩ ⟨0, 0, 0⟩
      [identity, inversion] (by decide) (by decide) (by decide) (by decide) 2
      (by decide) (by decide)⟩

/-- C4: count consistency. For every mesh with positive divisions, every
shift in `{0,1}^3` and every rotation list, the integer returned by
`get_ir_reciprocal_mesh` and the one returned by
`get_ir_reciprocal_mesh_openmp` equal the number of addresses `a` in
`[0, N)` with `map[a] = a` in the map the reducer wrote. -/
theorem count_consistency (gp0 : Buf Vec3) (map0 : Buf Int) (mesh s : Vec3)
    (G : PointSymmetry) (hm : mesh_positive mesh) (hs : shift_valid s) :
    (get_ir_reciprocal_mesh gp0 map0 mesh s G).num_ir =
      count_fixed (get_ir_reciprocal_mesh gp0 map0 mesh s G).map
        (num_grid mesh) ∧
    (get_ir_reciprocal_mesh_openmp gp0 map0 mesh s G).num_ir =
      count_fixed (get_ir_reciprocal_mesh_openmp gp0 map0 mesh s G).map
        (num_grid mesh) := by
  constructor
  · rw [serial_num_ir gp0 map0 mesh s hm hs G,
      serial_count_fixed gp0 map0 mesh s hm hs G]
  · exact openmp_num_ir gp0 map0 mesh s G

/-- Witness of C4: the 2x3x1 unshifted mesh with the list of the identity
and the exchange of the first two axes. -/
theorem count_consistency_witness :
    mesh_positive ⟨2, 3, 1⟩ ∧ shift_valid ⟨0, 0, 0⟩ ∧
      ((get_ir_reciprocal_mesh zero_points zero_map ⟨2, 3, 1⟩ ⟨0, 0, 0⟩
          [identity, swap_xy]).num_ir =
        count_fixed (get_ir_reciprocal_mesh zero_points zero_map ⟨2, 3, 1⟩
          ⟨0, 0, 0⟩ [identity, swap_xy]).map (num_grid ⟨2, 3, 1⟩) ∧
      (get_ir_reciprocal_mesh_openmp zero_points zero_map ⟨2, 3, 1⟩ ⟨0, 0, 0⟩
          [identity, swap_xy]).num_ir =
        count_fixed (get_ir_reciprocal_mesh_openmp zero_points zero_map
          ⟨2, 3, 1⟩ ⟨0, 0, 0⟩ [identity, swap_xy]).map (num_grid ⟨2, 3, 1⟩)) :=
  ⟨by decide, by decide,
    count_consistency zero_points zero_map ⟨2, 3, 1⟩ ⟨0, 0, 0⟩
      [identity, swap_xy] (by decide) (by decide)⟩

/-- C7: for a mesh with positive divisions, a shift in `{0,1}^3` and a point
group `G` compatible with the mesh, the map of `get_ir_reciprocal_mesh` and
the map of `get_ir_reciprocal_mesh_openmp` induce the same partition: for
all addresses `a`, `b` in `[0, N)`, the serial entries at `a` and `b` are
equal if and only if the parallel entries are. -/
theorem serial_parallel_same_partition (gp0 gp1 : Buf Vec3)
    (map0 map1 : Buf Int) (mesh s : Vec3) (G : PointSymmetry)
    (hm : mesh_positive mesh) (hs : shift_valid s) (hg : is_point_group G)
    (hc : group_compatible mesh G) (a b : Int) (ha0 : 0 ≤ a)
    (ha1 : a < num_grid mesh) (hb0 : 0 ≤ b) (hb1 : b < num_grid mesh) :
    (get_ir_reciprocal_mesh gp0 map0 mesh s G).map.get a =
        (get_ir_reciprocal_mesh gp0 map0 mesh s G).map.get b ↔
      (get_ir_reciprocal_mesh_openmp gp1 map1 mesh s G).map.get a =
        (get_ir_reciprocal_mesh_openmp gp1 map1 mesh s G).map.get b := by
  rw [serial_map_eq_min gp0 map0 mesh s hm hs G hg hc a ha0 ha1,
    serial_map_eq_min gp0 map0 mesh s hm hs G hg hc b hb0 hb1,
    openmp_map_get gp1 map1 mesh s hm hs G a ha0 ha1,
    openmp_map_get gp1 map1 mesh s hm hs G b hb0 hb1]

/-- Witness of C7: the 3x3x3 unshifted mesh with the group of the identity
and the inversion, at the addresses 1 and 2. -/
theorem serial_parallel_same_partition_witness :
    mesh_positive ⟨3, 3, 3⟩ ∧ shift_valid ⟨0, 0, 0⟩ ∧
      is_point_group [identity, inversion] ∧
      group_compatible ⟨3, 3, 3⟩ [identity, inversion] ∧
      ((get_ir_reciprocal_mesh zero_points zero_map ⟨3, 3, 3⟩ ⟨0, 0, 0⟩
            [identity, inversion]).map.get 1 =
          (get_ir_reciprocal_mesh zero_points zero_map ⟨3, 3, 3⟩ ⟨0, 0, 0⟩
            [identity, inversion]).map.get 2 ↔
        (get_ir_reciprocal_mesh_openmp zero_points zero_map ⟨3, 3, 3⟩ ⟨0, 0, 0⟩
            [identity, inversion]).map.get 1 =
          (get_ir_reciprocal_mesh_openmp zero_points zero_map ⟨3, 3, 3⟩
            ⟨0, 0, 0⟩ [identity, inversion]).map.get 2) :=
  ⟨by decide, by decide, by decide, by decide,
    serial_parallel_same_partition zero_points zero_points zero_map zero_map
      ⟨3, 3, 3⟩ ⟨0, 0, 0⟩ [identity, inversion] (by decide) (by decide)
      (by decide) (by decide) 1 2 (by decide) (by decide) (by decide)
      (by decide)⟩

/-! ## C9: the reciprocal point group -/

theorem dedup_step_eq (acc : List Mat3) (c : Mat3) :
    dedup_step acc c = if c ∈ acc then acc else acc ++ [c] := by
  unfold dedup_step mat_check_identity_matrix_i3
  by_cases h : c ∈ acc
  · have : (acc.any fun r => decide (r = c)) = true := by
      rw [List.any_eq_true]
      exact ⟨c, h, by simp⟩
    simp [this, h]
  · have : ¬ (acc.any fun r => decide (r = c)) = true := by
      rw [List.any_eq_true]
      rintro ⟨x, hx, e⟩
      simp at e
      exact h (e ▸ hx)
    simp [this, h]

theorem dedup_fold_snoc (l : List Mat3) (c : Mat3) :
    (l ++ [c]).foldl dedup_step [] =
      if c ∈ l.foldl dedup_step [] then l.foldl dedup_step []
      else l.foldl dedup_step [] ++ [c] := by
  rw [List.foldl_append]
  exact dedup_step_eq _ c

theorem dedup_fold_mem (l : List Mat3) :
    ∀ m : Mat3, m ∈ l.foldl dedup_step [] ↔ m ∈ l := by
  induction l using List.reverseRecOn with
  | nil => intro m; simp
  | append_singleton l c ih =>
    intro m
    rw [dedup_fold_snoc]
    by_cases h : c ∈ l.foldl dedup_step []
    · simp only [h, if_true, List.mem_append, List.mem_singleton, ih]
      constructor
      · intro hm; exact Or.inl hm
      · rintro (hm | rfl)
        · exact hm
        · exact (ih m).mp h
    · simp only [h, if_false, List.mem_append, List.mem_singleton, ih]

theorem dedup_fold_nodup (l : List Mat3) : (l.foldl dedup_step []).Nodup := by
  induction l using List.reverseRecOn with
  | nil => simp
  | append_singleton l c ih =>
    rw [dedup_fold_snoc]
    by_cases h : c ∈ l.foldl dedup_step []
    · simp only [h, if_true]
      exact ih
    · simp only [h, if_false]
      rw [List.nodup_append]
      refine ⟨ih, List.nodup_singleton c, ?_⟩
      intro x hx hx2
      rw [List.mem_singleton] at hx2
      exact h (hx2 ▸ hx)

theorem dedup_fold_order (l : List Mat3) :
    (l.foldl dedup_step []).Pairwise
      (fun x y => l.indexOf x < l.indexOf y) := by
  induction l using List.reverseRecOn with
  | nil => simp
  | append_singleton l c ih =>
    have keep : (l.foldl dedup_step []).Pairwise
        (fun x y => (l ++ [c]).indexOf x < (l ++ [c]).indexOf y) := by
      refine List.Pairwise.imp_of_mem ?_ ih
      intro a b ha hb hab
      rw [List.indexOf_append_of_mem ((dedup_fold_mem l a).mp ha),
        List.indexOf_append_of_mem ((dedup_fold_mem l b).mp hb)]
      exact hab
    rw [dedup_fold_snoc]
    by_cases h : c ∈ l.foldl dedup_step []
    · simp only [h, if_true]
      exact keep
    · simp only [h, if_false]
      rw [List.pairwise_append]
      refine ⟨keep, List.pairwise_singleton _ _, ?_⟩
      intro a ha b hb
      rw [List.mem_singleton] at hb
      subst hb
      have hc : b ∉ l := fun hc => h ((dedup_fold_mem l b).mpr hc)
      have ha2 := (dedup_fold_mem l a).mp ha
      rw [List.indexOf_append_of_mem ha2, List.indexOf_append_of_not_mem hc]
      have := List.indexOf_lt_length.mpr ha2
      omega

/-- C9: `get_point_group_reciprocal` returns the first-occurrence-order
de-duplication of the candidate list `[R_0^T, ..., R_{n-1}^T]`, followed when
the flag is set by `[(-I) * R_0^T, ..., (-I) * R_{n-1}^T]`: the output has no
two equal matrices, a matrix is in the output iff it is a candidate, the
output is in the order of the first occurrences in the candidate list, and
the reported size is the number of distinct candidates. -/
theorem point_group_reciprocal_dedup (rotations : List Mat3) (t : Int) :
    (get_point_group_reciprocal rotations t).Nodup ∧
    (∀ m : Mat3, m ∈ get_point_group_reciprocal rotations t ↔
      m ∈ rotations.map mat_transpose_matrix_i3 ++
        (if t ≠ 0 then rotations.map
          (fun r => mat_multiply_matrix_i3 inversion (mat_transpose_matrix_i3 r))
         else [])) ∧
    (get_point_group_reciprocal rotations t).Pairwise
      (fun x y =>
        (rotations.map mat_transpose_matrix_i3 ++
          (if t ≠ 0 then rotations.map
            (fun r => mat_multiply_matrix_i3 inversion (mat_transpose_matrix_i3 r))
           else [])).indexOf x <
        (rotations.map mat_transpose_matrix_i3 ++
          (if t ≠ 0 then rotations.map
            (fun r => mat_multiply_matrix_i3 inversion (mat_transpose_matrix_i3 r))
           else [])).indexOf y) ∧
    PointSymmetry.size (get_point_group_reciprocal rotations t) =
      ((rotations.map mat_transpose_matrix_i3 ++
        (if t ≠ 0 then rotations.map
          (fun r => mat_multiply_matrix_i3 inversion (mat_transpose_matrix_i3 r))
         else [])).toFinset.card : Int) := by
  have hc : rot_reciprocal rotations t =
      rotations.map mat_transpose_matrix_i3 ++
        (if t ≠ 0 then rotations.map
          (fun r => mat_multiply_matrix_i3 inversion (mat_transpose_matrix_i3 r))
         else []) := by
    unfold rot_reciprocal
    by_cases h : t ≠ 0
    · rw [if_pos h, if_pos h]
    · rw [if_neg h, if_neg h, List.append_nil]
  rw [← hc]
  unfold get_point_group_reciprocal
  refine ⟨dedup_fold_nodup _, dedup_fold_mem _, dedup_fold_order _, ?_⟩
  unfold PointSymmetry.size
  congr 1
  rw [← List.toFinset_card_of_nodup (dedup_fold_nodup _)]
  congr 1
  ext m
  simp only [List.mem_toFinset]
  exact dedup_fold_mem _ m

/-! ## C8: time reversal -/

theorem count_irreducible_anti (mesh s : Vec3) (G0 G1 : PointSymmetry)
    (h : ∀ R ∈ G0, R ∈ G1) (n : Nat) :
    count_irreducible mesh s G1 n ≤ count_irreducible mesh s G0 n := by
  unfold count_irreducible
  apply List.countP_mono_left
  intro b _ hb
  rw [Option.isNone_iff_eq_none] at hb ⊢
  rw [List.find?_eq_none] at hb ⊢
  intro R hR
  exact hb R (h R hR)

theorem kpt_mesh_num_ir (openmp : Bool) (gp0 : Buf Vec3) (map0 : Buf Int)
    (mesh s : Vec3) (hm : mesh_positive mesh) (hs : shift_valid s) (t : Int)
    (symmetry : List Mat3) :
    (kpt_get_irreducible_reciprocal_mesh openmp gp0 map0 mesh s t symmetry).num_ir =
      (count_irreducible mesh s (get_point_group_reciprocal symmetry t)
        (num_grid mesh).toNat : Int) := by
  unfold kpt_get_irreducible_reciprocal_mesh
  cases openmp with
  | false =>
    simp only [Bool.false_eq_true, if_false]
    exact serial_num_ir gp0 map0 mesh s hm hs _
  | true =>
    simp only [if_true]
    rw [openmp_num_ir, openmp_count_fixed gp0 map0 mesh s hm hs]

theorem point_group_time_reversal_mem (symmetry : List Mat3) :
    ∀ R ∈ get_point_group_reciprocal symmetry 0,
      R ∈ get_point_group_reciprocal symmetry 1 := by
  intro R hR
  unfold get_point_group_reciprocal at hR ⊢
  rw [dedup_fold_mem] at hR ⊢
  unfold rot_reciprocal at hR ⊢
  simp only [ne_eq, not_true_eq_false, if_false] at hR
  simp only [ne_eq, one_ne_zero, not_false_eq_true, if_true, List.mem_append]
  exact Or.inl hR

/-- C8: time-reversal monotonicity. For every mesh with positive divisions,
every shift in `{0,1}^3` and every list of integer rotations, in either
build, the number of irreducible points returned by
`kpt_get_irreducible_reciprocal_mesh` with `is_time_reversal = 1` is at most
the number returned with `is_time_reversal = 0`. -/
theorem time_reversal_monotone (openmp : Bool) (gp0 gp1 : Buf Vec3)
    (map0 map1 : Buf Int) (mesh s : Vec3) (symmetry : List Mat3)
    (hm : mesh_positive mesh) (hs : shift_valid s) :
    (kpt_get_irreducible_reciprocal_mesh openmp gp1 map1 mesh s 1 symmetry).num_ir ≤
      (kpt_get_irreducible_reciprocal_mesh openmp gp0 map0 mesh s 0
        symmetry).num_ir := by
  rw [kpt_mesh_num_ir openmp gp1 map1 mesh s hm hs,
    kpt_mesh_num_ir openmp gp0 map0 mesh s hm hs]
  exact_mod_cast count_irreducible_anti mesh s _ _
    (point_group_time_reversal_mem symmetry) _

/-- Witness of C8: the 2x3x1 unshifted mesh with the rotation list of the
identity and the exchange of the first two axes, in the default build. -/
theorem time_reversal_monotone_witness :
    mesh_positive ⟨2, 3, 1⟩ ∧ shift_valid ⟨0, 0, 0⟩ ∧
      (kpt_get_irreducible_reciprocal_mesh false zero_points zero_map ⟨2, 3, 1⟩
          ⟨0, 0, 0⟩ 1 [identity, swap_xy]).num_ir ≤
        (kpt_get_irreducible_reciprocal_mesh false zero_points zero_map
          ⟨2, 3, 1⟩ ⟨0, 0, 0⟩ 0 [identity, swap_xy]).num_ir :=
  ⟨by decide, by decide,
    time_reversal_monotone false zero_points zero_points zero_map zero_map
      ⟨2, 3, 1⟩ ⟨0, 0, 0⟩ [identity, swap_xy] (by decide) (by decide)⟩

/-! ## C10: the weights of the triplets -/

theorem address_list_succ (n : Nat) :
    address_list ((n : Int) + 1) = address_list (n : Int) ++ [(n : Int)] := by
  unfold address_list
  have e : ((n : Int) + 1).toNat = n + 1 := by omega
  rw [e, Int.toNat_natCast, List.range_succ, List.map_append]
  rfl

theorem mem_address_list (n a : Int) :
    a ∈ address_list n ↔ 0 ≤ a ∧ a < n := by
  unfold address_list
  simp only [List.mem_map, List.mem_range]
  constructor
  · rintro ⟨k, hk, rfl⟩
    omega
  · rintro ⟨h0, h1⟩
    exact ⟨a.toNat, by omega, by omega⟩

theorem address_list_nodup (n : Int) : (address_list n).Nodup :=
  List.Nodup.map Nat.cast_injective (List.nodup_range _)

theorem fixed_addresses_succ (map_q : Buf Int) (n : Nat) :
    fixed_addresses map_q ((n : Int) + 1) =
      fixed_addresses map_q (n : Int) ++
        (if map_q.get (n : Int) = n then [(n : Int)] else []) := by
  unfold fixed_addresses
  rw [address_list_succ, List.filter_append]
  by_cases h : map_q.get (n : Int) = n
  · simp [List.filter_cons, h]
  · simp [List.filter_cons, h]

theorem mem_fixed_addresses (map_q : Buf Int) (n a : Int) :
    a ∈ fixed_addresses map_q n ↔ (0 ≤ a ∧ a < n) ∧ map_q.get a = a := by
  unfold fixed_addresses
  rw [List.mem_filter, mem_address_list]
  simp

theorem fixed_addresses_nodup (map_q : Buf Int) (n : Int) :
    (fixed_addresses map_q n).Nodup :=
  List.Nodup.filter _ (address_list_nodup n)

theorem sum_get_set_of_not_mem (b : Buf Int) (x v : Int) (L : List Int)
    (h : x ∉ L) : (L.map (b.set x v).get).sum = (L.map b.get).sum := by
  congr 1
  apply List.map_congr_left
  intro r hr
  rw [Buf.get_set, if_neg]
  rintro rfl
  exact h hr

theorem sum_get_set_of_mem (b : Buf Int) (x v : Int) :
    ∀ L : List Int, L.Nodup → x ∈ L →
      (L.map (b.set x v).get).sum = (L.map b.get).sum - b.get x + v := by
  intro L
  induction L with
  | nil => intro _ h; simp at h
  | cons r rest ih =>
    intro hnd hx
    rw [List.nodup_cons] at hnd
    simp only [List.map_cons, List.sum_cons]
    by_cases hxr : x = r
    · subst hxr
      rw [sum_get_set_of_not_mem b x v rest hnd.1, Buf.get_set, if_pos rfl]
      ring
    · have hx2 : x ∈ rest := by
        rcases List.mem_cons.mp hx with e | e
        · exact absurd e hxr
        · exact e
      rw [ih hnd.2 hx2, Buf.get_set, if_neg (fun e => hxr e.symm)]
      ring

theorem buf_sum_set (b : Buf Int) (n x v : Int) (h0 : 0 ≤ x) (h1 : x < n) :
    buf_sum (b.set x v) n = buf_sum b n - b.get x + v :=
  sum_get_set_of_mem b x v _ (address_list_nodup n)
    ((mem_address_list n x).mpr ⟨h0, h1⟩)

theorem sum_map_eq_zero (f : Int → Int) (L : List Int)
    (h : ∀ r ∈ L, f r = 0) : (L.map f).sum = 0 := by
  induction L with
  | nil => rfl
  | cons r rest ih =>
    simp only [List.map_cons, List.sum_cons]
    rw [h r (List.mem_cons_self _ _),
      ih (fun x hx => h x (List.mem_cons_of_mem _ hx))]
    rfl

theorem triplet_init_loop_inv (map_q : Buf Int) (init : TripletInit)
    (h0 : init.num_ir_q = 0) :
    ∀ k : Nat, InitInv map_q k (triplet_init_loop (k : Int) map_q init) := by
  intro k
  induction k with
  | zero =>
    have e : triplet_init_loop ((0 : Nat) : Int) map_q init = init := by
      unfold triplet_init_loop
      exact for_loop_zero _ _
    rw [e]
    refine ⟨?_, ?_, ?_⟩
    · rw [h0]; rfl
    · rfl
    · intro a h1 h2
      simp at h2
      omega
  | succ k ih =>
    have e : ((k + 1 : Nat) : Int) = (k : Int) + 1 := by push_cast; rfl
    rw [e]
    unfold triplet_init_loop at ih ⊢
    rw [for_loop_succ]
    set st := for_loop (k : Int) (fun st i =>
      (⟨if map_q.get i = i then st.ir_addresses.set st.num_ir_q i
          else st.ir_addresses, st.weight_q.set i 0, st.third_q.set i (-1),
        st.weights.set i 0,
        if map_q.get i = i then st.num_ir_q + 1 else st.num_ir_q⟩ : TripletInit))
      init with hst
    have hfs : fixed_addresses map_q ((k + 1 : Nat) : Int) =
        fixed_addresses map_q (k : Int) ++
          (if map_q.get (k : Int) = k then [(k : Int)] else []) := by
      rw [e]
      exact fixed_addresses_succ map_q k
    refine ⟨?_, ?_, ?_⟩
    · simp only
      rw [hfs, ih.count]
      by_cases h : map_q.get (k : Int) = k
      · simp [h]
      · simp [h]
    · simp only
      rw [hfs]
      by_cases h : map_q.get (k : Int) = k
      · simp only [h, if_true, List.length_append, List.length_singleton,
          List.range_succ, List.map_append, List.map_singleton]
        congr 1
        · rw [← ih.listed]
          simp only [List.length_map, List.length_range]
          apply List.map_congr_left
          intro j hj
          rw [Buf.get_set, if_neg]
          rw [ih.count]
          have := List.mem_range.mp hj
          omega
        · rw [Buf.get_set, if_pos]
          rw [ih.count]
      · simp only [h, if_false, List.append_nil]
        exact ih.listed
    · intro a h1 h2
      simp only [Buf.get_set]
      by_cases ha : a = k
      · simp [ha]
      · simp only [ha, if_false]
        exact ih.cleared a h1 (by omega)

theorem for_loop_get_eq_foldl {σ : Type} (f : σ → Int → σ) (ir : Buf Int)
    (len : Nat) (init : σ) :
    for_loop (len : Int) (fun st i => f st (ir.get i)) init =
      ((List.range len).map (fun j : Nat => ir.get (j : Int))).foldl f init := by
  unfold for_loop
  rw [Int.toNat_natCast, List.foldl_map]

theorem fold_set_get (g : Int → Int) :
    ∀ (L : List Int) (tq0 : Buf Int) (b : Int),
      (L.foldl (fun tq r => tq.set r (g r)) tq0).get b =
        if b ∈ L then g b else tq0.get b := by
  intro L
  induction L with
  | nil => intro tq0 b; simp
  | cons r rest ih =>
    intro tq0 b
    rw [List.foldl_cons, ih, Buf.get_set]
    by_cases hb : b ∈ rest
    · simp [hb]
    · by_cases hr : b = r
      · simp [hr]
      · simp [hb, hr]

/-- The state of the second loop of `get_ir_triplets_at_q` after `k`
increments: the weights of the irreducible addresses sum to `k`. -/
theorem weight_q_loop_sum (map_q wq0 : Buf Int) (N : Int)
    (hrange : ∀ a : Int, 0 ≤ a → a < N →
      map_q.get a ∈ fixed_addresses map_q N)
    (hz : ∀ r ∈ fixed_addresses map_q N, wq0.get r = 0) :
    ∀ k : Nat, (k : Int) ≤ N →
      ((fixed_addresses map_q N).map (weight_q_loop (k : Int) map_q wq0).get).sum = k ∧
      ∀ r ∈ fixed_addresses map_q N, 0 ≤ (weight_q_loop (k : Int) map_q wq0).get r := by
  intro k
  induction k with
  | zero =>
    intro _
    have e : weight_q_loop ((0 : Nat) : Int) map_q wq0 = wq0 := by
      unfold weight_q_loop
      exact for_loop_zero _ _
    rw [e]
    refine ⟨?_, ?_⟩
    · rw [sum_map_eq_zero _ _ hz]; rfl
    · intro r hr
      rw [hz r hr]
  | succ k ih =>
    intro hk
    have e : ((k + 1 : Nat) : Int) = (k : Int) + 1 := by push_cast; rfl
    rw [e] at hk ⊢
    obtain ⟨ih1, ih2⟩ := ih (by omega)
    unfold weight_q_loop at ih1 ih2 ⊢
    rw [for_loop_succ]
    have hmem := hrange (k : Int) (by omega) (by omega)
    refine ⟨?_, ?_⟩
    · rw [sum_get_set_of_mem _ _ _ _ (fixed_addresses_nodup map_q N) hmem, ih1]
      ring
    · intro r hr
      rw [Buf.get_set]
      by_cases h : r = map_q.get (k : Int)
      · rw [if_pos h]
        have := ih2 _ hmem
        omega
      · rw [if_neg h]
        exact ih2 r hr

theorem third_address_range (mesh : Vec3) (hm : mesh_positive mesh)
    (q r : Int) :
    0 ≤ third_address mesh ⟨0, 0, 0⟩ (address_to_grid q mesh ⟨0, 0, 0⟩) r ∧
      third_address mesh ⟨0, 0, 0⟩ (address_to_grid q mesh ⟨0, 0, 0⟩) r <
        num_grid mesh := by
  have hs : shift_valid ⟨0, 0, 0⟩ := by decide
  unfold third_address
  apply (grid_address_range_or_sentinel _ mesh _ hs).1
    (modulo_in_range _ mesh hm)
  rw [get_vector_modulo_eq _ mesh hm]
  unfold address_to_grid
  simp only
  refine ⟨?_, ?_, ?_⟩
  · rw [Int.emod_emod_of_dvd _ (Dvd.intro_left mesh.c0 rfl)]
    show _ % 2 = (0 : Int)
    omega
  · rw [Int.emod_emod_of_dvd _ (Dvd.intro_left mesh.c1 rfl)]
    show _ % 2 = (0 : Int)
    omega
  · rw [Int.emod_emod_of_dvd _ (Dvd.intro_left mesh.c2 rfl)]
    show _ % 2 = (0 : Int)
    omega

theorem weight_fold (map_q weight_q third_q : Buf Int) (N : Int) :
    ∀ (todo : List Int) (st : Buf Int × Int), todo.Nodup →
      (∀ r ∈ todo, (0 ≤ r ∧ r < N) ∧ 0 ≤ weight_q.get r ∧
        (0 ≤ map_q.get (third_q.get r) ∧ map_q.get (third_q.get r) < N)) →
      (∀ r ∈ todo, st.1.get r = 0) →
      (∀ a : Int, 0 ≤ a → a < N → 0 ≤ st.1.get a) →
      (∀ a : Int, 0 ≤ a → a < N →
        0 ≤ (todo.foldl (triplet_weight_step map_q weight_q third_q) st).1.get a) ∧
      buf_sum (todo.foldl (triplet_weight_step map_q weight_q third_q) st).1 N =
        buf_sum st.1 N + (todo.map weight_q.get).sum := by
  intro todo
  induction todo with
  | nil =>
    intro st _ _ _ hnn
    exact ⟨hnn, by simp⟩
  | cons r rest ih =>
    intro st hnd hprops hzero hnn
    rw [List.nodup_cons] at hnd
    obtain ⟨⟨hr0, hr1⟩, hw, ht0, ht1⟩ := hprops r (List.mem_cons_self _ _)
    have hprops2 : ∀ x ∈ rest, (0 ≤ x ∧ x < N) ∧ 0 ≤ weight_q.get x ∧
        (0 ≤ map_q.get (third_q.get x) ∧ map_q.get (third_q.get x) < N) :=
      fun x hx => hprops x (List.mem_cons_of_mem _ hx)
    rw [List.foldl_cons, List.map_cons, List.sum_cons]
    by_cases hc : st.1.get (map_q.get (third_q.get r)) ≠ 0
    · have hstep : triplet_weight_step map_q weight_q third_q st r =
          (st.1.set (map_q.get (third_q.get r))
            (st.1.get (map_q.get (third_q.get r)) + weight_q.get r), st.2) := by
        unfold triplet_weight_step
        rw [if_pos hc]
      rw [hstep]
      have h := ih (st.1.set (map_q.get (third_q.get r))
          (st.1.get (map_q.get (third_q.get r)) + weight_q.get r), st.2)
        hnd.2 hprops2
        (by
          intro x hx
          show (st.1.set _ _).get x = 0
          rw [Buf.get_set, if_neg]
          · exact hzero x (List.mem_cons_of_mem _ hx)
          · intro e
            exact hc (e ▸ hzero x (List.mem_cons_of_mem _ hx)))
        (by
          intro a ha0 ha1
          show 0 ≤ (st.1.set _ _).get a
          rw [Buf.get_set]
          split_ifs
          · have := hnn _ ht0 ht1
            omega
          · exact hnn a ha0 ha1)
      refine ⟨h.1, ?_⟩
      rw [h.2]
      show buf_sum (st.1.set _ _) N + _ = _
      rw [buf_sum_set _ _ _ _ ht0 ht1]
      ring
    · have hstep : triplet_weight_step map_q weight_q third_q st r =
          (st.1.set r (weight_q.get r), st.2 + 1) := by
        unfold triplet_weight_step
        rw [if_neg hc]
      rw [hstep]
      have h := ih (st.1.set r (weight_q.get r), st.2 + 1) hnd.2 hprops2
        (by
          intro x hx
          show (st.1.set _ _).get x = 0
          rw [Buf.get_set, if_neg]
          · exact hzero x (List.mem_cons_of_mem _ hx)
          · rintro rfl
            exact hnd.1 hx)
        (by
          intro a ha0 ha1
          show 0 ≤ (st.1.set _ _).get a
          rw [Buf.get_set]
          split_ifs
          · exact hw
          · exact hnn a ha0 ha1)
      refine ⟨h.1, ?_⟩
      rw [h.2]
      show buf_sum (st.1.set _ _) N + _ = _
      rw [buf_sum_set _ _ _ _ hr0 hr1, hzero r (List.mem_cons_self _ _)]
      ring

theorem triplets_of_map_weights (scratch : TripletScratch)
    (weights third_q : Buf Int) (mesh : Vec3) (hm : mesh_positive mesh)
    (q : Int) (map_q : Buf Int)
    (h1 : ∀ a : Int, 0 ≤ a → a < num_grid mesh →
      0 ≤ map_q.get a ∧ map_q.get a < num_grid mesh)
    (h2 : ∀ a : Int, 0 ≤ a → a < num_grid mesh →
      map_q.get (map_q.get a) = map_q.get a) :
    (∀ a : Int, 0 ≤ a → a < num_grid mesh →
      0 ≤ (triplets_of_map scratch weights third_q mesh ⟨0, 0, 0⟩
        (address_to_grid q mesh ⟨0, 0, 0⟩) map_q).1.get a) ∧
    buf_sum (triplets_of_map scratch weights third_q mesh ⟨0, 0, 0⟩
        (address_to_grid q mesh ⟨0, 0, 0⟩) map_q).1 (num_grid mesh) =
      num_grid mesh := by
  have hN : (((num_grid mesh).toNat : Nat) : Int) = num_grid mesh :=
    Int.toNat_of_nonneg (num_grid_pos mesh hm).le
  have inv := triplet_init_loop_inv map_q
    ⟨scratch.ir_addresses, scratch.weight_q, third_q, weights, 0⟩ rfl
    (num_grid mesh).toNat
  obtain ⟨icount, ilisted, icleared0⟩ := inv
  rw [hN] at icount ilisted
  have icleared : ∀ a : Int, 0 ≤ a → a < num_grid mesh →
      (triplet_init_loop (num_grid mesh) map_q
        ⟨scratch.ir_addresses, scratch.weight_q, third_q, weights, 0⟩).weight_q.get a = 0 ∧
      (triplet_init_loop (num_grid mesh) map_q
        ⟨scratch.ir_addresses, scratch.weight_q, third_q, weights, 0⟩).third_q.get a = -1 ∧
      (triplet_init_loop (num_grid mesh) map_q
        ⟨scratch.ir_addresses, scratch.weight_q, third_q, weights, 0⟩).weights.get a = 0 := by
    intro a h0 ha
    have := icleared0 a h0 (by omega)
    rw [hN] at this
    exact this
  have hfix : ∀ r ∈ fixed_addresses map_q (num_grid mesh),
      (0 ≤ r ∧ r < num_grid mesh) ∧ map_q.get r = r :=
    fun r hr => (mem_fixed_addresses map_q _ r).mp hr
  have hwq := weight_q_loop_sum map_q
    (triplet_init_loop (num_grid mesh) map_q
      ⟨scratch.ir_addresses, scratch.weight_q, third_q, weights, 0⟩).weight_q
    (num_grid mesh)
    (fun a h0 ha => (mem_fixed_addresses map_q _ _).mpr ⟨h1 a h0 ha, h2 a h0 ha⟩)
    (fun r hr => (icleared r (hfix r hr).1.1 (hfix r hr).1.2).1)
    (num_grid mesh).toNat (by omega)
  rw [hN] at hwq
  obtain ⟨hsum, hwnn⟩ := hwq
  unfold triplets_of_map
  simp only
  show (∀ a : Int, 0 ≤ a → a < num_grid mesh → 0 ≤
      (triplet_weight_loop _ map_q
        (weight_q_loop (num_grid mesh) map_q _)
        (third_q_loop _ mesh ⟨0, 0, 0⟩ (address_to_grid q mesh ⟨0, 0, 0⟩) _ _) _ _).1.get a) ∧
    buf_sum (triplet_weight_loop _ map_q
        (weight_q_loop (num_grid mesh) map_q _)
        (third_q_loop _ mesh ⟨0, 0, 0⟩ (address_to_grid q mesh ⟨0, 0, 0⟩) _ _) _ _).1
      (num_grid mesh) = num_grid mesh
  have htq : ∀ tq0 : Buf Int,
      third_q_loop
        (triplet_init_loop (num_grid mesh) map_q
          ⟨scratch.ir_addresses, scratch.weight_q, third_q, weights, 0⟩).num_ir_q
        mesh ⟨0, 0, 0⟩ (address_to_grid q mesh ⟨0, 0, 0⟩)
        (triplet_init_loop (num_grid mesh) map_q
          ⟨scratch.ir_addresses, scratch.weight_q, third_q, weights, 0⟩).ir_addresses
        tq0 =
      (fixed_addresses map_q (num_grid mesh)).foldl
        (fun tq r => tq.set r
          (third_address mesh ⟨0, 0, 0⟩ (address_to_grid q mesh ⟨0, 0, 0⟩) r)) tq0 := by
    intro tq0
    unfold third_q_loop
    rw [icount, ← ilisted]
    simp only [List.length_map, List.length_range]
    exact for_loop_get_eq_foldl
      (fun (tq : Buf Int) (r : Int) => tq.set r
        (third_address mesh ⟨0, 0, 0⟩ (address_to_grid q mesh ⟨0, 0, 0⟩) r)) _ _ _
  have htw : ∀ (wq tq w0 : Buf Int),
      triplet_weight_loop
        (triplet_init_loop (num_grid mesh) map_q
          ⟨scratch.ir_addresses, scratch.weight_q, third_q, weights, 0⟩).num_ir_q
        map_q wq tq
        (triplet_init_loop (num_grid mesh) map_q
          ⟨scratch.ir_addresses, scratch.weight_q, third_q, weights, 0⟩).ir_addresses
        w0 =
      (fixed_addresses map_q (num_grid mesh)).foldl
        (triplet_weight_step map_q wq tq) (w0, 0) := by
    intro wq tq w0
    unfold triplet_weight_loop
    rw [icount, ← ilisted]
    simp only [List.length_map, List.length_range]
    exact for_loop_get_eq_foldl (triplet_weight_step map_q wq tq) _ _ _
  rw [htq, htw]
  have hthird : ∀ r ∈ fixed_addresses map_q (num_grid mesh),
      ((fixed_addresses map_q (num_grid mesh)).foldl
        (fun tq r => tq.set r
          (third_address mesh ⟨0, 0, 0⟩ (address_to_grid q mesh ⟨0, 0, 0⟩) r))
        (triplet_init_loop (num_grid mesh) map_q
          ⟨scratch.ir_addresses, scratch.weight_q, third_q, weights, 0⟩).third_q).get r =
      third_address mesh ⟨0, 0, 0⟩ (address_to_grid q mesh ⟨0, 0, 0⟩) r := by
    intro r hr
    rw [fold_set_get, if_pos hr]
  have h := weight_fold map_q
    (weight_q_loop (num_grid mesh) map_q
      (triplet_init_loop (num_grid mesh) map_q
        ⟨scratch.ir_addresses, scratch.weight_q, third_q, weights, 0⟩).weight_q)
    ((fixed_addresses map_q (num_grid mesh)).foldl
        (fun tq r => tq.set r
          (third_address mesh ⟨0, 0, 0⟩ (address_to_grid q mesh ⟨0, 0, 0⟩) r))
        (triplet_init_loop (num_grid mesh) map_q
          ⟨scratch.ir_addresses, scratch.weight_q, third_q, weights, 0⟩).third_q)
    (num_grid mesh) (fixed_addresses map_q (num_grid mesh))
    ((triplet_init_loop (num_grid mesh) map_q
        ⟨scratch.ir_addresses, scratch.weight_q, third_q, weights, 0⟩).weights, 0)
    (fixed_addresses_nodup map_q _)
    (by
      intro r hr
      refine ⟨(hfix r hr).1, hwnn r hr, ?_⟩
      rw [hthird r hr]
      have := third_address_range mesh hm q r
      exact h1 _ this.1 this.2)
    (fun r hr => (icleared r (hfix r hr).1.1 (hfix r hr).1.2).2.2)
    (fun a ha0 ha1 => by
      show 0 ≤ (triplet_init_loop (num_grid mesh) map_q
        ⟨scratch.ir_addresses, scratch.weight_q, third_q, weights, 0⟩).weights.get a
      rw [(icleared a ha0 ha1).2.2])
  refine ⟨h.1, ?_⟩
  rw [h.2, hsum]
  have hz : buf_sum (triplet_init_loop (num_grid mesh) map_q
      ⟨scratch.ir_addresses, scratch.weight_q, third_q, weights, 0⟩).weights
      (num_grid mesh) = 0 := by
    unfold buf_sum
    apply sum_map_eq_zero
    intro r hr
    have := (mem_address_list _ r).mp hr
    exact (icleared r this.1 this.2).2.2
  show buf_sum (triplet_init_loop (num_grid mesh) map_q
      ⟨scratch.ir_addresses, scratch.weight_q, third_q, weights, 0⟩).weights
      (num_grid mesh) + _ = _
  rw [hz]
  ring

/-- C10: triplet weight sum. For every mesh with positive divisions `N`,
every `q` address in `[0, N0*N1*N2)` and every point group passed to
`get_ir_triplets_at_q` in the default build (serial reducer), whatever the
stabilizer filter keeps, on return all `weights[a]` are non-negative and the
sum of `weights[a]` over all addresses equals `N0*N1*N2`. -/
theorem triplet_weight_sum (scratch : TripletScratch) (weights : Buf Int)
    (grid_points : Buf Vec3) (third_q : Buf Int) (q : Int) (mesh : Vec3)
    (pointgroup : PointSymmetry) (hm : mesh_positive mesh) (hq0 : 0 ≤ q)
    (hq1 : q < num_grid mesh) :
    (∀ a : Int, 0 ≤ a → a < num_grid mesh →
      0 ≤ (get_ir_triplets_at_q false scratch weights grid_points third_q q mesh
        pointgroup).weights.get a) ∧
    buf_sum (get_ir_triplets_at_q false scratch weights grid_points third_q q mesh
        pointgroup).weights (num_grid mesh) = num_grid mesh := by
  have _ := hq0
  have _ := hq1
  have hs : shift_valid ⟨0, 0, 0⟩ := by decide
  unfold get_ir_triplets_at_q
  simp only [Bool.false_eq_true, if_false]
  have hv := fun a h0 h1 =>
    serial_map_props_final grid_points scratch.map_q mesh ⟨0, 0, 0⟩ hm hs
      (get_point_group_reciprocal_with_q pointgroup
        ((1 / 10) / ((mesh.c0 + mesh.c1 + mesh.c2 : Int) : ℚ))
        [stabilizer_point (address_to_grid q mesh ⟨0, 0, 0⟩) (mesh_double mesh)])
      a h0 h1
  apply triplets_of_map_weights scratch weights third_q mesh hm q
  · intro a h0 h1
    have := hv a h0 h1
    exact ⟨this.1, by omega⟩
  · intro a h0 h1
    exact (hv a h0 h1).2.2

/-- Witness of C10: the 2x2x1 mesh, `q` at the address 1, the point group
of the identity and the inversion. -/
theorem triplet_weight_sum_witness :
    mesh_positive ⟨2, 2, 1⟩ ∧ (0 : Int) ≤ 1 ∧ (1 : Int) < num_grid ⟨2, 2, 1⟩ ∧
      0 ≤ (get_ir_triplets_at_q false zero_scratch zero_map zero_points zero_map
        1 ⟨2, 2, 1⟩ [identity, inversion]).weights.get 0 ∧
      buf_sum (get_ir_triplets_at_q false zero_scratch zero_map zero_points
        zero_map 1 ⟨2, 2, 1⟩ [identity, inversion]).weights (num_grid ⟨2, 2, 1⟩) =
        num_grid ⟨2, 2, 1⟩ :=
  ⟨by decide, by decide, by decide,
    (triplet_weight_sum zero_scratch zero_map zero_points zero_map 1 ⟨2, 2, 1⟩
      [identity, inversion] (by decide) (by decide) (by decide)).1 0 (by decide)
      (by decide),
    (triplet_weight_sum zero_scratch zero_map zero_points zero_map 1 ⟨2, 2, 1⟩
      [identity, inversion] (by decide) (by decide) (by decide)).2⟩

/-! ## C20: the two counts -/

theorem count_irreducible_eq_no_lower (mesh s : Vec3) (G : PointSymmetry) :
    (count_irreducible mesh s G (num_grid mesh).toNat : Int) =
      count_no_lower mesh s G := by
  unfold count_irreducible count_no_lower
  congr 1
  apply List.countP_congr
  intro b _
  rw [Option.isNone_iff_eq_none, List.find?_eq_none, decide_eq_true_iff]
  constructor
  · intro h R hR hl
    exact h R hR ((lower_spec mesh s b R).mpr hl)
  · intro h R hR hl
    exact h R hR ((lower_spec mesh s b R).mp hl)

/-- C20: for every mesh with positive divisions, every shift in `{0,1}^3`
and every list of integer rotations, `get_ir_reciprocal_mesh` and
`get_ir_reciprocal_mesh_openmp` return the same `num_ir`, namely the number
of addresses `a` such that no rotation of the list sends `g(a)` to a valid
address strictly smaller than `a`. -/
theorem serial_parallel_same_count (gp0 gp1 : Buf Vec3) (map0 map1 : Buf Int)
    (mesh s : Vec3) (G : PointSymmetry) (hm : mesh_positive mesh)
    (hs : shift_valid s) :
    (get_ir_reciprocal_mesh gp0 map0 mesh s G).num_ir =
        (get_ir_reciprocal_mesh_openmp gp1 map1 mesh s G).num_ir ∧
      (get_ir_reciprocal_mesh gp0 map0 mesh s G).num_ir =
        count_no_lower mesh s G := by
  rw [serial_num_ir gp0 map0 mesh s hm hs G, openmp_num_ir,
    openmp_count_fixed gp1 map1 mesh s hm hs G]
  exact ⟨rfl, count_irreducible_eq_no_lower mesh s G⟩

/-- Witness of C20: the 2x3x1 unshifted mesh with the list of the identity
and the exchange of the first two axes, which is neither compatible with the
mesh nor acting on it. -/
theorem serial_parallel_same_count_witness :
    mesh_positive ⟨2, 3, 1⟩ ∧ shift_valid ⟨0, 0, 0⟩ ∧
      (get_ir_reciprocal_mesh zero_points zero_map ⟨2, 3, 1⟩ ⟨0, 0, 0⟩
          [identity, swap_xy]).num_ir =
        (get_ir_reciprocal_mesh_openmp zero_points zero_map ⟨2, 3, 1⟩ ⟨0, 0, 0⟩
          [identity, swap_xy]).num_ir ∧
      (get_ir_reciprocal_mesh zero_points zero_map ⟨2, 3, 1⟩ ⟨0, 0, 0⟩
          [identity, swap_xy]).num_ir =
        count_no_lower ⟨2, 3, 1⟩ ⟨0, 0, 0⟩ [identity, swap_xy] :=
  ⟨by decide, by decide,
    serial_parallel_same_count zero_points zero_points zero_map zero_map
      ⟨2, 3, 1⟩ ⟨0, 0, 0⟩ [identity, swap_xy] (by decide) (by decide)⟩

/-! ## C17: trivial groups -/

theorem trivial_group_no_lower (mesh s : Vec3) (hm : mesh_positive mesh)
    (hs : shift_valid s) (G : PointSymmetry) (hG : G = [] ∨ G = [identity])
    (a : Int) (h0 : 0 ≤ a) (h1 : a < num_grid mesh) :
    G.find? (lower mesh s a) = none := by
  rw [List.find?_eq_none]
  intro R hR hl
  rcases hG with rfl | rfl
  · simp at hR
  · rw [List.mem_singleton] at hR
    subst hR
    have := (lower_spec mesh s a identity).mp hl
    rw [rot_address_identity mesh s hm hs a h0 h1] at this
    omega

theorem trivial_group_count (mesh s : Vec3) (hm : mesh_positive mesh)
    (hs : shift_valid s) (G : PointSymmetry) (hG : G = [] ∨ G = [identity]) :
    (count_irreducible mesh s G (num_grid mesh).toNat : Int) = num_grid mesh := by
  have hN : (((num_grid mesh).toNat : Nat) : Int) = num_grid mesh :=
    Int.toNat_of_nonneg (num_grid_pos mesh hm).le
  unfold count_irreducible
  rw [List.countP_eq_length.mpr, List.length_range, hN]
  intro b hb
  obtain ⟨h0, h1⟩ := mem_range_address mesh hm b hb
  rw [trivial_group_no_lower mesh s hm hs G hG b h0 h1]
  rfl

/-- C17: for every mesh with positive divisions and every shift in
`{0,1}^3`, when the `PointSymmetry` passed to the mesh reducer is empty or
holds only the identity, `get_ir_reciprocal_mesh` and
`get_ir_reciprocal_mesh_openmp` both return `num_ir = N0*N1*N2` and write
`map[a] = a` at every address `a`. -/
theorem trivial_group_reduction (gp0 : Buf Vec3) (map0 : Buf Int)
    (mesh s : Vec3) (G : PointSymmetry) (hm : mesh_positive mesh)
    (hs : shift_valid s) (hG : G = [] ∨ G = [identity]) :
    ((get_ir_reciprocal_mesh gp0 map0 mesh s G).num_ir = num_grid mesh ∧
      ∀ a : Int, 0 ≤ a → a < num_grid mesh →
        (get_ir_reciprocal_mesh gp0 map0 mesh s G).map.get a = a) ∧
    ((get_ir_reciprocal_mesh_openmp gp0 map0 mesh s G).num_ir = num_grid mesh ∧
      ∀ a : Int, 0 ≤ a → a < num_grid mesh →
        (get_ir_reciprocal_mesh_openmp gp0 map0 mesh s G).map.get a = a) := by
  refine ⟨⟨?_, ?_⟩, ⟨?_, ?_⟩⟩
  · rw [serial_num_ir gp0 map0 mesh s hm hs G]
    exact trivial_group_count mesh s hm hs G hG
  · intro a h0 h1
    exact (serial_fixed_iff gp0 map0 mesh s hm hs G a h0 h1).mpr
      (trivial_group_no_lower mesh s hm hs G hG a h0 h1)
  · rw [openmp_num_ir, openmp_count_fixed gp0 map0 mesh s hm hs G]
    exact trivial_group_count mesh s hm hs G hG
  · intro a h0 h1
    rw [openmp_map_get gp0 map0 mesh s hm hs G a h0 h1]
    exact (min_address_fixed_iff mesh s G a).mpr
      (trivial_group_no_lower mesh s hm hs G hG a h0 h1)

/-- Witness of C17: the 4x4x4 unshifted mesh with the identity-only group
gives `num_ir = 64` in both reducers, and the identity map, here at the
address 37. -/
theorem trivial_group_reduction_witness :
    mesh_positive ⟨4, 4, 4⟩ ∧ shift_valid ⟨0, 0, 0⟩ ∧
      (([identity] : PointSymmetry) = [] ∨ ([identity] : PointSymmetry) = [identity]) ∧
      (get_ir_reciprocal_mesh zero_points zero_map ⟨4, 4, 4⟩ ⟨0, 0, 0⟩
        [identity]).num_ir = 64 ∧
      (get_ir_reciprocal_mesh zero_points zero_map ⟨4, 4, 4⟩ ⟨0, 0, 0⟩
        [identity]).map.get 37 = 37 ∧
      (get_ir_reciprocal_mesh_openmp zero_points zero_map ⟨4, 4, 4⟩ ⟨0, 0, 0⟩
        [identity]).num_ir = 64 ∧
      (get_ir_reciprocal_mesh_openmp zero_points zero_map ⟨4, 4, 4⟩ ⟨0, 0, 0⟩
        [identity]).map.get 37 = 37 :=
  ⟨by decide, by decide, Or.inr rfl,
    (trivial_group_reduction zero_points zero_map ⟨4, 4, 4⟩ ⟨0, 0, 0⟩ [identity]
      (by decide) (by decide) (Or.inr rfl)).1.1,
    (trivial_group_reduction zero_points zero_map ⟨4, 4, 4⟩ ⟨0, 0, 0⟩ [identity]
      (by decide) (by decide) (Or.inr rfl)).1.2 37 (by decide) (by decide),
    (trivial_group_reduction zero_points zero_map ⟨4, 4, 4⟩ ⟨0, 0, 0⟩ [identity]
      (by decide) (by decide) (Or.inr rfl)).2.1,
    (trivial_group_reduction zero_points zero_map ⟨4, 4, 4⟩ ⟨0, 0, 0⟩ [identity]
      (by decide) (by decide) (Or.inr rfl)).2.2 37 (by decide) (by decide)⟩

/-! ## C15: the grid-point table -/

theorem openmp_step_points (mesh s : Vec3) (G : PointSymmetry) (st : MeshState)
    (a b : Int) :
    (openmp_step mesh s G st a).grid_points.get b =
      if b = a then get_grid_points (address_to_grid a mesh s) mesh
      else st.grid_points.get b := by
  unfold openmp_step
  simp only [Buf.get_set]

theorem openmp_run_points (mesh s : Vec3) (G : PointSymmetry) (init : MeshState)
    (n : Nat) (b : Int) :
    (for_loop (n : Int) (openmp_step mesh s G) init).grid_points.get b =
      if 0 ≤ b ∧ b < n then get_grid_points (address_to_grid b mesh s) mesh
      else init.grid_points.get b := by
  induction n with
  | zero =>
    have : ¬ (0 ≤ b ∧ b < ((0 : Nat) : Int)) := by omega
    simp only [this, if_false]
    rfl
  | succ n ih =>
    have e : ((n + 1 : Nat) : Int) = (n : Int) + 1 := by push_cast; rfl
    rw [e, for_loop_succ, openmp_step_points, ih]
    by_cases hb : b = n
    · subst hb
      have : 0 ≤ (n : Int) ∧ (n : Int) < n + 1 := by omega
      simp [this]
    · by_cases hc : 0 ≤ b ∧ b < n
      · have : 0 ≤ b ∧ b < (n : Int) + 1 := by omega
        simp [hb, hc, this]
      · have : ¬ (0 ≤ b ∧ b < (n : Int) + 1) := by omega
        simp [hb, hc, this]

theorem openmp_points_get (gp0 : Buf Vec3) (map0 : Buf Int) (mesh s : Vec3)
    (hm : mesh_positive mesh) (hs : shift_valid s) (G : PointSymmetry)
    (b : Int) (h0 : 0 ≤ b) (h1 : b < num_grid mesh) :
    (get_ir_reciprocal_mesh_openmp gp0 map0 mesh s G).grid_points.get b =
      get_grid_points (address_to_grid b mesh s) mesh := by
  have hN : (((num_grid mesh).toNat : Nat) : Int) = num_grid mesh :=
    Int.toNat_of_nonneg (num_grid_pos mesh hm).le
  unfold get_ir_reciprocal_mesh_openmp
  simp only
  rw [mesh_loop_flat mesh hm _ (openmp_step mesh s G)
    (fun st k0 k1 k2 h0 l0 h1 l1 h2 _ =>
      openmp_body_eq_step mesh s hs G st k0 k1 k2 h0 l0 h1 l1 h2)]
  have := openmp_run_points mesh s G ⟨gp0, map0, 0⟩ (num_grid mesh).toNat b
  rw [hN] at this
  rw [this, if_pos ⟨h0, h1⟩]

theorem serial_points_get (gp0 : Buf Vec3) (map0 : Buf Int) (mesh s : Vec3)
    (hm : mesh_positive mesh) (hs : shift_valid s) (G : PointSymmetry)
    (b : Int) (h0 : 0 ≤ b) (h1 : b < num_grid mesh) :
    (get_ir_reciprocal_mesh gp0 map0 mesh s G).grid_points.get b =
      get_grid_points (address_to_grid b mesh s) mesh := by
  have hN : (((num_grid mesh).toNat : Nat) : Int) = num_grid mesh :=
    Int.toNat_of_nonneg (num_grid_pos mesh hm).le
  exact (serial_final_inv gp0 map0 mesh s hm hs G).points b h0 (by omega)

theorem grid_point_component_folded (k s m : Int) (hs : s = 0 ∨ s = 1)
    (h0 : 0 ≤ k) (h1 : k < m) :
    m ∣ grid_point_component (k * 2 + s) m - (k * 2 + s - s) / 2 ∧
      -m < 2 * grid_point_component (k * 2 + s) m ∧
      2 * grid_point_component (k * 2 + s) m ≤ m := by
  have hg : (if (k * 2 + s).tmod 2 = 0 then (k * 2 + s).tdiv 2
      else (k * 2 + s - 1).tdiv 2) = k := by
    rcases hs with rfl | rfl
    · have e : (k * 2 + 0) % 2 = 0 := by omega
      rw [if_pos ((tmod_two_eq_zero_iff _).mpr e), tdiv_two_of_even _ e]
      omega
    · have e : ¬ (k * 2 + 1) % 2 = 0 := by omega
      rw [if_neg (fun h => e ((tmod_two_eq_zero_iff _).mp h)),
        tdiv_two_of_even _ (by omega)]
      omega
  have hm2 : m.tdiv 2 = m / 2 := Int.tdiv_eq_ediv (by omega) (by omega)
  have hk : (k * 2 + s - s) / 2 = k := by omega
  unfold grid_point_component
  simp only [hg, hm2, hk]
  by_cases hc : k > m / 2
  · simp only [hc, if_true, mul_one]
    refine ⟨⟨-1, by ring⟩, by omega, by omega⟩
  · simp only [hc, if_false, mul_zero, sub_zero]
    refine ⟨⟨0, by ring⟩, by omega, by omega⟩

theorem get_grid_points_folded (a : Int) (mesh s : Vec3)
    (hm : mesh_positive mesh) (hs : shift_valid s) (h0 : 0 ≤ a)
    (h1 : a < num_grid mesh) :
    folded_form (get_grid_points (address_to_grid a mesh s) mesh)
      (address_to_grid a mesh s) s mesh := by
  obtain ⟨k0, k1, k2, ⟨a0, b0⟩, ⟨a1, b1⟩, ⟨a2, b2⟩, rfl⟩ :=
    address_cells a mesh hm h0 h1
  rw [address_to_grid_of_cells k0 k1 k2 mesh s a0 b0 a1 b1 a2]
  obtain ⟨s0, s1, s2⟩ := hs
  exact ⟨grid_point_component_folded k0 s.c0 mesh.c0 s0 a0 b0,
    grid_point_component_folded k1 s.c1 mesh.c1 s1 a1 b1,
    grid_point_component_folded k2 s.c2 mesh.c2 s2 a2 b2⟩

/-- C15: for every mesh with positive divisions, every shift in `{0,1}^3`
and every rotation list, after either mesh reducer every address `a` in
`[0, N0*N1*N2)` has `grid_points[a] = k` where `k` is
`get_grid_points (address_to_grid a)`: per axis `k_i` is congruent to
`(g_i - s_i) / 2` modulo `N_i` and `-N_i / 2 < k_i ≤ N_i / 2`; the table
is the same for any two rotation lists. -/
theorem grid_point_table (gp0 gp1 : Buf Vec3) (map0 map1 : Buf Int)
    (mesh s : Vec3) (G G1 : PointSymmetry) (hm : mesh_positive mesh)
    (hs : shift_valid s) (a : Int) (h0 : 0 ≤ a) (h1 : a < num_grid mesh) :
    (get_ir_reciprocal_mesh gp0 map0 mesh s G).grid_points.get a =
        get_grid_points (address_to_grid a mesh s) mesh ∧
    (get_ir_reciprocal_mesh_openmp gp0 map0 mesh s G).grid_points.get a =
        get_grid_points (address_to_grid a mesh s) mesh ∧
    folded_form (get_grid_points (address_to_grid a mesh s) mesh)
      (address_to_grid a mesh s) s mesh ∧
    (get_ir_reciprocal_mesh gp0 map0 mesh s G).grid_points.get a =
        (get_ir_reciprocal_mesh gp1 map1 mesh s G1).grid_points.get a ∧
    (get_ir_reciprocal_mesh_openmp gp0 map0 mesh s G).grid_points.get a =
        (get_ir_reciprocal_mesh_openmp gp1 map1 mesh s G1).grid_points.get a := by
  refine ⟨serial_points_get gp0 map0 mesh s hm hs G a h0 h1,
    openmp_points_get gp0 map0 mesh s hm hs G a h0 h1,
    get_grid_points_folded a mesh s hm hs h0 h1, ?_, ?_⟩
  · rw [serial_points_get gp0 map0 mesh s hm hs G a h0 h1,
      serial_points_get gp1 map1 mesh s hm hs G1 a h0 h1]
  · rw [openmp_points_get gp0 map0 mesh s hm hs G a h0 h1,
      openmp_points_get gp1 map1 mesh s hm hs G1 a h0 h1]

/-- Witness of C15: on the 4x4x4 unshifted mesh the addresses 0, 1, 2, 3, 4
have the grid points (0,0,0), (1,0,0), (2,0,0), (-1,0,0), (0,1,0), here
after the serial reducer run with the identity and the inversion. -/
theorem grid_point_table_witness :
    mesh_positive ⟨4, 4, 4⟩ ∧ shift_valid ⟨0, 0, 0⟩ ∧
      (get_ir_reciprocal_mesh zero_points zero_map ⟨4, 4, 4⟩ ⟨0, 0, 0⟩
        [identity, inversion]).grid_points.get 0 = ⟨0, 0, 0⟩ ∧
      (get_ir_reciprocal_mesh zero_points zero_map ⟨4, 4, 4⟩ ⟨0, 0, 0⟩
        [identity, inversion]).grid_points.get 1 = ⟨1, 0, 0⟩ ∧
      (get_ir_reciprocal_mesh zero_points zero_map ⟨4, 4, 4⟩ ⟨0, 0, 0⟩
        [identity, inversion]).grid_points.get 2 = ⟨2, 0, 0⟩ ∧
      (get_ir_reciprocal_mesh zero_points zero_map ⟨4, 4, 4⟩ ⟨0, 0, 0⟩
        [identity, inversion]).grid_points.get 3 = ⟨-1, 0, 0⟩ ∧
      (get_ir_reciprocal_mesh zero_points zero_map ⟨4, 4, 4⟩ ⟨0, 0, 0⟩
        [identity, inversion]).grid_points.get 4 = ⟨0, 1, 0⟩ :=
  ⟨by decide, by decide,
    (grid_point_table zero_points zero_points zero_map zero_map ⟨4, 4, 4⟩
      ⟨0, 0, 0⟩ [identity, inversion] [] (by decide) (by decide) 0 (by decide)
      (by decide)).1.trans (by decide),
    (grid_point_table zero_points zero_points zero_map zero_map ⟨4, 4, 4⟩
      ⟨0, 0, 0⟩ [identity, inversion] [] (by decide) (by decide) 1 (by decide)
      (by decide)).1.trans (by decide),
    (grid_point_table zero_points zero_points zero_map zero_map ⟨4, 4, 4⟩
      ⟨0, 0, 0⟩ [identity, inversion] [] (by decide) (by decide) 2 (by decide)
      (by decide)).1.trans (by decide),
    (grid_point_table zero_points zero_points zero_map zero_map ⟨4, 4, 4⟩
      ⟨0, 0, 0⟩ [identity, inversion] [] (by decide) (by decide) 3 (by decide)
      (by decide)).1.trans (by decide),
    (grid_point_table zero_points zero_points zero_map zero_map ⟨4, 4, 4⟩
      ⟨0, 0, 0⟩ [identity, inversion] [] (by decide) (by decide) 4 (by decide)
      (by decide)).1.trans (by decide)⟩

/-! ## C11: closure of the triplets -/

theorem triplet_cleared_inv (scratch : TripletScratch)
    (weights third_q : Buf Int) (mesh : Vec3) (hN : 0 ≤ num_grid mesh)
    (map_q : Buf Int) :
    (triplet_cleared scratch weights third_q mesh map_q).num_ir_q =
        ((fixed_addresses map_q (num_grid mesh)).length : Int) ∧
    (List.range (fixed_addresses map_q (num_grid mesh)).length).map
        (fun j : Nat =>
          (triplet_cleared scratch weights third_q mesh map_q).ir_addresses.get
            (j : Int)) =
      fixed_addresses map_q (num_grid mesh) ∧
    ∀ a : Int, 0 ≤ a → a < num_grid mesh →
      (triplet_cleared scratch weights third_q mesh map_q).weight_q.get a = 0 ∧
      (triplet_cleared scratch weights third_q mesh map_q).third_q.get a = -1 ∧
      (triplet_cleared scratch weights third_q mesh map_q).weights.get a = 0 := by
  have hN2 : (((num_grid mesh).toNat : Nat) : Int) = num_grid mesh :=
    Int.toNat_of_nonneg hN
  have inv := triplet_init_loop_inv map_q
    ⟨scratch.ir_addresses, scratch.weight_q, third_q, weights, 0⟩ rfl
    (num_grid mesh).toNat
  obtain ⟨icount, ilisted, icleared0⟩ := inv
  rw [hN2] at icount ilisted
  refine ⟨icount, ilisted, ?_⟩
  intro a h0 ha
  have := icleared0 a h0 (by omega)
  rw [hN2] at this
  exact this

theorem triplets_of_map_eq (scratch : TripletScratch)
    (weights third_q : Buf Int) (mesh is_shift grid_double0 : Vec3)
    (hN : 0 ≤ num_grid mesh) (map_q : Buf Int) :
    triplets_of_map scratch weights third_q mesh is_shift grid_double0 map_q =
      ((triplet_weights scratch weights third_q mesh is_shift grid_double0
          map_q).1,
        triplet_third scratch weights third_q mesh is_shift grid_double0 map_q,
        (triplet_weights scratch weights third_q mesh is_shift grid_double0
          map_q).2) := by
  obtain ⟨icount, ilisted, _⟩ :=
    triplet_cleared_inv scratch weights third_q mesh hN map_q
  unfold triplet_cleared at icount ilisted
  have htq : ∀ tq0 : Buf Int,
      third_q_loop
        (triplet_init_loop (num_grid mesh) map_q
          ⟨scratch.ir_addresses, scratch.weight_q, third_q, weights, 0⟩).num_ir_q
        mesh is_shift grid_double0
        (triplet_init_loop (num_grid mesh) map_q
          ⟨scratch.ir_addresses, scratch.weight_q, third_q, weights, 0⟩).ir_addresses
        tq0 =
      (fixed_addresses map_q (num_grid mesh)).foldl
        (fun tq r => tq.set r (third_address mesh is_shift grid_double0 r)) tq0 := by
    intro tq0
    unfold third_q_loop
    rw [icount, ← ilisted]
    simp only [List.length_map, List.length_range]
    exact for_loop_get_eq_foldl
      (fun (tq : Buf Int) (r : Int) =>
        tq.set r (third_address mesh is_shift grid_double0 r)) _ _ _
  have htw : ∀ (wq tq w0 : Buf Int),
      triplet_weight_loop
        (triplet_init_loop (num_grid mesh) map_q
          ⟨scratch.ir_addresses, scratch.weight_q, third_q, weights, 0⟩).num_ir_q
        map_q wq tq
        (triplet_init_loop (num_grid mesh) map_q
          ⟨scratch.ir_addresses, scratch.weight_q, third_q, weights, 0⟩).ir_addresses
        w0 =
      (fixed_addresses map_q (num_grid mesh)).foldl
        (triplet_weight_step map_q wq tq) (w0, 0) := by
    intro wq tq w0
    unfold triplet_weight_loop
    rw [icount, ← ilisted]
    simp only [List.length_map, List.length_range]
    exact for_loop_get_eq_foldl (triplet_weight_step map_q wq tq) _ _ _
  unfold triplets_of_map triplet_weights triplet_third triplet_weight_q
    triplet_cleared
  simp only
  rw [htq, htw]

theorem triplet_third_get (scratch : TripletScratch)
    (weights third_q : Buf Int) (mesh is_shift grid_double0 : Vec3)
    (hN : 0 ≤ num_grid mesh) (map_q : Buf Int) (a : Int) (h0 : 0 ≤ a)
    (h1 : a < num_grid mesh) :
    (triplet_third scratch weights third_q mesh is_shift grid_double0 map_q).get a =
      if map_q.get a = a then third_address mesh is_shift grid_double0 a
      else -1 := by
  unfold triplet_third
  rw [fold_set_get]
  have hmem : a ∈ fixed_addresses map_q (num_grid mesh) ↔ map_q.get a = a := by
    rw [mem_fixed_addresses]
    exact ⟨fun h => h.2, fun h => ⟨⟨h0, h1⟩, h⟩⟩
  by_cases h : map_q.get a = a
  · rw [if_pos (hmem.mpr h), if_pos h]
  · rw [if_neg (fun c => h (hmem.mp c)), if_neg h]
    exact ((triplet_cleared_inv scratch weights third_q mesh hN map_q).2.2
      a h0 h1).2.1

theorem weight_fold_support (map_q weight_q third_q : Buf Int) (N : Int)
    (L : List Int) :
    ∀ (todo : List Int) (st : Buf Int × Int), (∀ r ∈ todo, r ∈ L) →
      (∀ a : Int, 0 ≤ a → a < N → st.1.get a ≠ 0 → a ∈ L) →
      ∀ a : Int, 0 ≤ a → a < N →
        (todo.foldl (triplet_weight_step map_q weight_q third_q) st).1.get a ≠ 0 →
        a ∈ L := by
  intro todo
  induction todo with
  | nil => intro st _ h; exact h
  | cons r rest ih =>
    intro st hsub hst
    rw [List.foldl_cons]
    apply ih _ (fun x hx => hsub x (List.mem_cons_of_mem _ hx))
    intro a h0 h1
    unfold triplet_weight_step
    by_cases hc : st.1.get (map_q.get (third_q.get r)) ≠ 0
    · rw [if_pos hc]
      simp only [Buf.get_set]
      by_cases ha : a = map_q.get (third_q.get r)
      · intro _
        rw [ha]
        rw [ha] at h0 h1
        exact hst _ h0 h1 hc
      · rw [if_neg ha]
        exact hst a h0 h1
    · rw [if_neg hc]
      simp only [Buf.get_set]
      by_cases ha : a = r
      · intro _
        rw [ha]
        exact hsub r (List.mem_cons_self _ _)
      · rw [if_neg ha]
        exact hst a h0 h1

theorem triplet_weights_support (scratch : TripletScratch)
    (weights third_q : Buf Int) (mesh is_shift grid_double0 : Vec3)
    (hN : 0 ≤ num_grid mesh) (map_q : Buf Int) (a : Int) (h0 : 0 ≤ a)
    (h1 : a < num_grid mesh)
    (hw : (triplet_weights scratch weights third_q mesh is_shift grid_double0
      map_q).1.get a ≠ 0) :
    map_q.get a = a := by
  have := weight_fold_support map_q
    (triplet_weight_q scratch weights third_q mesh map_q)
    (triplet_third scratch weights third_q mesh is_shift grid_double0 map_q)
    (num_grid mesh) (fixed_addresses map_q (num_grid mesh))
    (fixed_addresses map_q (num_grid mesh))
    ((triplet_cleared scratch weights third_q mesh map_q).weights, 0)
    (fun r hr => hr)
    (fun b hb0 hb1 hne => absurd
      ((triplet_cleared_inv scratch weights third_q mesh hN map_q).2.2
        b hb0 hb1).2.2 hne)
    a h0 h1 hw
  exact ((mem_fixed_addresses map_q _ a).mp this).2

theorem third_parity_ok (mesh : Vec3) (hm : mesh_positive mesh) (q r : Int) :
    parity_ok
      (get_vector_modulo
        ⟨-(address_to_grid q mesh ⟨0, 0, 0⟩).c0 - (address_to_grid r mesh ⟨0, 0, 0⟩).c0,
         -(address_to_grid q mesh ⟨0, 0, 0⟩).c1 - (address_to_grid r mesh ⟨0, 0, 0⟩).c1,
         -(address_to_grid q mesh ⟨0, 0, 0⟩).c2 - (address_to_grid r mesh ⟨0, 0, 0⟩).c2⟩
        (mesh_double mesh)) ⟨0, 0, 0⟩ := by
  rw [get_vector_modulo_eq _ mesh hm]
  unfold address_to_grid
  simp only
  refine ⟨?_, ?_, ?_⟩
  · rw [Int.emod_emod_of_dvd _ (Dvd.intro_left mesh.c0 rfl)]
    show _ % 2 = (0 : Int)
    omega
  · rw [Int.emod_emod_of_dvd _ (Dvd.intro_left mesh.c1 rfl)]
    show _ % 2 = (0 : Int)
    omega
  · rw [Int.emod_emod_of_dvd _ (Dvd.intro_left mesh.c2 rfl)]
    show _ % 2 = (0 : Int)
    omega

theorem third_address_grid (mesh : Vec3) (hm : mesh_positive mesh) (q r : Int) :
    address_to_grid
        (third_address mesh ⟨0, 0, 0⟩ (address_to_grid q mesh ⟨0, 0, 0⟩) r) mesh
        ⟨0, 0, 0⟩ =
      ⟨(-(address_to_grid q mesh ⟨0, 0, 0⟩).c0 -
          (address_to_grid r mesh ⟨0, 0, 0⟩).c0) % (mesh.c0 * 2),
       (-(address_to_grid q mesh ⟨0, 0, 0⟩).c1 -
          (address_to_grid r mesh ⟨0, 0, 0⟩).c1) % (mesh.c1 * 2),
       (-(address_to_grid q mesh ⟨0, 0, 0⟩).c2 -
          (address_to_grid r mesh ⟨0, 0, 0⟩).c2) % (mesh.c2 * 2)⟩ := by
  have hs : shift_valid ⟨0, 0, 0⟩ := by decide
  unfold third_address
  simp only
  rw [address_to_grid_of_address _ mesh _ hs (modulo_in_range _ mesh hm)
    (third_parity_ok mesh hm q r), get_vector_modulo_eq _ mesh hm]

theorem add_neg_emod_dvd (x y m : Int) : m ∣ x + y + (-x - y) % m := by
  have := Int.emod_add_ediv (-x - y) m
  exact ⟨-((-x - y) / m), by linarith⟩

/-- C11: triplet closure. For every mesh with positive divisions, every `q`
address in `[0, N0*N1*N2)` and every point group, in either build, after
`get_ir_triplets_at_q` every address `a` with `weights[a] > 0` has
`third_q[a]` in `[0, N0*N1*N2)` and, with `g` the doubled coordinate of an
address on the unshifted mesh, `g(q)_i + g(a)_i + g(third_q[a])_i` is
divisible by `2 * N_i` on each axis. -/
theorem triplet_closure (openmp : Bool) (scratch : TripletScratch)
    (weights : Buf Int) (grid_points : Buf Vec3) (third_q : Buf Int) (q : Int)
    (mesh : Vec3) (pointgroup : PointSymmetry) (hm : mesh_positive mesh)
    (hq0 : 0 ≤ q) (hq1 : q < num_grid mesh) (a : Int) (h0 : 0 ≤ a)
    (h1 : a < num_grid mesh)
    (hw : (get_ir_triplets_at_q openmp scratch weights grid_points third_q q mesh
      pointgroup).weights.get a > 0) :
    (0 ≤ (get_ir_triplets_at_q openmp scratch weights grid_points third_q q mesh
        pointgroup).third_q.get a ∧
      (get_ir_triplets_at_q openmp scratch weights grid_points third_q q mesh
        pointgroup).third_q.get a < num_grid mesh) ∧
    2 * mesh.c0 ∣ (address_to_grid q mesh ⟨0, 0, 0⟩).c0 +
      (address_to_grid a mesh ⟨0, 0, 0⟩).c0 +
      (address_to_grid
        ((get_ir_triplets_at_q openmp scratch weights grid_points third_q q mesh
          pointgroup).third_q.get a) mesh ⟨0, 0, 0⟩).c0 ∧
    2 * mesh.c1 ∣ (address_to_grid q mesh ⟨0, 0, 0⟩).c1 +
      (address_to_grid a mesh ⟨0, 0, 0⟩).c1 +
      (address_to_grid
        ((get_ir_triplets_at_q openmp scratch weights grid_points third_q q mesh
          pointgroup).third_q.get a) mesh ⟨0, 0, 0⟩).c1 ∧
    2 * mesh.c2 ∣ (address_to_grid q mesh ⟨0, 0, 0⟩).c2 +
      (address_to_grid a mesh ⟨0, 0, 0⟩).c2 +
      (address_to_grid
        ((get_ir_triplets_at_q openmp scratch weights grid_points third_q q mesh
          pointgroup).third_q.get a) mesh ⟨0, 0, 0⟩).c2 := by
  have _ := hq0
  have _ := hq1
  have hN := (num_grid_pos mesh hm).le
  unfold get_ir_triplets_at_q at hw ⊢
  simp only at hw ⊢
  rw [triplets_of_map_eq _ _ _ _ _ _ hN] at hw ⊢
  simp only at hw ⊢
  have hfix := triplet_weights_support _ _ _ _ _ _ hN _ a h0 h1 (ne_of_gt hw)
  rw [triplet_third_get _ _ _ _ _ _ hN _ a h0 h1, if_pos hfix,
    third_address_grid mesh hm q a]
  refine ⟨third_address_range mesh hm q a, ?_, ?_, ?_⟩
  · rw [mul_comm]; exact add_neg_emod_dvd _ _ _
  · rw [mul_comm]; exact add_neg_emod_dvd _ _ _
  · rw [mul_comm]; exact add_neg_emod_dvd _ _ _

/-! ## C19: triplets under the identity-only group -/

theorem mat_Nint_zero : mat_Nint 0 = 0 := by
  unfold mat_Nint
  norm_num

theorem diff_small_self (symprec x : ℚ) (h : 0 < symprec) :
    diff_small symprec x x = true := by
  unfold diff_small
  simp only [sub_self, mat_Nint_zero, Int.cast_zero, decide_eq_true_eq]
  unfold mat_Dabs
  simp [h]

theorem identity_mul_qvec (v : QVec) :
    mat_multiply_matrix_vector_id3 identity v = v := by
  unfold mat_multiply_matrix_vector_id3 identity
  cases v
  simp

theorem stabilizer_of_identity (symprec : ℚ) (h : 0 < symprec) (sq : QVec) :
    get_point_group_reciprocal_with_q [identity] symprec [sq] = [identity] := by
  unfold get_point_group_reciprocal_with_q
  simp only [List.foldl_cons, List.foldl_nil]
  have hk : stabilizer_k_loop symprec
      (mat_multiply_matrix_vector_id3 identity sq) [sq] = true := by
    rw [identity_mul_qvec]
    unfold stabilizer_k_loop
    simp [diff_small_self symprec _ h]
  have hj : stabilizer_j_loop symprec identity [sq] [sq] false = true := by
    unfold stabilizer_j_loop
    simp only [hk, if_true]
    rfl
  rw [hj]
  rfl

theorem triplet_tolerance_pos (mesh : Vec3) (hm : mesh_positive mesh) :
    (0 : ℚ) < (1 / 10) / ((mesh.c0 + mesh.c1 + mesh.c2 : Int) : ℚ) := by
  obtain ⟨p0, p1, p2⟩ := hm
  have : (0 : ℚ) < ((mesh.c0 + mesh.c1 + mesh.c2 : Int) : ℚ) := by
    exact_mod_cast (by omega : 0 < mesh.c0 + mesh.c1 + mesh.c2)
  positivity

theorem identity_map_q (openmp : Bool) (gp0 : Buf Vec3) (map0 : Buf Int)
    (mesh s : Vec3) (hm : mesh_positive mesh) (hs : shift_valid s) (a : Int)
    (h0 : 0 ≤ a) (h1 : a < num_grid mesh) :
    (if openmp = true then
        get_ir_reciprocal_mesh_openmp gp0 map0 mesh s [identity]
      else get_ir_reciprocal_mesh gp0 map0 mesh s [identity]).map.get a = a := by
  cases openmp with
  | false =>
    simp only [Bool.false_eq_true, if_false]
    exact (serial_fixed_iff gp0 map0 mesh s hm hs [identity] a h0 h1).mpr
      (trivial_group_no_lower mesh s hm hs [identity] (Or.inr rfl) a h0 h1)
  | true =>
    simp only [if_true]
    rw [openmp_map_get gp0 map0 mesh s hm hs [identity] a h0 h1]
    exact (min_address_fixed_iff mesh s [identity] a).mpr
      (trivial_group_no_lower mesh s hm hs [identity] (Or.inr rfl) a h0 h1)

theorem fixed_addresses_of_identity (map_q : Buf Int) (n : Int)
    (h : ∀ a : Int, 0 ≤ a → a < n → map_q.get a = a) :
    fixed_addresses map_q n = address_list n := by
  unfold fixed_addresses
  rw [List.filter_eq_self]
  intro a ha
  have := (mem_address_list n a).mp ha
  simp [h a this.1 this.2]

theorem weight_q_loop_ge (map_q wq0 : Buf Int) :
    ∀ k : Nat,
      (∀ b : Int, wq0.get b ≤ (weight_q_loop (k : Int) map_q wq0).get b) ∧
      (∀ i : Int, 0 ≤ i → i < k →
        wq0.get (map_q.get i) + 1 ≤
          (weight_q_loop (k : Int) map_q wq0).get (map_q.get i)) := by
  intro k
  induction k with
  | zero =>
    have e : weight_q_loop ((0 : Nat) : Int) map_q wq0 = wq0 := by
      unfold weight_q_loop
      exact for_loop_zero _ _
    rw [e]
    refine ⟨fun b => le_refl _, ?_⟩
    intro i h0 h1
    simp at h1
    omega
  | succ k ih =>
    have e : ((k + 1 : Nat) : Int) = (k : Int) + 1 := by push_cast; rfl
    rw [e]
    obtain ⟨ih1, ih2⟩ := ih
    unfold weight_q_loop at ih1 ih2 ⊢
    rw [for_loop_succ]
    have hmono : ∀ b : Int,
        (for_loop (k : Int) (fun wq i =>
          wq.set (map_q.get i) (wq.get (map_q.get i) + 1)) wq0).get b ≤
        ((for_loop (k : Int) (fun wq i =>
          wq.set (map_q.get i) (wq.get (map_q.get i) + 1)) wq0).set
            (map_q.get (k : Int))
            ((for_loop (k : Int) (fun wq i =>
              wq.set (map_q.get i) (wq.get (map_q.get i) + 1)) wq0).get
                (map_q.get (k : Int)) + 1)).get b := by
      intro b
      rw [Buf.get_set]
      split_ifs with hb
      · rw [hb]; omega
      · exact le_refl _
    refine ⟨fun b => le_trans (ih1 b) (hmono b), ?_⟩
    intro i h0 h1
    by_cases hi : i = k
    · subst hi
      rw [Buf.get_set, if_pos rfl]
      have := ih1 (map_q.get (k : Int))
      omega
    · exact le_trans (ih2 i h0 (by omega)) (hmono _)

theorem third_address_def (mesh s gd0 : Vec3) (a : Int) :
    third_address mesh s gd0 a =
      grid_to_address
        (get_vector_modulo
          ⟨-gd0.c0 - (address_to_grid a mesh s).c0,
           -gd0.c1 - (address_to_grid a mesh s).c1,
           -gd0.c2 - (address_to_grid a mesh s).c2⟩ (mesh_double mesh)) mesh s :=
  rfl

theorem third_address_involutive (mesh : Vec3) (hm : mesh_positive mesh)
    (q r : Int) (h0 : 0 ≤ r) (h1 : r < num_grid mesh) :
    third_address mesh ⟨0, 0, 0⟩ (address_to_grid q mesh ⟨0, 0, 0⟩)
        (third_address mesh ⟨0, 0, 0⟩ (address_to_grid q mesh ⟨0, 0, 0⟩) r) =
      r := by
  have hs : shift_valid ⟨0, 0, 0⟩ := by decide
  have key : ∀ x y m : Int, 0 ≤ y → y < m → (-x - (-x - y) % m) % m = y := by
    intro x y m hy0 hy1
    have e := Int.emod_add_ediv (-x - y) m
    have e2 : -x - (-x - y) % m = y + m * ((-x - y) / m) := by linarith
    rw [e2, Int.add_mul_emod_self_left, Int.emod_eq_of_lt hy0 hy1]
  obtain ⟨⟨⟨a0, b0⟩, ⟨a1, b1⟩, ⟨a2, b2⟩⟩, _⟩ :=
    address_to_grid_props r mesh ⟨0, 0, 0⟩ hm hs h0 h1
  rw [third_address_def mesh ⟨0, 0, 0⟩ (address_to_grid q mesh ⟨0, 0, 0⟩)
      (third_address mesh ⟨0, 0, 0⟩ (address_to_grid q mesh ⟨0, 0, 0⟩) r),
    third_address_grid mesh hm q r, get_vector_modulo_eq _ mesh hm]
  simp only
  rw [key _ _ _ a0 (by omega), key _ _ _ a1 (by omega), key _ _ _ a2 (by omega)]
  exact address_to_grid_round_trip r mesh ⟨0, 0, 0⟩ hm hs h0 h1

theorem triplet_weight_step_then (map_q wq tq : Buf Int) (st : Buf Int × Int)
    (r : Int) (h : st.1.get (map_q.get (tq.get r)) ≠ 0) :
    triplet_weight_step map_q wq tq st r =
      (st.1.set (map_q.get (tq.get r))
        (st.1.get (map_q.get (tq.get r)) + wq.get r), st.2) := by
  unfold triplet_weight_step
  rw [if_pos h]

theorem triplet_weight_step_else (map_q wq tq : Buf Int) (st : Buf Int × Int)
    (r : Int) (h : st.1.get (map_q.get (tq.get r)) = 0) :
    triplet_weight_step map_q wq tq st r =
      (st.1.set r (wq.get r), st.2 + 1) := by
  unfold triplet_weight_step
  rw [if_neg (fun c => c h)]

theorem identity_weight_fold (wq tq map_q w0 : Buf Int) (N : Int)
    (t : Int → Int)
    (ht_range : ∀ x : Int, 0 ≤ x → x < N → 0 ≤ t x ∧ t x < N)
    (ht_inv : ∀ x : Int, 0 ≤ x → x < N → t (t x) = x)
    (htq : ∀ x : Int, 0 ≤ x → x < N → tq.get x = t x)
    (hmap : ∀ x : Int, 0 ≤ x → x < N → map_q.get x = x)
    (hwq : ∀ x : Int, 0 ≤ x → x < N → 1 ≤ wq.get x)
    (hw0 : ∀ x : Int, 0 ≤ x → x < N → w0.get x = 0) :
    ∀ k : Nat, (k : Int) ≤ N →
      (∀ x : Int, 0 ≤ x → x < k →
        (x ≤ t x → 0 < ((address_list (k : Int)).foldl
            (triplet_weight_step map_q wq tq) (w0, 0)).1.get x) ∧
        (t x < x → ((address_list (k : Int)).foldl
            (triplet_weight_step map_q wq tq) (w0, 0)).1.get x = 0)) ∧
      (∀ x : Int, (k : Int) ≤ x → x < N →
        ((address_list (k : Int)).foldl
          (triplet_weight_step map_q wq tq) (w0, 0)).1.get x = 0) ∧
      ((address_list (k : Int)).foldl
          (triplet_weight_step map_q wq tq) (w0, 0)).2 =
        (((address_list (k : Int)).countP (fun a => decide (a ≤ t a)) : Nat) : Int) := by
  intro k
  induction k with
  | zero =>
    intro _
    refine ⟨?_, ?_, ?_⟩
    · intro x h0 h1
      simp at h1
      omega
    · intro x h0 h1
      exact hw0 x (by simpa using h0) h1
    · rfl
  | succ k ih =>
    intro hk
    have e : ((k + 1 : Nat) : Int) = (k : Int) + 1 := by push_cast; rfl
    rw [e] at hk ⊢
    obtain ⟨ih1, ih2, ih3⟩ := ih (by omega)
    rw [address_list_succ, List.foldl_append, List.countP_append]
    simp only [List.foldl_cons, List.foldl_nil]
    have hk0 : (0 : Int) ≤ k := by omega
    have hkN : (k : Int) < N := by omega
    obtain ⟨tr0, tr1⟩ := ht_range k hk0 hkN
    have htarget : map_q.get (tq.get (k : Int)) = t k := by
      rw [htq k hk0 hkN, hmap _ tr0 tr1]
    by_cases hc : t (k : Int) < k
    · have hpos := (ih1 (t k) tr0 hc).1 (by rw [ht_inv k hk0 hkN]; omega)
      rw [triplet_weight_step_then _ _ _ _ _ (by rw [htarget]; omega), htarget]
      refine ⟨?_, ?_, ?_⟩
      · intro x h0 h1
        simp only [Buf.get_set]
        by_cases hx : x = t k
        · rw [if_pos hx]
          have := hwq k hk0 hkN
          refine ⟨fun _ => by omega, fun hlt => ?_⟩
          rw [hx, ht_inv k hk0 hkN] at hlt
          omega
        · rw [if_neg hx]
          by_cases hxk : x = k
          · rw [hxk]
            refine ⟨fun hle => by omega, fun _ => ih2 k (le_refl _) hkN⟩
          · exact ih1 x h0 (by omega)
      · intro x h0 h1
        simp only [Buf.get_set]
        rw [if_neg (by omega)]
        exact ih2 x (by omega) h1
      · simp only
        rw [ih3]
        have : ¬ ((k : Int) ≤ t k) := by omega
        simp [List.countP_cons, this]
    · have hzero := ih2 (t k) (by omega) tr1
      rw [triplet_weight_step_else _ _ _ _ _ (by rw [htarget]; exact hzero)]
      refine ⟨?_, ?_, ?_⟩
      · intro x h0 h1
        simp only [Buf.get_set]
        by_cases hxk : x = k
        · rw [if_pos hxk, hxk]
          have := hwq k hk0 hkN
          refine ⟨fun _ => by omega, fun hlt => by omega⟩
        · rw [if_neg hxk]
          exact ih1 x h0 (by omega)
      · intro x h0 h1
        simp only [Buf.get_set]
        rw [if_neg (by omega)]
        exact ih2 x (by omega) h1
      · simp only
        rw [ih3]
        have : (k : Int) ≤ t k := by omega
        simp [List.countP_cons, this]

theorem identity_triplet_core (scratch : TripletScratch)
    (weights third_q : Buf Int) (mesh : Vec3) (hm : mesh_positive mesh)
    (q : Int) (map_q : Buf Int)
    (hmap : ∀ x : Int, 0 ≤ x → x < num_grid mesh → map_q.get x = x) :
    (∀ a : Int, 0 ≤ a → a < num_grid mesh →
      (triplets_of_map scratch weights third_q mesh ⟨0, 0, 0⟩
        (address_to_grid q mesh ⟨0, 0, 0⟩) map_q).2.1.get a =
      third_address mesh ⟨0, 0, 0⟩ (address_to_grid q mesh ⟨0, 0, 0⟩) a) ∧
    (triplets_of_map scratch weights third_q mesh ⟨0, 0, 0⟩
        (address_to_grid q mesh ⟨0, 0, 0⟩) map_q).2.2 =
      count_third_ge
        (triplets_of_map scratch weights third_q mesh ⟨0, 0, 0⟩
          (address_to_grid q mesh ⟨0, 0, 0⟩) map_q).2.1 (num_grid mesh) ∧
    (∀ a : Int, 0 ≤ a → a < num_grid mesh →
      (0 < (triplets_of_map scratch weights third_q mesh ⟨0, 0, 0⟩
        (address_to_grid q mesh ⟨0, 0, 0⟩) map_q).1.get a ↔
      a ≤ third_address mesh ⟨0, 0, 0⟩ (address_to_grid q mesh ⟨0, 0, 0⟩) a)) := by
  have hN := (num_grid_pos mesh hm).le
  have hN2 : (((num_grid mesh).toNat : Nat) : Int) = num_grid mesh :=
    Int.toNat_of_nonneg hN
  rw [triplets_of_map_eq _ _ _ _ _ _ hN]
  simp only
  have htq : ∀ a : Int, 0 ≤ a → a < num_grid mesh →
      (triplet_third scratch weights third_q mesh ⟨0, 0, 0⟩
        (address_to_grid q mesh ⟨0, 0, 0⟩) map_q).get a =
      third_address mesh ⟨0, 0, 0⟩ (address_to_grid q mesh ⟨0, 0, 0⟩) a := by
    intro a h0 h1
    rw [triplet_third_get _ _ _ _ _ _ hN _ a h0 h1, if_pos (hmap a h0 h1)]
  have hcl := (triplet_cleared_inv scratch weights third_q mesh hN map_q).2.2
  have hwq : ∀ x : Int, 0 ≤ x → x < num_grid mesh →
      1 ≤ (triplet_weight_q scratch weights third_q mesh map_q).get x := by
    intro x h0 h1
    have := (weight_q_loop_ge map_q
      (triplet_cleared scratch weights third_q mesh map_q).weight_q
      (num_grid mesh).toNat).2 x h0 (by omega)
    rw [hN2, hmap x h0 h1, (hcl x h0 h1).1] at this
    exact this
  have hfold := identity_weight_fold
    (triplet_weight_q scratch weights third_q mesh map_q)
    (triplet_third scratch weights third_q mesh ⟨0, 0, 0⟩
      (address_to_grid q mesh ⟨0, 0, 0⟩) map_q)
    map_q (triplet_cleared scratch weights third_q mesh map_q).weights
    (num_grid mesh)
    (third_address mesh ⟨0, 0, 0⟩ (address_to_grid q mesh ⟨0, 0, 0⟩))
    (fun x _ _ => third_address_range mesh hm q x)
    (fun x h0 h1 => third_address_involutive mesh hm q x h0 h1)
    htq hmap hwq (fun x h0 h1 => (hcl x h0 h1).2.2)
    (num_grid mesh).toNat (by omega)
  rw [hN2] at hfold
  have hw : triplet_weights scratch weights third_q mesh ⟨0, 0, 0⟩
      (address_to_grid q mesh ⟨0, 0, 0⟩) map_q =
      (address_list (num_grid mesh)).foldl
        (triplet_weight_step map_q
          (triplet_weight_q scratch weights third_q mesh map_q)
          (triplet_third scratch weights third_q mesh ⟨0, 0, 0⟩
            (address_to_grid q mesh ⟨0, 0, 0⟩) map_q))
        ((triplet_cleared scratch weights third_q mesh map_q).weights, 0) := by
    unfold triplet_weights
    rw [fixed_addresses_of_identity map_q _ hmap]
  rw [hw]
  obtain ⟨f1, _, f3⟩ := hfold
  refine ⟨htq, ?_, ?_⟩
  · rw [f3]
    unfold count_third_ge
    congr 1
    apply List.countP_congr
    intro a ha
    have := (mem_address_list _ a).mp ha
    rw [htq a this.1 this.2]
  · intro a h0 h1
    have := f1 a h0 (by omega)
    constructor
    · intro hpos
      by_contra hc
      have := this.2 (by omega)
      omega
    · exact this.1

/-- C19: for every mesh with positive divisions and every `q` address in
`[0, N0*N1*N2)`, in either build, `get_ir_triplets_at_q` with the point group
of the identity alone sets
`third_q[a] = grid_to_address (modulo (-g(q) - g(a), 2N))` at every address
`a`, returns `num_triplets` equal to the number of addresses `a` with
`third_q[a] ≥ a`, and leaves weights that sum to `N0*N1*N2` (64 on the mesh
(4,4,4)). -/
theorem identity_triplets (openmp : Bool) (scratch : TripletScratch)
    (weights : Buf Int) (grid_points : Buf Vec3) (third_q : Buf Int) (q : Int)
    (mesh : Vec3) (hm : mesh_positive mesh) (hq0 : 0 ≤ q)
    (hq1 : q < num_grid mesh) :
    (∀ a : Int, 0 ≤ a → a < num_grid mesh →
      (get_ir_triplets_at_q openmp scratch weights grid_points third_q q mesh
        [identity]).third_q.get a =
      grid_to_address
        (get_vector_modulo
          ⟨-(address_to_grid q mesh ⟨0, 0, 0⟩).c0 -
              (address_to_grid a mesh ⟨0, 0, 0⟩).c0,
           -(address_to_grid q mesh ⟨0, 0, 0⟩).c1 -
              (address_to_grid a mesh ⟨0, 0, 0⟩).c1,
           -(address_to_grid q mesh ⟨0, 0, 0⟩).c2 -
              (address_to_grid a mesh ⟨0, 0, 0⟩).c2⟩
          (mesh_double mesh)) mesh ⟨0, 0, 0⟩) ∧
    (get_ir_triplets_at_q openmp scratch weights grid_points third_q q mesh
        [identity]).num_ir_triplets =
      count_third_ge
        (get_ir_triplets_at_q openmp scratch weights grid_points third_q q mesh
          [identity]).third_q (num_grid mesh) ∧
    buf_sum (get_ir_triplets_at_q openmp scratch weights grid_points third_q q
        mesh [identity]).weights (num_grid mesh) = num_grid mesh := by
  have _ := hq0
  have _ := hq1
  have hs : shift_valid ⟨0, 0, 0⟩ := by decide
  unfold get_ir_triplets_at_q
  simp only
  rw [stabilizer_of_identity _ (triplet_tolerance_pos mesh hm)]
  have hmap := identity_map_q openmp grid_points scratch.map_q mesh ⟨0, 0, 0⟩ hm hs
  have core := identity_triplet_core scratch weights third_q mesh hm q _ hmap
  refine ⟨core.1, core.2.1, ?_⟩
  exact (triplets_of_map_weights scratch weights third_q mesh hm q _
    (fun a h0 h1 => by rw [hmap a h0 h1]; exact ⟨h0, h1⟩)
    (fun a h0 h1 => by rw [hmap a h0 h1, hmap a h0 h1])).2

/-- Witness of C19: on the mesh (4,4,4) with `q` at the address 0 the weights
sum to 64, and the third leg of the address 1 is the address 3. -/
theorem identity_triplets_witness :
    mesh_positive ⟨4, 4, 4⟩ ∧ (0 : Int) ≤ 0 ∧ (0 : Int) < num_grid ⟨4, 4, 4⟩ ∧
      (get_ir_triplets_at_q false zero_scratch zero_map zero_points zero_map 0
        ⟨4, 4, 4⟩ [identity]).third_q.get 1 = 3 ∧
      buf_sum (get_ir_triplets_at_q false zero_scratch zero_map zero_points
        zero_map 0 ⟨4, 4, 4⟩ [identity]).weights 64 = 64 :=
  ⟨by decide, by decide, by decide,
    ((identity_triplets false zero_scratch zero_map zero_points zero_map 0
      ⟨4, 4, 4⟩ (by decide) (by decide) (by decide)).1 1 (by decide)
      (by decide)).trans (by decide),
    (identity_triplets false zero_scratch zero_map zero_points zero_map 0
      ⟨4, 4, 4⟩ (by decide) (by decide) (by decide)).2.2⟩

theorem identity_triplet_weight_pos (openmp : Bool) (scratch : TripletScratch)
    (weights : Buf Int) (grid_points : Buf Vec3) (third_q : Buf Int) (q : Int)
    (mesh : Vec3) (hm : mesh_positive mesh) (a : Int) (h0 : 0 ≤ a)
    (h1 : a < num_grid mesh) :
    0 < (get_ir_triplets_at_q openmp scratch weights grid_points third_q q mesh
        [identity]).weights.get a ↔
      a ≤ third_address mesh ⟨0, 0, 0⟩ (address_to_grid q mesh ⟨0, 0, 0⟩) a := by
  have hs : shift_valid ⟨0, 0, 0⟩ := by decide
  unfold get_ir_triplets_at_q
  simp only
  rw [stabilizer_of_identity _ (triplet_tolerance_pos mesh hm)]
  have hmap := identity_map_q openmp grid_points scratch.map_q mesh ⟨0, 0, 0⟩ hm hs
  exact (identity_triplet_core scratch weights third_q mesh hm q _ hmap).2.2
    a h0 h1

/-- Witness of C11: the 3x3x1 mesh, `q` at the address 1, the point group of
the identity alone, at the address 0, whose weight is positive and whose
third leg is the address 2. -/
theorem triplet_closure_witness :
    mesh_positive ⟨3, 3, 1⟩ ∧ (0 : Int) ≤ 1 ∧ (1 : Int) < num_grid ⟨3, 3, 1⟩ ∧
      (0 : Int) ≤ 0 ∧ (0 : Int) < num_grid ⟨3, 3, 1⟩ ∧
      (get_ir_triplets_at_q false zero_scratch zero_map zero_points zero_map 1
        ⟨3, 3, 1⟩ [identity]).weights.get 0 > 0 ∧
      (0 ≤ (get_ir_triplets_at_q false zero_scratch zero_map zero_points
          zero_map 1 ⟨3, 3, 1⟩ [identity]).third_q.get 0 ∧
        (get_ir_triplets_at_q false zero_scratch zero_map zero_points zero_map 1
          ⟨3, 3, 1⟩ [identity]).third_q.get 0 < num_grid ⟨3, 3, 1⟩) :=
  ⟨by decide, by decide, by decide, by decide, by decide,
    (identity_triplet_weight_pos false zero_scratch zero_map zero_points
      zero_map 1 ⟨3, 3, 1⟩ (by decide) 0 (by decide) (by decide)).mpr (by decide),
    (triplet_closure false zero_scratch zero_map zero_points zero_map 1 ⟨3, 3, 1⟩
      [identity] (by decide) (by decide) (by decide) 0 (by decide) (by decide)
      ((identity_triplet_weight_pos false zero_scratch zero_map zero_points
        zero_map 1 ⟨3, 3, 1⟩ (by decide) 0 (by decide) (by decide)).mpr
        (by decide))).1⟩

/-! ## C12: the rows of the grid triplets -/

theorem grid_triplets_body_num (grid_points : Buf Vec3) (third_q : Buf Int)
    (mesh : Vec3) (st : TripletRows) (i : Int) :
    (grid_triplets_body grid_points third_q mesh st i).num_ir =
      st.num_ir + (if 0 ≤ third_q.get i then 1 else 0) := by
  unfold grid_triplets_body
  by_cases h : third_q.get i < 0
  · have h2 : ¬ 0 ≤ third_q.get i := by omega
    simp [h, h2]
  · have h2 : 0 ≤ third_q.get i := by omega
    simp [h, h2]

theorem grid_triplets_loop_num (grid_points : Buf Vec3) (third_q : Buf Int)
    (mesh : Vec3) (init : TripletRows) (k : Nat) :
    (for_loop (k : Int) (grid_triplets_body grid_points third_q mesh) init).num_ir =
      init.num_ir + count_third_nonneg third_q (k : Int) := by
  induction k with
  | zero =>
    rw [show ((0 : Nat) : Int) = 0 from rfl, for_loop_zero]
    simp [count_third_nonneg, address_list]
  | succ k ih =>
    have e : ((k + 1 : Nat) : Int) = (k : Int) + 1 := by push_cast; rfl
    rw [e, for_loop_succ, grid_triplets_body_num, ih]
    unfold count_third_nonneg
    rw [address_list_succ, List.countP_append]
    by_cases h : 0 ≤ third_q.get (k : Int)
    · simp [List.countP_cons, h]
      ring
    · simp [List.countP_cons, h]

theorem grid_triplets_num (triplets : Buf Vec3) (q : Int) (grid_points : Buf Vec3)
    (third_q : Buf Int) (mesh : Vec3) (hN : 0 ≤ num_grid mesh) :
    (set_grid_triplets_at_q triplets q grid_points third_q mesh).num_ir =
      count_third_nonneg third_q (num_grid mesh) := by
  have hN2 : (((num_grid mesh).toNat : Nat) : Int) = num_grid mesh :=
    Int.toNat_of_nonneg hN
  unfold set_grid_triplets_at_q
  simp only
  have := grid_triplets_loop_num grid_points third_q mesh
    ⟨⟨(grid_points.get q).c0 * 2, (grid_points.get q).c1 * 2,
      (grid_points.get q).c2 * 2⟩, triplets, 0⟩ (num_grid mesh).toNat
  rw [hN2] at this
  rw [this]
  simp

theorem weight_fold_count_le (map_q wq tq : Buf Int) :
    ∀ (todo : List Int) (st : Buf Int × Int),
      (todo.foldl (triplet_weight_step map_q wq tq) st).2 ≤
        st.2 + (todo.length : Int) := by
  intro todo
  induction todo with
  | nil => intro st; simp
  | cons r rest ih =>
    intro st
    rw [List.foldl_cons]
    have h := ih (triplet_weight_step map_q wq tq st r)
    have h2 : (triplet_weight_step map_q wq tq st r).2 ≤ st.2 + 1 := by
      unfold triplet_weight_step
      simp only
      split_ifs <;> simp
    simp only [List.length_cons]
    push_cast
    omega

theorem triplet_third_nonneg_count (scratch : TripletScratch)
    (weights third_q : Buf Int) (mesh : Vec3) (hm : mesh_positive mesh)
    (q : Int) (map_q : Buf Int) :
    count_third_nonneg
        (triplet_third scratch weights third_q mesh ⟨0, 0, 0⟩
          (address_to_grid q mesh ⟨0, 0, 0⟩) map_q) (num_grid mesh) =
      ((fixed_addresses map_q (num_grid mesh)).length : Int) := by
  have hN := (num_grid_pos mesh hm).le
  unfold count_third_nonneg fixed_addresses
  rw [List.countP_eq_length_filter]
  congr 2
  apply List.filter_congr
  intro a ha
  have hr := (mem_address_list _ a).mp ha
  rw [triplet_third_get _ _ _ _ _ _ hN _ a hr.1 hr.2]
  by_cases h : map_q.get a = a
  · have := (third_address_range mesh hm q a).1
    simp [h, this]
  · simp [h]

theorem triplets_of_map_count_le (scratch : TripletScratch)
    (weights third_q : Buf Int) (mesh : Vec3) (hm : mesh_positive mesh)
    (q : Int) (map_q : Buf Int) :
    (triplets_of_map scratch weights third_q mesh ⟨0, 0, 0⟩
        (address_to_grid q mesh ⟨0, 0, 0⟩) map_q).2.2 ≤
      count_third_nonneg
        (triplets_of_map scratch weights third_q mesh ⟨0, 0, 0⟩
          (address_to_grid q mesh ⟨0, 0, 0⟩) map_q).2.1 (num_grid mesh) := by
  have hN := (num_grid_pos mesh hm).le
  rw [triplets_of_map_eq _ _ _ _ _ _ hN]
  simp only
  rw [triplet_third_nonneg_count scratch weights third_q mesh hm q]
  unfold triplet_weights
  have := weight_fold_count_le map_q
    (triplet_weight_q scratch weights third_q mesh map_q)
    (triplet_third scratch weights third_q mesh ⟨0, 0, 0⟩
      (address_to_grid q mesh ⟨0, 0, 0⟩) map_q)
    (fixed_addresses map_q (num_grid mesh))
    ((triplet_cleared scratch weights third_q mesh map_q).weights, 0)
  simpa using this

/-- C12, amended: for every mesh with positive divisions, every `q` address
and every point group, in either build, `set_grid_triplets_at_q` called with
the `third_q` and `grid_points` of `get_ir_triplets_at_q` writes exactly one
row per address `i` with `third_q[i] ≥ 0`, and that number of rows is at
least the `num_triplets` that `get_ir_triplets_at_q` returned. -/
theorem grid_triplets_rows (openmp : Bool) (scratch : TripletScratch)
    (weights : Buf Int) (grid_points : Buf Vec3) (third_q : Buf Int)
    (triplets : Buf Vec3) (q : Int) (mesh : Vec3) (pointgroup : PointSymmetry)
    (hm : mesh_positive mesh) :
    (set_grid_triplets_at_q triplets q
        (get_ir_triplets_at_q openmp scratch weights grid_points third_q q mesh
          pointgroup).grid_points
        (get_ir_triplets_at_q openmp scratch weights grid_points third_q q mesh
          pointgroup).third_q mesh).num_ir =
      count_third_nonneg
        (get_ir_triplets_at_q openmp scratch weights grid_points third_q q mesh
          pointgroup).third_q (num_grid mesh) ∧
    (get_ir_triplets_at_q openmp scratch weights grid_points third_q q mesh
        pointgroup).num_ir_triplets ≤
      (set_grid_triplets_at_q triplets q
        (get_ir_triplets_at_q openmp scratch weights grid_points third_q q mesh
          pointgroup).grid_points
        (get_ir_triplets_at_q openmp scratch weights grid_points third_q q mesh
          pointgroup).third_q mesh).num_ir := by
  have hN := (num_grid_pos mesh hm).le
  rw [grid_triplets_num _ _ _ _ _ hN]
  refine ⟨rfl, ?_⟩
  unfold get_ir_triplets_at_q
  simp only
  exact triplets_of_map_count_le scratch weights third_q mesh hm q _

theorem identity_triplet_num (openmp : Bool) (scratch : TripletScratch)
    (weights : Buf Int) (grid_points : Buf Vec3) (third_q : Buf Int) (q : Int)
    (mesh : Vec3) (hm : mesh_positive mesh) :
    (get_ir_triplets_at_q openmp scratch weights grid_points third_q q mesh
        [identity]).num_ir_triplets =
      (((address_list (num_grid mesh)).countP (fun a => decide
        (a ≤ third_address mesh ⟨0, 0, 0⟩ (address_to_grid q mesh ⟨0, 0, 0⟩) a)) :
        Nat) : Int) ∧
    count_third_nonneg
        (get_ir_triplets_at_q openmp scratch weights grid_points third_q q mesh
          [identity]).third_q (num_grid mesh) = num_grid mesh := by
  have hs : shift_valid ⟨0, 0, 0⟩ := by decide
  have hN2 : (((num_grid mesh).toNat : Nat) : Int) = num_grid mesh :=
    Int.toNat_of_nonneg (num_grid_pos mesh hm).le
  unfold get_ir_triplets_at_q
  simp only
  rw [stabilizer_of_identity _ (triplet_tolerance_pos mesh hm)]
  have hmap := identity_map_q openmp grid_points scratch.map_q mesh ⟨0, 0, 0⟩ hm hs
  have core := identity_triplet_core scratch weights third_q mesh hm q _ hmap
  constructor
  · rw [core.2.1]
    unfold count_third_ge
    congr 1
    apply List.countP_congr
    intro a ha
    have := (mem_address_list _ a).mp ha
    rw [core.1 a this.1 this.2]
  · unfold count_third_nonneg
    rw [List.countP_eq_length.mpr]
    · unfold address_list
      rw [List.length_map, List.length_range, hN2]
    · intro a ha
      have := (mem_address_list _ a).mp ha
      rw [core.1 a this.1 this.2]
      simpa using (third_address_range mesh hm q a).1

/-- C12 as stated fails: on the mesh (3,1,1) with `q` at the address 0 and
the point group of the identity alone, `get_ir_triplets_at_q` returns
`num_triplets = 2` while `third_q` is `0, 2, 1`, so that
`set_grid_triplets_at_q` writes 3 rows. -/
theorem triplet_rows_exceed_count :
    mesh_positive ⟨3, 1, 1⟩ ∧
      (get_ir_triplets_at_q false zero_scratch zero_map zero_points zero_map 0
        ⟨3, 1, 1⟩ [identity]).num_ir_triplets = 2 ∧
      (set_grid_triplets_at_q zero_points 0
        (get_ir_triplets_at_q false zero_scratch zero_map zero_points zero_map 0
          ⟨3, 1, 1⟩ [identity]).grid_points
        (get_ir_triplets_at_q false zero_scratch zero_map zero_points zero_map 0
          ⟨3, 1, 1⟩ [identity]).third_q ⟨3, 1, 1⟩).num_ir = 3 := by
  refine ⟨by decide, ?_, ?_⟩
  · rw [(identity_triplet_num false zero_scratch zero_map zero_points zero_map 0
      ⟨3, 1, 1⟩ (by decide)).1]
    decide
  · rw [grid_triplets_num _ _ _ _ _ (by decide),
      (identity_triplet_num false zero_scratch zero_map zero_points zero_map 0
        ⟨3, 1, 1⟩ (by decide)).2]
    decide

/-- Witness of the amended C12: the mesh (3,1,1), `q` at the address 0, the
point group of the identity alone, in the default build. -/
theorem grid_triplets_rows_witness :
    mesh_positive ⟨3, 1, 1⟩ ∧
      (get_ir_triplets_at_q false zero_scratch zero_map zero_points zero_map 0
          ⟨3, 1, 1⟩ [identity]).num_ir_triplets ≤
        (set_grid_triplets_at_q zero_points 0
          (get_ir_triplets_at_q false zero_scratch zero_map zero_points zero_map 0
            ⟨3, 1, 1⟩ [identity]).grid_points
          (get_ir_triplets_at_q false zero_scratch zero_map zero_points zero_map
            0 ⟨3, 1, 1⟩ [identity]).third_q ⟨3, 1, 1⟩).num_ir :=
  ⟨by decide,
    (grid_triplets_rows false zero_scratch zero_map zero_points zero_map
      zero_points 0 ⟨3, 1, 1⟩ [identity] (by decide)).2⟩

/-! ## C13: the stabilizer filter -/

theorem mat_Dabs_eq_abs (x : ℚ) : mat_Dabs x = |x| := by
  unfold mat_Dabs
  split_ifs with h
  · exact (abs_of_neg h).symm
  · exact (abs_of_nonneg (not_lt.mp h)).symm

theorem diff_small_iff (eps x y : ℚ) :
    diff_small eps x y = true ↔ near_integer eps x y := by
  unfold diff_small near_integer
  simp only [decide_eq_true_eq, mat_Dabs_eq_abs]

theorem stabilizer_k_loop_iff (eps : ℚ) (q_rot : QVec) (Q : List QVec) :
    stabilizer_k_loop eps q_rot Q = true ↔
      ∃ qk ∈ Q, near_integer eps q_rot.q0 qk.q0 ∧
        near_integer eps q_rot.q1 qk.q1 ∧ near_integer eps q_rot.q2 qk.q2 := by
  unfold stabilizer_k_loop
  rw [List.any_eq_true]
  simp only [Bool.and_eq_true, diff_small_iff, and_assoc]

theorem stabilizer_j_loop_true (eps : ℚ) (R : Mat3) (Q : List QVec) :
    ∀ rest : List QVec,
      stabilizer_j_loop eps R Q rest true =
        rest.all (fun qj =>
          stabilizer_k_loop eps (mat_multiply_matrix_vector_id3 R qj) Q) := by
  intro rest
  induction rest with
  | nil => rfl
  | cons qj rest ih =>
    unfold stabilizer_j_loop
    simp only [List.all_cons]
    by_cases h : stabilizer_k_loop eps (mat_multiply_matrix_vector_id3 R qj) Q = true
    · simp only [h, if_true, Bool.true_and]
      exact ih
    · simp only [h, if_false]
      simp at h
      simp [h]

theorem stabilizer_j_loop_cons (eps : ℚ) (R : Mat3) (Q : List QVec)
    (qj : QVec) (rest : List QVec) (flag : Bool) :
    stabilizer_j_loop eps R Q (qj :: rest) flag =
      (qj :: rest).all (fun qj =>
        stabilizer_k_loop eps (mat_multiply_matrix_vector_id3 R qj) Q) := by
  rw [← stabilizer_j_loop_true]
  rfl

theorem stabilizer_flag_iff (eps : ℚ) (R : Mat3) (Q : List QVec) (hQ : Q ≠ [])
    (flag : Bool) :
    stabilizer_j_loop eps R Q Q flag = decide (permutes_within eps R Q) := by
  cases hq : Q with
  | nil => exact absurd hq hQ
  | cons qj rest =>
    rw [← hq]
    have e : stabilizer_j_loop eps R Q Q flag =
        Q.all (fun qj =>
          stabilizer_k_loop eps (mat_multiply_matrix_vector_id3 R qj) Q) := by
      conv_lhs => rw [show stabilizer_j_loop eps R Q Q flag =
        stabilizer_j_loop eps R Q (qj :: rest) flag by rw [← hq]]
      rw [stabilizer_j_loop_cons, ← hq]
    rw [e, Bool.eq_iff_iff, List.all_eq_true, decide_eq_true_iff]
    unfold permutes_within
    constructor
    · intro h qj hqj
      exact (stabilizer_k_loop_iff eps _ Q).mp (h qj hqj)
    · intro h qj hqj
      exact (stabilizer_k_loop_iff eps _ Q).mpr (h qj hqj)

theorem stabilizer_fold (eps : ℚ) (Q : List QVec) (hQ : Q ≠ []) :
    ∀ (G : List Mat3) (st : Bool × List Mat3),
      (G.foldl
        (fun (st : Bool × List Mat3) rot =>
          if stabilizer_j_loop eps rot Q Q st.1 = true then
            (stabilizer_j_loop eps rot Q Q st.1, st.2 ++ [rot])
          else (stabilizer_j_loop eps rot Q Q st.1, st.2)) st).2 =
        st.2 ++ stabilizer_sublist G eps Q := by
  intro G
  induction G with
  | nil => intro st; simp [stabilizer_sublist]
  | cons R rest ih =>
    intro st
    rw [List.foldl_cons, ih]
    unfold stabilizer_sublist
    rw [stabilizer_flag_iff eps R Q hQ st.1]
    by_cases h : permutes_within eps R Q
    · rw [List.filter_cons]
      simp only [decide_eq_true_eq]
      rw [if_pos h, if_pos h]
      simp
    · rw [List.filter_cons]
      simp only [decide_eq_true_eq]
      rw [if_neg h, if_neg h]

theorem stabilizer_fold_empty (eps : ℚ) :
    ∀ (G : List Mat3) (acc : List Mat3),
      (G.foldl
        (fun (st : Bool × List Mat3) rot =>
          if stabilizer_j_loop eps rot [] [] st.1 = true then
            (stabilizer_j_loop eps rot [] [] st.1, st.2 ++ [rot])
          else (stabilizer_j_loop eps rot [] [] st.1, st.2)) (false, acc)) =
        (false, acc) := by
  intro G
  induction G with
  | nil => intro acc; rfl
  | cons R rest ih =>
    intro acc
    rw [List.foldl_cons]
    have e : stabilizer_j_loop eps R [] [] false = false := rfl
    simp only [e, Bool.false_eq_true, if_false]
    exact ih acc

theorem stabilizer_fold_none (G : PointSymmetry) (eps : ℚ) :
    get_point_group_reciprocal_with_q G eps [] = [] := by
  unfold get_point_group_reciprocal_with_q
  have := stabilizer_fold_empty eps G []
  simp only at this ⊢
  rw [this]

/-- C13, amended: with coordinates as exact rationals and `nint` rounding
half away from zero, for every `PointSymmetry` `G`, every tolerance `eps` and
every non-empty list `Q` of q-points, `get_point_group_reciprocal_with_q`
returns the sub-list of `G`, in the order of `G`, of exactly the rotations `R`
such that for every `q_j` in `Q` there is `q_k` in `Q` with
`|d - nint(d)| < eps` in each component of `d = R * q_j - q_k`. -/
theorem stabilizer_filter_spec (G : PointSymmetry) (eps : ℚ) (Q : List QVec)
    (hQ : Q ≠ []) :
    get_point_group_reciprocal_with_q G eps Q = stabilizer_sublist G eps Q := by
  unfold get_point_group_reciprocal_with_q
  have := stabilizer_fold eps Q hQ G (false, [])
  simpa using this

/-- C13 as stated fails for the empty list of q-points: every rotation
permutes the empty list, so the claimed sub-list of `[identity]` is
`[identity]`, while `get_point_group_reciprocal_with_q` returns the empty
`PointSymmetry`, its flag `is_all_ok` never being set. -/
theorem stabilizer_filter_empty_qpoints :
    (0 : ℚ) < 1 ∧ stabilizer_sublist [identity] 1 [] = [identity] ∧
      get_point_group_reciprocal_with_q [identity] 1 [] = [] ∧
      get_point_group_reciprocal_with_q [identity] 1 [] ≠
        stabilizer_sublist [identity] 1 [] := by
  have h1 : stabilizer_sublist [identity] 1 [] = [identity] := by
    simp [stabilizer_sublist, permutes_within]
  have h2 : get_point_group_reciprocal_with_q [identity] 1 [] = [] := rfl
  refine ⟨by norm_num, h1, h2, ?_⟩
  rw [h1, h2]
  simp

/-- Witness of the amended C13: the point group of the identity, the
inversion and the exchange of the first two axes, the single q-point
(1/2, 0, 0) and the tolerance 1/100; the filter keeps the identity and the
inversion. -/
theorem stabilizer_filter_spec_witness :
    ([⟨1 / 2, 0, 0⟩] : List QVec) ≠ [] ∧
      get_point_group_reciprocal_with_q [identity, inversion, swap_xy] (1 / 100)
        [⟨1 / 2, 0, 0⟩] = [identity, inversion] :=
  ⟨by simp,
    (stabilizer_filter_spec [identity, inversion, swap_xy] (1 / 100)
      [⟨1 / 2, 0, 0⟩] (by simp)).trans
      (by
        simp [stabilizer_sublist, permutes_within, near_integer,
          mat_multiply_matrix_vector_id3, identity, inversion, swap_xy, mat_Nint]
        norm_num [abs_lt, le_abs])⟩

/-! ## C14: irreducible k-points of a list -/

theorem kpt_close_iff (eps : ℚ) (a b : QVec) :
    kpt_close eps a b = true ↔
      near_integer eps a.q0 b.q0 ∧ near_integer eps a.q1 b.q1 ∧
        near_integer eps a.q2 b.q2 := by
  unfold kpt_close
  simp only [Bool.and_eq_true, diff_small_iff, and_assoc]

theorem kpt_search_some (eps : ℚ) (kpoints : Buf QVec) (ir_map : Buf Int)
    (num : Int) (kpt_rot : QVec) (r : Int)
    (h : kpt_search eps kpoints ir_map num kpt_rot = some r) :
    ∃ j : Int, (0 ≤ j ∧ j < num) ∧ r = ir_map.get j ∧
      kpt_close eps kpt_rot (kpoints.get r) = true := by
  unfold kpt_search at h
  rw [Option.map_eq_some'] at h
  obtain ⟨j, hj, rfl⟩ := h
  have hm := List.mem_range.mp (List.mem_of_find?_eq_some hj)
  have hc := List.find?_some hj
  exact ⟨(j : Int), ⟨by omega, by omega⟩, rfl, hc⟩

theorem kpt_rot_loop_some (eps : ℚ) (kpoints : Buf QVec) (ir_map : Buf Int)
    (num : Int) (ki : QVec) (r : Int) :
    ∀ G : List Mat3, kpt_rot_loop eps kpoints ir_map num ki G = some r →
      ∃ R ∈ G, ∃ j : Int, (0 ≤ j ∧ j < num) ∧ r = ir_map.get j ∧
        kpt_close eps (mat_multiply_matrix_vector_id3 R ki) (kpoints.get r) = true := by
  intro G
  induction G with
  | nil => intro h; simp [kpt_rot_loop] at h
  | cons R rest ih =>
    intro h
    unfold kpt_rot_loop at h
    simp only at h
    split_ifs at h with hc
    · obtain ⟨R2, hR2, rest2⟩ := ih h
      exact ⟨R2, List.mem_cons_of_mem _ hR2, rest2⟩
    · cases hs : kpt_search eps kpoints ir_map num
          (mat_multiply_matrix_vector_id3 R ki) with
      | none =>
        rw [hs] at h
        obtain ⟨R2, hR2, rest2⟩ := ih h
        exact ⟨R2, List.mem_cons_of_mem _ hR2, rest2⟩
      | some r2 =>
        rw [hs] at h
        simp only [Option.some.injEq] at h
        subst h
        obtain ⟨j, hj, e, hcl⟩ := kpt_search_some eps kpoints ir_map num _ r2 hs
        exact ⟨R, List.mem_cons_self _ _, j, hj, e, hcl⟩

theorem count_fixed_succ (map : Buf Int) (k : Nat) :
    count_fixed map ((k : Int) + 1) =
      count_fixed map (k : Int) + (if map.get (k : Int) = k then 1 else 0) := by
  unfold count_fixed
  have e : ((k : Int) + 1).toNat = k + 1 := by omega
  rw [e, Int.toNat_natCast, List.range_succ, List.countP_append]
  by_cases h : map.get (k : Int) = k
  · simp [List.countP_cons, h]
  · simp [List.countP_cons, h]

theorem count_fixed_congr (m1 m2 : Buf Int) (k : Nat)
    (h : ∀ a : Int, 0 ≤ a → a < k → m1.get a = m2.get a) :
    count_fixed m1 (k : Int) = count_fixed m2 (k : Int) := by
  unfold count_fixed
  congr 1
  apply List.countP_congr
  intro b hb
  have := List.mem_range.mp hb
  rw [Int.toNat_natCast] at this
  rw [h b (by omega) (by omega)]

theorem kpt_body_inv (eps : ℚ) (kpoints : Buf QVec) (G : PointSymmetry)
    (k : Nat) (st : KpointState) (inv : KptInv eps kpoints G k st) :
    KptInv eps kpoints G (k + 1) (kpt_body eps kpoints G st k) := by
  have e : ((k + 1 : Nat) : Int) = (k : Int) + 1 := by push_cast; rfl
  unfold kpt_body
  simp only
  cases hl : kpt_rot_loop eps kpoints st.ir_map st.num_ir_kpoint
      (kpoints.get (k : Int)) G with
  | some r =>
    dsimp only
    obtain ⟨R, hR, j, hj, hr, hcl⟩ :=
      kpt_rot_loop_some eps kpoints st.ir_map st.num_ir_kpoint _ r G hl
    obtain ⟨⟨r0, r1⟩, rfix⟩ := inv.reps j hj.1 hj.2
    rw [← hr] at r0 r1 rfix
    have hget : ∀ x : Int, (((st.map.set k k).set k r)).get x =
        if x = k then r else st.map.get x := by
      intro x
      simp only [Buf.get_set]
      split_ifs <;> rfl
    refine ⟨inv.num_nonneg, ?_, ?_, ?_, ?_, ?_⟩
    · intro j2 h0 h1
      obtain ⟨⟨a0, a1⟩, afix⟩ := inv.reps j2 h0 h1
      show (0 ≤ st.ir_map.get j2 ∧ st.ir_map.get j2 < ((k + 1 : Nat) : Int)) ∧
        ((st.map.set k k).set k r).get (st.ir_map.get j2) = st.ir_map.get j2
      refine ⟨⟨a0, by omega⟩, ?_⟩
      rw [hget, if_neg (by omega)]
      exact afix
    · intro i h0 h1
      show 0 ≤ ((st.map.set k k).set k r).get i ∧ ((st.map.set k k).set k r).get i ≤ i
      rw [hget]
      by_cases hi : i = k
      · rw [if_pos hi]; omega
      · rw [if_neg hi]
        exact inv.bound i h0 (by omega)
    · intro i h0 h1
      show ((st.map.set k k).set k r).get (((st.map.set k k).set k r).get i) =
        ((st.map.set k k).set k r).get i
      rw [hget i]
      by_cases hi : i = k
      · rw [if_pos hi, hget, if_neg (by omega)]
        exact rfix
      · rw [if_neg hi]
        have hb := inv.bound i h0 (by omega)
        rw [hget, if_neg (by omega)]
        exact inv.idem i h0 (by omega)
    · intro i h0 h1
      show ((st.map.set k k).set k r).get i ≠ i → ∃ R ∈ G,
        kpt_related eps R (kpoints.get i)
          (kpoints.get (((st.map.set k k).set k r).get i))
      rw [hget]
      by_cases hi : i = k
      · rw [if_pos hi, hi]
        intro _
        exact ⟨R, hR, (kpt_close_iff eps _ _).mp hcl⟩
      · rw [if_neg hi]
        exact inv.related i h0 (by omega)
    · show st.num_ir_kpoint = count_fixed ((st.map.set k k).set k r) ((k + 1 : Nat) : Int)
      rw [e, count_fixed_succ, hget, if_pos rfl, if_neg (by omega), inv.count]
      rw [count_fixed_congr ((st.map.set k k).set k r) st.map k
        (fun a h0 h1 => by rw [hget, if_neg (by omega)])]
      ring
  | none =>
    dsimp only
    have hget : ∀ x : Int, (st.map.set k k).get x =
        if x = k then (k : Int) else st.map.get x := by
      intro x
      simp only [Buf.get_set]
    refine ⟨?_, ?_, ?_, ?_, ?_, ?_⟩
    · show 0 ≤ st.num_ir_kpoint + 1
      have := inv.num_nonneg
      omega
    · intro j2 h0 h1
      show (0 ≤ (st.ir_map.set st.num_ir_kpoint k).get j2 ∧
          (st.ir_map.set st.num_ir_kpoint k).get j2 < ((k + 1 : Nat) : Int)) ∧
        (st.map.set k k).get ((st.ir_map.set st.num_ir_kpoint k).get j2) =
          (st.ir_map.set st.num_ir_kpoint k).get j2
      have h1' : j2 < st.num_ir_kpoint + 1 := h1
      rw [Buf.get_set]
      by_cases hj : j2 = st.num_ir_kpoint
      · rw [if_pos hj, hget, if_pos rfl]
        exact ⟨⟨by omega, by omega⟩, rfl⟩
      · rw [if_neg hj]
        obtain ⟨⟨a0, a1⟩, afix⟩ := inv.reps j2 h0 (by omega)
        rw [hget, if_neg (by omega)]
        exact ⟨⟨a0, by omega⟩, afix⟩
    · intro i h0 h1
      show 0 ≤ (st.map.set k k).get i ∧ (st.map.set k k).get i ≤ i
      rw [hget]
      by_cases hi : i = k
      · rw [if_pos hi]; omega
      · rw [if_neg hi]
        exact inv.bound i h0 (by omega)
    · intro i h0 h1
      show (st.map.set k k).get ((st.map.set k k).get i) = (st.map.set k k).get i
      rw [hget i]
      by_cases hi : i = k
      · rw [if_pos hi, hget, if_pos rfl]
      · rw [if_neg hi]
        have hb := inv.bound i h0 (by omega)
        rw [hget, if_neg (by omega)]
        exact inv.idem i h0 (by omega)
    · intro i h0 h1
      show (st.map.set k k).get i ≠ i → ∃ R ∈ G,
        kpt_related eps R (kpoints.get i) (kpoints.get ((st.map.set k k).get i))
      rw [hget]
      by_cases hi : i = k
      · rw [if_pos hi]
        intro hne
        exact absurd hi.symm hne
      · rw [if_neg hi]
        exact inv.related i h0 (by omega)
    · show st.num_ir_kpoint + 1 = count_fixed (st.map.set k k) ((k + 1 : Nat) : Int)
      rw [e, count_fixed_succ, hget, if_pos rfl, if_pos rfl, inv.count]
      rw [count_fixed_congr (st.map.set k k) st.map k
        (fun a h0 h1 => by rw [hget, if_neg (by omega)])]

theorem get_ir_kpoints_inv (eps : ℚ) (kpoints : Buf QVec) (G : PointSymmetry)
    (ir_map0 map0 : Buf Int) :
    ∀ k : Nat, KptInv eps kpoints G k
      (get_ir_kpoints ir_map0 map0 kpoints (k : Int) G eps) := by
  intro k
  unfold get_ir_kpoints
  induction k with
  | zero =>
    rw [show ((0 : Nat) : Int) = 0 from rfl, for_loop_zero]
    refine ⟨le_refl _, ?_, ?_, ?_, ?_, ?_⟩
    · intro j h0 h1
      simp only at h1
      omega
    · intro i h0 h1
      simp at h1
      omega
    · intro i h0 h1
      simp at h1
      omega
    · intro i h0 h1
      simp at h1
      omega
    · simp [count_fixed]
  | succ k ih =>
    have e : ((k + 1 : Nat) : Int) = (k : Int) + 1 := by push_cast; rfl
    rw [e, for_loop_succ]
    exact kpt_body_inv eps kpoints G k _ ih

/-- C14: with coordinates as exact rationals, for every list `K` of k-points,
every rotation list `G` and every `eps`, `get_ir_kpoints` writes a map with
`map[i] ≤ i` and `map[map[i]] = map[i]` for every `i`; whenever
`map[i] ≠ i` there is `R` in `G` with `R * k_i` equal to `k_{map[i]}` modulo
integers within `eps` per component; and the returned `num_ir` is the number
of `i` with `map[i] = i`. -/
theorem ir_kpoints_sound (ir_map0 map0 : Buf Int) (K : List QVec)
    (G : PointSymmetry) (eps : ℚ) :
    (∀ i : Int, 0 ≤ i → i < K.length →
      (get_ir_kpoints ir_map0 map0 (kpoints_of_list K) K.length G eps).map.get i ≤ i ∧
      (get_ir_kpoints ir_map0 map0 (kpoints_of_list K) K.length G eps).map.get
          ((get_ir_kpoints ir_map0 map0 (kpoints_of_list K) K.length G
            eps).map.get i) =
        (get_ir_kpoints ir_map0 map0 (kpoints_of_list K) K.length G eps).map.get i) ∧
    (∀ i : Int, 0 ≤ i → i < K.length →
      (get_ir_kpoints ir_map0 map0 (kpoints_of_list K) K.length G eps).map.get i ≠ i →
      ∃ R ∈ G, kpt_related eps R ((kpoints_of_list K).get i)
        ((kpoints_of_list K).get
          ((get_ir_kpoints ir_map0 map0 (kpoints_of_list K) K.length G
            eps).map.get i))) ∧
    (get_ir_kpoints ir_map0 map0 (kpoints_of_list K) K.length G eps).num_ir_kpoint =
      count_fixed
        (get_ir_kpoints ir_map0 map0 (kpoints_of_list K) K.length G eps).map
        K.length := by
  have inv := get_ir_kpoints_inv eps (kpoints_of_list K) G ir_map0 map0 K.length
  exact ⟨fun i h0 h1 => ⟨(inv.bound i h0 h1).2, inv.idem i h0 h1⟩,
    inv.related, inv.count⟩


/-! ### The example of scenario S4 -/

theorem abs_sub_nint (d : ℚ) (n : Int) (h1 : (n : ℚ) - 1 / 2 ≤ d)
    (h2 : d ≤ n + 1 / 2) : |d - (mat_Nint d : ℚ)| = |d - n| := by
  unfold mat_Nint
  rcases lt_trichotomy d ((n : ℚ) - 1 / 2) with hlt | heq | hgt
  · linarith
  · split_ifs with hneg
    · have hf : ⌊-d + 1 / 2⌋ = -n + 1 := by
        rw [Int.floor_eq_iff]; push_cast; constructor <;> linarith
      have e : d - ((-(-n + 1) : Int) : ℚ) = -(d - n) := by
        push_cast; linarith
      rw [hf, e, abs_neg]
    · have hf : ⌊d + 1 / 2⌋ = n := by
        rw [Int.floor_eq_iff]; constructor <;> linarith
      rw [hf]
  · rcases lt_or_eq_of_le h2 with hlt2 | heq2
    · split_ifs with hneg
      · have hf : ⌊-d + 1 / 2⌋ = -n := by
          rw [Int.floor_eq_iff]; push_cast; constructor <;> linarith
        rw [hf, neg_neg]
      · have hf : ⌊d + 1 / 2⌋ = n := by
          rw [Int.floor_eq_iff]; constructor <;> linarith
        rw [hf]
    · split_ifs with hneg
      · have hf : ⌊-d + 1 / 2⌋ = -n := by
          rw [Int.floor_eq_iff]; push_cast; constructor <;> linarith
        rw [hf, neg_neg]
      · have hf : ⌊d + 1 / 2⌋ = n + 1 := by
          rw [Int.floor_eq_iff]; push_cast; constructor <;> linarith
        have e : d - ((n + 1 : Int) : ℚ) = -(d - n) := by
          push_cast; linarith
        rw [hf, e, abs_neg]

theorem near_integer_eval (eps x y : ℚ) (n : Int)
    (h : (n : ℚ) - 1 / 2 ≤ x - y ∧ x - y ≤ n + 1 / 2) :
    near_integer eps x y ↔ -eps < x - y - n ∧ x - y - n < eps := by
  unfold near_integer
  rw [abs_sub_nint (x - y) n h.1 h.2, abs_lt]

theorem kpt_close_eval (eps : ℚ) (a b : QVec) (n0 n1 n2 : Int)
    (h0 : (n0 : ℚ) - 1 / 2 ≤ a.q0 - b.q0 ∧ a.q0 - b.q0 ≤ n0 + 1 / 2)
    (h1 : (n1 : ℚ) - 1 / 2 ≤ a.q1 - b.q1 ∧ a.q1 - b.q1 ≤ n1 + 1 / 2)
    (h2 : (n2 : ℚ) - 1 / 2 ≤ a.q2 - b.q2 ∧ a.q2 - b.q2 ≤ n2 + 1 / 2) :
    kpt_close eps a b = true ↔
      (-eps < a.q0 - b.q0 - n0 ∧ a.q0 - b.q0 - n0 < eps) ∧
      (-eps < a.q1 - b.q1 - n1 ∧ a.q1 - b.q1 - n1 < eps) ∧
      (-eps < a.q2 - b.q2 - n2 ∧ a.q2 - b.q2 - n2 < eps) := by
  rw [kpt_close_iff, near_integer_eval eps _ _ n0 h0, near_integer_eval eps _ _ n1 h1,
    near_integer_eval eps _ _ n2 h2]

theorem mat_multiply_identity (v : QVec) :
    mat_multiply_matrix_vector_id3 identity v = v := by
  simp [mat_multiply_matrix_vector_id3, identity]

theorem mat_multiply_inversion (v : QVec) :
    mat_multiply_matrix_vector_id3 inversion v = ⟨-v.q0, -v.q1, -v.q2⟩ := by
  simp [mat_multiply_matrix_vector_id3, inversion]

theorem kpt_close_self (eps : ℚ) (heps : 0 < eps) (v : QVec) :
    kpt_close eps v v = true := by
  rw [kpt_close_eval eps v v 0 0 0 (by norm_num) (by norm_num) (by norm_num)]
  simp [heps]

theorem kpt_search_eq (eps : ℚ) (kpoints : Buf QVec) (ir_map : Buf Int)
    (num : Int) (v : QVec) :
    kpt_search eps kpoints ir_map num v =
      (((List.range num.toNat).map (fun k : Nat => ir_map.get (k : Int))).find?
        (fun r => kpt_close eps v (kpoints.get r))) := by
  unfold kpt_search
  rw [List.find?_map]
  rfl

theorem example_get :
    (kpoints_of_list example_kpoints).get 0 = ⟨0, 0, 0⟩ ∧
    (kpoints_of_list example_kpoints).get 1 = ⟨1 / 2, 0, 0⟩ ∧
    (kpoints_of_list example_kpoints).get 2 = ⟨0, 1 / 2, 0⟩ ∧
    (kpoints_of_list example_kpoints).get 3 = ⟨1 / 4, 1 / 4, 1 / 4⟩ ∧
    (kpoints_of_list example_kpoints).get 4 = ⟨-1 / 4, -1 / 4, -1 / 4⟩ :=
  ⟨rfl, rfl, rfl, rfl, rfl⟩

theorem example_close_0_0 :
    kpt_close (1 / 100000) (mat_multiply_matrix_vector_id3 inversion
      ((kpoints_of_list example_kpoints).get 0))
      ((kpoints_of_list example_kpoints).get 0) = true := by
  rw [example_get.1, mat_multiply_inversion,
    kpt_close_eval _ _ _ 0 0 0 (by norm_num) (by norm_num) (by norm_num)]
  norm_num

theorem example_close_1_1 :
    kpt_close (1 / 100000) (mat_multiply_matrix_vector_id3 inversion
      ((kpoints_of_list example_kpoints).get 1))
      ((kpoints_of_list example_kpoints).get 1) = true := by
  rw [example_get.2.1, mat_multiply_inversion,
    kpt_close_eval _ _ _ (-1) 0 0 (by norm_num) (by norm_num) (by norm_num)]
  norm_num

theorem example_close_2_2 :
    kpt_close (1 / 100000) (mat_multiply_matrix_vector_id3 inversion
      ((kpoints_of_list example_kpoints).get 2))
      ((kpoints_of_list example_kpoints).get 2) = true := by
  rw [example_get.2.2.1, mat_multiply_inversion,
    kpt_close_eval _ _ _ 0 (-1) 0 (by norm_num) (by norm_num) (by norm_num)]
  norm_num

theorem example_close_3_3 :
    kpt_close (1 / 100000) (mat_multiply_matrix_vector_id3 inversion
      ((kpoints_of_list example_kpoints).get 3))
      ((kpoints_of_list example_kpoints).get 3) = false := by
  rw [example_get.2.2.2.1, mat_multiply_inversion, ← Bool.not_eq_true,
    kpt_close_eval _ _ _ 0 0 0 (by norm_num) (by norm_num) (by norm_num)]
  norm_num

theorem example_close_3_0 :
    kpt_close (1 / 100000) (mat_multiply_matrix_vector_id3 inversion
      ((kpoints_of_list example_kpoints).get 3))
      ((kpoints_of_list example_kpoints).get 0) = false := by
  rw [example_get.2.2.2.1, example_get.1, mat_multiply_inversion, ← Bool.not_eq_true,
    kpt_close_eval _ _ _ 0 0 0 (by norm_num) (by norm_num) (by norm_num)]
  norm_num

theorem example_close_3_1 :
    kpt_close (1 / 100000) (mat_multiply_matrix_vector_id3 inversion
      ((kpoints_of_list example_kpoints).get 3))
      ((kpoints_of_list example_kpoints).get 1) = false := by
  rw [example_get.2.2.2.1, example_get.2.1, mat_multiply_inversion, ← Bool.not_eq_true,
    kpt_close_eval _ _ _ (-1) 0 0 (by norm_num) (by norm_num) (by norm_num)]
  norm_num

theorem example_close_3_2 :
    kpt_close (1 / 100000) (mat_multiply_matrix_vector_id3 inversion
      ((kpoints_of_list example_kpoints).get 3))
      ((kpoints_of_list example_kpoints).get 2) = false := by
  rw [example_get.2.2.2.1, example_get.2.2.1, mat_multiply_inversion, ← Bool.not_eq_true,
    kpt_close_eval _ _ _ 0 (-1) 0 (by norm_num) (by norm_num) (by norm_num)]
  norm_num

theorem example_close_4_4 :
    kpt_close (1 / 100000) (mat_multiply_matrix_vector_id3 inversion
      ((kpoints_of_list example_kpoints).get 4))
      ((kpoints_of_list example_kpoints).get 4) = false := by
  rw [example_get.2.2.2.2, mat_multiply_inversion, ← Bool.not_eq_true,
    kpt_close_eval _ _ _ 0 0 0 (by norm_num) (by norm_num) (by norm_num)]
  norm_num

theorem example_close_4_0 :
    kpt_close (1 / 100000) (mat_multiply_matrix_vector_id3 inversion
      ((kpoints_of_list example_kpoints).get 4))
      ((kpoints_of_list example_kpoints).get 0) = false := by
  rw [example_get.2.2.2.2, example_get.1, mat_multiply_inversion, ← Bool.not_eq_true,
    kpt_close_eval _ _ _ 0 0 0 (by norm_num) (by norm_num) (by norm_num)]
  norm_num

theorem example_close_4_1 :
    kpt_close (1 / 100000) (mat_multiply_matrix_vector_id3 inversion
      ((kpoints_of_list example_kpoints).get 4))
      ((kpoints_of_list example_kpoints).get 1) = false := by
  rw [example_get.2.2.2.2, example_get.2.1, mat_multiply_inversion, ← Bool.not_eq_true,
    kpt_close_eval _ _ _ 0 0 0 (by norm_num) (by norm_num) (by norm_num)]
  norm_num

theorem example_close_4_2 :
    kpt_close (1 / 100000) (mat_multiply_matrix_vector_id3 inversion
      ((kpoints_of_list example_kpoints).get 4))
      ((kpoints_of_list example_kpoints).get 2) = false := by
  rw [example_get.2.2.2.2, example_get.2.2.1, mat_multiply_inversion, ← Bool.not_eq_true,
    kpt_close_eval _ _ _ 0 0 0 (by norm_num) (by norm_num) (by norm_num)]
  norm_num

theorem example_close_4_3 :
    kpt_close (1 / 100000) (mat_multiply_matrix_vector_id3 inversion
      ((kpoints_of_list example_kpoints).get 4))
      ((kpoints_of_list example_kpoints).get 3) = true := by
  rw [example_get.2.2.2.2, example_get.2.2.2.1, mat_multiply_inversion,
    kpt_close_eval _ _ _ 0 0 0 (by norm_num) (by norm_num) (by norm_num)]
  norm_num

theorem example_rot_loop_3 :
    kpt_rot_loop (1 / 100000) (kpoints_of_list example_kpoints)
      (((zero_map.set 0 0).set 1 1).set 2 2) 3
      ((kpoints_of_list example_kpoints).get 3) [identity, inversion] = none := by
  have hr : (List.range (3 : Int).toNat).map
      (fun k : Nat => ((((zero_map.set 0 0).set 1 1).set 2 2)).get (k : Int)) =
      [0, 1, 2] := by decide
  simp only [kpt_rot_loop, kpt_search_eq, hr, mat_multiply_identity,
    kpt_close_self _ (by norm_num : (0 : ℚ) < 1 / 100000), if_true,
    example_close_3_3, example_close_3_0, example_close_3_1, example_close_3_2,
    List.find?_cons, List.find?_nil]
  simp

theorem example_rot_loop_4 :
    kpt_rot_loop (1 / 100000) (kpoints_of_list example_kpoints)
      ((((zero_map.set 0 0).set 1 1).set 2 2).set 3 3) 4
      ((kpoints_of_list example_kpoints).get 4) [identity, inversion] = some 3 := by
  have hr : (List.range (4 : Int).toNat).map
      (fun k : Nat => (((((zero_map.set 0 0).set 1 1).set 2 2).set 3 3)).get (k : Int)) =
      [0, 1, 2, 3] := by decide
  simp only [kpt_rot_loop, kpt_search_eq, hr, mat_multiply_identity,
    kpt_close_self _ (by norm_num : (0 : ℚ) < 1 / 100000), if_true,
    example_close_4_4, example_close_4_0, example_close_4_1, example_close_4_2,
    example_close_4_3, List.find?_cons, List.find?_nil]
  simp

theorem example_rot_loop_skip (i : Int) (ir_map : Buf Int) (num : Int)
    (h : kpt_close (1 / 100000) (mat_multiply_matrix_vector_id3 inversion
      ((kpoints_of_list example_kpoints).get i))
      ((kpoints_of_list example_kpoints).get i) = true) :
    kpt_rot_loop (1 / 100000) (kpoints_of_list example_kpoints) ir_map num
      ((kpoints_of_list example_kpoints).get i) [identity, inversion] = none := by
  simp only [kpt_rot_loop, mat_multiply_identity,
    kpt_close_self _ (by norm_num : (0 : ℚ) < 1 / 100000), if_true, h]

theorem example_run :
    get_ir_kpoints zero_map zero_map (kpoints_of_list example_kpoints) 5
      [identity, inversion] (1 / 100000) =
    ⟨(((((zero_map.set 0 0).set 1 1).set 2 2).set 3 3).set 4 4).set 4 3,
      (((zero_map.set 0 0).set 1 1).set 2 2).set 3 3, 4⟩ := by
  unfold get_ir_kpoints
  rw [show (5 : Int) = ((4 : Nat) : Int) + 1 from rfl, for_loop_succ,
    show ((4 : Nat) : Int) = ((3 : Nat) : Int) + 1 from rfl, for_loop_succ,
    show ((3 : Nat) : Int) = ((2 : Nat) : Int) + 1 from rfl, for_loop_succ,
    show ((2 : Nat) : Int) = ((1 : Nat) : Int) + 1 from rfl, for_loop_succ,
    show ((1 : Nat) : Int) = ((0 : Nat) : Int) + 1 from rfl, for_loop_succ,
    show ((0 : Nat) : Int) = 0 from rfl, for_loop_zero]
  have s0 : kpt_body (1 / 100000) (kpoints_of_list example_kpoints)
      [identity, inversion] ⟨zero_map, zero_map, 0⟩ 0 =
      ⟨zero_map.set 0 0, zero_map.set 0 0, 1⟩ := by
    unfold kpt_body
    simp only [example_rot_loop_skip 0 _ _ example_close_0_0]
    rfl
  have s1 : kpt_body (1 / 100000) (kpoints_of_list example_kpoints)
      [identity, inversion] ⟨zero_map.set 0 0, zero_map.set 0 0, 1⟩ 1 =
      ⟨(zero_map.set 0 0).set 1 1, (zero_map.set 0 0).set 1 1, 2⟩ := by
    unfold kpt_body
    simp only [example_rot_loop_skip 1 _ _ example_close_1_1]
    rfl
  have s2 : kpt_body (1 / 100000) (kpoints_of_list example_kpoints)
      [identity, inversion]
      ⟨(zero_map.set 0 0).set 1 1, (zero_map.set 0 0).set 1 1, 2⟩ 2 =
      ⟨((zero_map.set 0 0).set 1 1).set 2 2, ((zero_map.set 0 0).set 1 1).set 2 2, 3⟩ := by
    unfold kpt_body
    simp only [example_rot_loop_skip 2 _ _ example_close_2_2]
    rfl
  have s3 : kpt_body (1 / 100000) (kpoints_of_list example_kpoints)
      [identity, inversion]
      ⟨((zero_map.set 0 0).set 1 1).set 2 2, ((zero_map.set 0 0).set 1 1).set 2 2, 3⟩ 3 =
      ⟨(((zero_map.set 0 0).set 1 1).set 2 2).set 3 3,
        (((zero_map.set 0 0).set 1 1).set 2 2).set 3 3, 4⟩ := by
    unfold kpt_body
    simp only [example_rot_loop_3]
    rfl
  have s4 : kpt_body (1 / 100000) (kpoints_of_list example_kpoints)
      [identity, inversion]
      ⟨(((zero_map.set 0 0).set 1 1).set 2 2).set 3 3,
        (((zero_map.set 0 0).set 1 1).set 2 2).set 3 3, 4⟩ 4 =
      ⟨(((((zero_map.set 0 0).set 1 1).set 2 2).set 3 3).set 4 4).set 4 3,
        (((zero_map.set 0 0).set 1 1).set 2 2).set 3 3, 4⟩ := by
    unfold kpt_body
    simp only [example_rot_loop_4]
  exact (congrArg (fun st => kpt_body (1 / 100000) (kpoints_of_list example_kpoints)
      [identity, inversion] st ((4 : Nat) : Int))
    ((congrArg (fun st => kpt_body (1 / 100000) (kpoints_of_list example_kpoints)
      [identity, inversion] st ((3 : Nat) : Int))
      ((congrArg (fun st => kpt_body (1 / 100000) (kpoints_of_list example_kpoints)
        [identity, inversion] st ((2 : Nat) : Int))
        ((congrArg (fun st => kpt_body (1 / 100000) (kpoints_of_list example_kpoints)
          [identity, inversion] st ((1 : Nat) : Int)) s0).trans s1)).trans s2)).trans
      s3)).trans s4

/-- Witness of C14: the five k-points of scenario S4 with the list of the
identity and the inversion and `eps = 1e-5`; the map is `{0, 1, 2, 3, 3}` and
`num_ir = 4`, and the k-point 4 is sent to the k-point 3. -/
theorem ir_kpoints_sound_witness :
    ((0 : Int) ≤ 4 ∧ (4 : Int) < example_kpoints.length ∧
      (get_ir_kpoints zero_map zero_map (kpoints_of_list example_kpoints)
        example_kpoints.length [identity, inversion] (1 / 100000)).map.get 4 ≠ 4) ∧
    ((get_ir_kpoints zero_map zero_map (kpoints_of_list example_kpoints)
        example_kpoints.length [identity, inversion] (1 / 100000)).map.get 4 ≤ 4 ∧
      (get_ir_kpoints zero_map zero_map (kpoints_of_list example_kpoints)
        example_kpoints.length [identity, inversion] (1 / 100000)).map.get
          ((get_ir_kpoints zero_map zero_map (kpoints_of_list example_kpoints)
            example_kpoints.length [identity, inversion] (1 / 100000)).map.get 4) =
        (get_ir_kpoints zero_map zero_map (kpoints_of_list example_kpoints)
          example_kpoints.length [identity, inversion] (1 / 100000)).map.get 4) ∧
    (∃ R ∈ [identity, inversion], kpt_related (1 / 100000) R
      ((kpoints_of_list example_kpoints).get 4)
      ((kpoints_of_list example_kpoints).get
        ((get_ir_kpoints zero_map zero_map (kpoints_of_list example_kpoints)
          example_kpoints.length [identity, inversion] (1 / 100000)).map.get 4))) ∧
    ((List.range 5).map (fun i : Nat =>
      (get_ir_kpoints zero_map zero_map (kpoints_of_list example_kpoints)
        example_kpoints.length [identity, inversion] (1 / 100000)).map.get (i : Int)) =
      [0, 1, 2, 3, 3]) ∧
    (get_ir_kpoints zero_map zero_map (kpoints_of_list example_kpoints)
      example_kpoints.length [identity, inversion] (1 / 100000)).num_ir_kpoint = 4 := by
  have hm : get_ir_kpoints zero_map zero_map (kpoints_of_list example_kpoints)
      example_kpoints.length [identity, inversion] (1 / 100000) =
      ⟨(((((zero_map.set 0 0).set 1 1).set 2 2).set 3 3).set 4 4).set 4 3,
        (((zero_map.set 0 0).set 1 1).set 2 2).set 3 3, 4⟩ := example_run
  have h4 : (get_ir_kpoints zero_map zero_map (kpoints_of_list example_kpoints)
      example_kpoints.length [identity, inversion] (1 / 100000)).map.get 4 ≠ 4 := by
    rw [hm]; decide
  exact ⟨⟨by decide, by decide, h4⟩,
    (ir_kpoints_sound zero_map zero_map example_kpoints [identity, inversion]
      (1 / 100000)).1 4 (by decide) (by decide),
    (ir_kpoints_sound zero_map zero_map example_kpoints [identity, inversion]
      (1 / 100000)).2.1 4 (by decide) (by decide) h4,
    by rw [hm]; decide, by rw [hm]⟩

/-! ## C16: no capacity check in `get_point_group_reciprocal` -/

theorem dedup_fold_of_nodup (l : List Mat3) (h : l.Nodup) :
    l.foldl dedup_step [] = l := by
  induction l using List.reverseRecOn with
  | nil => rfl
  | append_singleton l c ih =>
    rw [List.nodup_append] at h
    obtain ⟨hl, _, hd⟩ := h
    rw [dedup_fold_snoc, ih hl]
    have hc : c ∉ l := fun hc => hd hc (List.mem_singleton_self c)
    rw [if_neg hc]

theorem dedup_fold_length (l : List Mat3) :
    (l.foldl dedup_step []).length = l.toFinset.card := by
  rw [← List.toFinset_card_of_nodup (dedup_fold_nodup l)]
  congr 1
  ext m
  rw [List.mem_toFinset, List.mem_toFinset]
  exact dedup_fold_mem l m

theorem dedup_fold_length_le (l : List Mat3) :
    ∀ acc : List Mat3, acc.length ≤ (l.foldl dedup_step acc).length := by
  induction l with
  | nil => intro acc; exact le_refl _
  | cons c rest ih =>
    intro acc
    rw [List.foldl_cons]
    refine le_trans ?_ (ih _)
    unfold dedup_step
    split_ifs
    · exact le_refl _
    · rw [List.length_append]
      exact Nat.le_add_right _ _

theorem bounded_fold_overrun (capacity index : Nat) (l : List Mat3) :
    l.foldl (dedup_step_bounded capacity) (BoundedRun.overrun index) =
      BoundedRun.overrun index := by
  induction l with
  | nil => rfl
  | cons c rest ih =>
    rw [List.foldl_cons]
    exact ih

theorem bounded_fold_eq (capacity : Nat) (l : List Mat3) :
    ∀ acc : List Mat3, acc.length ≤ capacity →
      l.foldl (dedup_step_bounded capacity) (BoundedRun.returned acc) =
        if (l.foldl dedup_step acc).length ≤ capacity then
          BoundedRun.returned (l.foldl dedup_step acc)
        else BoundedRun.overrun capacity := by
  induction l with
  | nil =>
    intro acc hacc
    simp only [List.foldl_nil]
    rw [if_pos hacc]
  | cons c rest ih =>
    intro acc hacc
    have hb : dedup_step_bounded capacity (BoundedRun.returned acc) c =
        if (acc.any fun r => mat_check_identity_matrix_i3 r c) = true then
          BoundedRun.returned acc
        else if acc.length < capacity then BoundedRun.returned (acc ++ [c])
        else BoundedRun.overrun acc.length := rfl
    have hd : dedup_step acc c =
        if (acc.any fun r => mat_check_identity_matrix_i3 r c) = true then acc
        else acc ++ [c] := rfl
    rw [List.foldl_cons, List.foldl_cons, hb, hd]
    by_cases hany : (acc.any fun r => mat_check_identity_matrix_i3 r c) = true
    · rw [if_pos hany, if_pos hany]
      exact ih acc hacc
    · rw [if_neg hany, if_neg hany]
      by_cases hlt : acc.length < capacity
      · rw [if_pos hlt]
        exact ih (acc ++ [c]) (by rw [List.length_append]; exact hlt)
      · rw [if_neg hlt, bounded_fold_overrun]
        have hlen := dedup_fold_length_le rest (acc ++ [c])
        rw [List.length_append, List.length_singleton] at hlen
        have hcap : acc.length = capacity := by omega
        rw [if_neg (by omega), hcap]

theorem bounded_run_eq (capacity : Nat) (rotations : List Mat3) (t : Int) :
    get_point_group_reciprocal_bounded capacity rotations t =
      if (rot_reciprocal rotations t).toFinset.card ≤ capacity then
        BoundedRun.returned (get_point_group_reciprocal rotations t)
      else BoundedRun.overrun capacity := by
  unfold get_point_group_reciprocal_bounded get_point_group_reciprocal
  rw [bounded_fold_eq capacity _ [] (Nat.zero_le _), dedup_fold_length]

theorem many_rotations_reciprocal :
    rot_reciprocal many_rotations 0 = many_rotations := by
  unfold rot_reciprocal many_rotations
  rw [if_neg (by decide), List.map_map]
  rfl

theorem many_rotations_nodup : many_rotations.Nodup := by
  unfold many_rotations
  refine List.Nodup.map ?_ (List.nodup_range 97)
  intro a b h
  have h2 := congrArg Mat3.m00 h
  exact Int.ofNat_inj.mp h2

theorem many_rotations_card :
    (rot_reciprocal many_rotations 0).toFinset.card = 97 := by
  rw [many_rotations_reciprocal, List.toFinset_card_of_nodup many_rotations_nodup]
  unfold many_rotations
  rw [List.length_map, List.length_range]

theorem many_rotations_half_card :
    (rot_reciprocal many_rotations_half 1).toFinset.card = 98 := by
  have hnd : (rot_reciprocal many_rotations_half 1).Nodup := by
    unfold rot_reciprocal many_rotations_half
    rw [if_pos (by decide), List.map_map, List.map_map, List.nodup_append]
    refine ⟨?_, ?_, ?_⟩
    · refine List.Nodup.map ?_ (List.nodup_range 49)
      intro a b h
      have h2 := congrArg Mat3.m00 h
      simp [mat_transpose_matrix_i3] at h2
      exact h2
    · refine List.Nodup.map ?_ (List.nodup_range 49)
      intro a b h
      have h2 := congrArg Mat3.m00 h
      simp [mat_transpose_matrix_i3, mat_multiply_matrix_i3, inversion] at h2
      exact h2
    · intro x hx hy
      rw [List.mem_map] at hx hy
      obtain ⟨a, _, rfl⟩ := hx
      obtain ⟨b, _, hb⟩ := hy
      have h2 := congrArg Mat3.m00 hb
      simp [mat_transpose_matrix_i3, mat_multiply_matrix_i3, inversion] at h2
      omega
  rw [List.toFinset_card_of_nodup hnd]
  unfold rot_reciprocal many_rotations_half
  rw [if_pos (by decide)]
  simp only [List.length_append, List.length_map, List.length_range]

/-- C16 as stated fails: a list of 97 distinct matrices, without time
reversal, has 97 distinct reciprocal candidates, more than 96, and
`get_point_group_reciprocal` does not reject it.  Over an array `rot` of 96
matrices the run reaches the copy of the 97th candidate into `rot[96]`, past
the end of the array, which a capacity failure raised beforehand would have
prevented; over an array of 97 matrices or more it returns a `PointSymmetry`
holding all 97. -/
theorem point_group_reciprocal_overrun :
    96 < (rot_reciprocal many_rotations 0).toFinset.card ∧
    get_point_group_reciprocal_bounded 96 many_rotations 0 =
      BoundedRun.overrun 96 ∧
    get_point_group_reciprocal_bounded 97 many_rotations 0 =
      BoundedRun.returned many_rotations := by
  refine ⟨?_, ?_, ?_⟩
  · rw [many_rotations_card]
    decide
  · rw [bounded_run_eq, many_rotations_card, if_neg (by decide)]
  · rw [bounded_run_eq, many_rotations_card, if_pos (by decide)]
    unfold get_point_group_reciprocal
    rw [many_rotations_reciprocal, dedup_fold_of_nodup _ many_rotations_nodup]

/-- C16, amended: `get_point_group_reciprocal` makes no capacity check and
has no failure result.  For every capacity of the array `rot`, every rotation
list and every time-reversal flag: when the distinct reciprocal candidates
are at most `capacity` it returns the `PointSymmetry` holding them, in the
order of first occurrence; when they are more, it copies the candidate
number `capacity + 1` to `rot[capacity]`, past the end of the array, instead
of failing. -/
theorem point_group_reciprocal_bounded_run (capacity : Nat)
    (rotations : List Mat3) (t : Int) :
    ((rot_reciprocal rotations t).toFinset.card ≤ capacity →
      get_point_group_reciprocal_bounded capacity rotations t =
        BoundedRun.returned (get_point_group_reciprocal rotations t) ∧
      (get_point_group_reciprocal rotations t).length =
        (rot_reciprocal rotations t).toFinset.card) ∧
    (capacity < (rot_reciprocal rotations t).toFinset.card →
      get_point_group_reciprocal_bounded capacity rotations t =
        BoundedRun.overrun capacity) := by
  constructor
  · intro h
    rw [bounded_run_eq, if_pos h]
    exact ⟨rfl, dedup_fold_length _⟩
  · intro h
    rw [bounded_run_eq, if_neg (by omega)]

/-- Witness of C16, amended, over an array of 96 matrices: the identity
under time reversal has two candidates and the function returns the identity
and the inversion; 49 matrices under time reversal have 98 distinct
candidates and the run writes to `rot[96]`. -/
theorem point_group_reciprocal_bounded_run_witness :
    ((rot_reciprocal [identity] 1).toFinset.card ≤ 96 ∧
      get_point_group_reciprocal_bounded 96 [identity] 1 =
        BoundedRun.returned [identity, inversion]) ∧
    (96 < (rot_reciprocal many_rotations_half 1).toFinset.card ∧
      get_point_group_reciprocal_bounded 96 many_rotations_half 1 =
        BoundedRun.overrun 96) :=
  ⟨⟨by decide,
      ((point_group_reciprocal_bounded_run 96 [identity] 1).1 (by decide)).1⟩,
    ⟨by rw [many_rotations_half_card]; decide,
      (point_group_reciprocal_bounded_run 96 many_rotations_half 1).2
        (by rw [many_rotations_half_card]; decide)⟩⟩

/-! ## C18: the inversion-only reduction -/

theorem neg_emod_cell (k n : Int) (h0 : 0 ≤ k) (h1 : k < n) :
    (-k) % n = if k = 0 then 0 else n - k := by
  split_ifs with h
  · subst h
    simp
  · have e : -k = (n - k) + n * (-1) := by ring
    rw [e, Int.add_mul_emod_self_left, Int.emod_eq_of_lt (by omega) (by omega)]

theorem neg_double_emod (x k n : Int) (hx : x = 2 * (-k)) :
    x % (n * 2) = (-k) % n * 2 + 0 := by
  rw [hx, mul_comm n 2, Int.mul_emod_mul_of_pos _ _ (by omega : (0 : Int) < 2)]
  ring

theorem inversion_cells (mesh : Vec3) (hm : mesh_positive mesh) (k0 k1 k2 : Int)
    (h0 : 0 ≤ k0) (l0 : k0 < mesh.c0) (h1 : 0 ≤ k1) (l1 : k1 < mesh.c1)
    (h2 : 0 ≤ k2) :
    rot_address mesh ⟨0, 0, 0⟩ inversion
        (k2 * mesh.c0 * mesh.c1 + k1 * mesh.c0 + k0) =
      (-k2) % mesh.c2 * mesh.c0 * mesh.c1 + (-k1) % mesh.c1 * mesh.c0 +
        (-k0) % mesh.c0 := by
  unfold rot_address rotated_address
  rw [address_to_grid_of_cells k0 k1 k2 mesh ⟨0, 0, 0⟩ h0 l0 h1 l1 h2,
    get_vector_modulo_eq _ mesh hm]
  have e : (⟨(mat_multiply_matrix_vector_i3 inversion
        ⟨k0 * 2 + 0, k1 * 2 + 0, k2 * 2 + 0⟩).c0 % (mesh.c0 * 2),
      (mat_multiply_matrix_vector_i3 inversion
        ⟨k0 * 2 + 0, k1 * 2 + 0, k2 * 2 + 0⟩).c1 % (mesh.c1 * 2),
      (mat_multiply_matrix_vector_i3 inversion
        ⟨k0 * 2 + 0, k1 * 2 + 0, k2 * 2 + 0⟩).c2 % (mesh.c2 * 2)⟩ : Vec3) =
      ⟨(-k0) % mesh.c0 * 2 + (⟨0, 0, 0⟩ : Vec3).c0,
        (-k1) % mesh.c1 * 2 + (⟨0, 0, 0⟩ : Vec3).c1,
        (-k2) % mesh.c2 * 2 + (⟨0, 0, 0⟩ : Vec3).c2⟩ := by
    simp only [mat_multiply_matrix_vector_i3, inversion, Vec3.mk.injEq]
    exact ⟨neg_double_emod _ k0 mesh.c0 (by ring),
      neg_double_emod _ k1 mesh.c1 (by ring), neg_double_emod _ k2 mesh.c2 (by ring)⟩
  rw [e, grid_to_address_double _ _ _ mesh ⟨0, 0, 0⟩ (by decide)]

theorem cells_injective (mesh : Vec3) (k0 k1 k2 j0 j1 j2 : Int)
    (h0 : 0 ≤ k0) (l0 : k0 < mesh.c0) (h1 : 0 ≤ k1) (l1 : k1 < mesh.c1)
    (h2 : 0 ≤ k2) (g0 : 0 ≤ j0) (m0 : j0 < mesh.c0) (g1 : 0 ≤ j1)
    (m1 : j1 < mesh.c1) (g2 : 0 ≤ j2)
    (h : k2 * mesh.c0 * mesh.c1 + k1 * mesh.c0 + k0 =
      j2 * mesh.c0 * mesh.c1 + j1 * mesh.c0 + j0) :
    k0 = j0 ∧ k1 = j1 ∧ k2 = j2 := by
  have e := congrArg (fun a => address_to_grid a mesh ⟨0, 0, 0⟩) h
  simp only at e
  rw [address_to_grid_of_cells k0 k1 k2 mesh ⟨0, 0, 0⟩ h0 l0 h1 l1 h2,
    address_to_grid_of_cells j0 j1 j2 mesh ⟨0, 0, 0⟩ g0 m0 g1 m1 g2] at e
  simp only [Vec3.mk.injEq] at e
  omega

theorem inversion_involutive (mesh : Vec3) (hm : mesh_positive mesh) (b : Int)
    (h0 : 0 ≤ b) (h1 : b < num_grid mesh) :
    (0 ≤ rot_address mesh ⟨0, 0, 0⟩ inversion b ∧
      rot_address mesh ⟨0, 0, 0⟩ inversion b < num_grid mesh) ∧
    rot_address mesh ⟨0, 0, 0⟩ inversion
      (rot_address mesh ⟨0, 0, 0⟩ inversion b) = b := by
  obtain ⟨k0, k1, k2, ⟨a0, b0⟩, ⟨a1, b1⟩, ⟨a2, b2⟩, rfl⟩ :=
    address_cells b mesh hm h0 h1
  obtain ⟨p0, p1, p2⟩ := hm
  rw [inversion_cells mesh ⟨p0, p1, p2⟩ k0 k1 k2 a0 b0 a1 b1 a2]
  have c0 := Int.emod_nonneg (-k0) (ne_of_gt p0)
  have c1 := Int.emod_nonneg (-k1) (ne_of_gt p1)
  have c2 := Int.emod_nonneg (-k2) (ne_of_gt p2)
  have d0 := Int.emod_lt_of_pos (-k0) p0
  have d1 := Int.emod_lt_of_pos (-k1) p1
  have d2 := Int.emod_lt_of_pos (-k2) p2
  refine ⟨address_bound _ _ _ _ _ _ c0 d0 c1 d1 c2 d2, ?_⟩
  rw [inversion_cells mesh ⟨p0, p1, p2⟩ _ _ _ c0 d0 c1 d1 c2]
  have e0 : (-(-k0 % mesh.c0)) % mesh.c0 = k0 := by
    rw [neg_emod_cell _ _ c0 d0, neg_emod_cell _ _ a0 b0]
    split_ifs <;> omega
  have e1 : (-(-k1 % mesh.c1)) % mesh.c1 = k1 := by
    rw [neg_emod_cell _ _ c1 d1, neg_emod_cell _ _ a1 b1]
    split_ifs <;> omega
  have e2 : (-(-k2 % mesh.c2)) % mesh.c2 = k2 := by
    rw [neg_emod_cell _ _ c2 d2, neg_emod_cell _ _ a2 b2]
    split_ifs <;> omega
  rw [e0, e1, e2]

theorem inversion_fixed_cells (mesh : Vec3) (hm : mesh_positive mesh)
    (k0 k1 k2 : Int) (h0 : 0 ≤ k0) (l0 : k0 < mesh.c0) (h1 : 0 ≤ k1)
    (l1 : k1 < mesh.c1) (h2 : 0 ≤ k2) (l2 : k2 < mesh.c2) :
    rot_address mesh ⟨0, 0, 0⟩ inversion
        (k2 * mesh.c0 * mesh.c1 + k1 * mesh.c0 + k0) =
      k2 * mesh.c0 * mesh.c1 + k1 * mesh.c0 + k0 ↔
    (k0 = 0 ∨ 2 * k0 = mesh.c0) ∧ (k1 = 0 ∨ 2 * k1 = mesh.c1) ∧
      (k2 = 0 ∨ 2 * k2 = mesh.c2) := by
  obtain ⟨p0, p1, p2⟩ := hm
  rw [inversion_cells mesh ⟨p0, p1, p2⟩ k0 k1 k2 h0 l0 h1 l1 h2]
  have c0 := Int.emod_nonneg (-k0) (ne_of_gt p0)
  have c1 := Int.emod_nonneg (-k1) (ne_of_gt p1)
  have c2 := Int.emod_nonneg (-k2) (ne_of_gt p2)
  have d0 := Int.emod_lt_of_pos (-k0) p0
  have d1 := Int.emod_lt_of_pos (-k1) p1
  have e0 := neg_emod_cell k0 mesh.c0 h0 l0
  have e1 := neg_emod_cell k1 mesh.c1 h1 l1
  have e2 := neg_emod_cell k2 mesh.c2 h2 l2
  constructor
  · intro h
    obtain ⟨f0, f1, f2⟩ := cells_injective mesh _ _ _ k0 k1 k2 c0 d0 c1 d1 c2
      h0 l0 h1 l1 h2 h
    rw [e0] at f0
    rw [e1] at f1
    rw [e2] at f2
    split_ifs at f0 f1 f2 <;> omega
  · rintro ⟨f0, f1, f2⟩
    have g0 : -k0 % mesh.c0 = k0 := by rw [e0]; split_ifs <;> omega
    have g1 : -k1 % mesh.c1 = k1 := by rw [e1]; split_ifs <;> omega
    have g2 : -k2 % mesh.c2 = k2 := by rw [e2]; split_ifs <;> omega
    rw [g0, g1, g2]

theorem countP_range_eq_card (p : Nat → Bool) (n : Nat) :
    (List.range n).countP p = ((Finset.range n).filter (fun b => p b = true)).card := by
  induction n with
  | zero => simp
  | succ n ih =>
    rw [List.range_succ, List.countP_append, ih, Finset.range_succ,
      Finset.filter_insert]
    by_cases h : p n = true
    · rw [if_pos h, Finset.card_insert_of_not_mem (by simp)]
      simp [List.countP_cons, h]
    · rw [if_neg h]
      simp [List.countP_cons, h]

theorem fixed_cell_card (n : Nat) (hn : 0 < n) :
    ((Finset.range n).filter (fun k => k = 0 ∨ 2 * k = n)).card =
      if n % 2 = 0 then 2 else 1 := by
  split_ifs with h
  · have e : (Finset.range n).filter (fun k => k = 0 ∨ 2 * k = n) = {0, n / 2} := by
      ext k
      simp only [Finset.mem_filter, Finset.mem_range, Finset.mem_insert,
        Finset.mem_singleton]
      omega
    rw [e, Finset.card_pair (by omega)]
  · have e : (Finset.range n).filter (fun k => k = 0 ∨ 2 * k = n) = {0} := by
      ext k
      simp only [Finset.mem_filter, Finset.mem_range, Finset.mem_singleton]
      omega
    rw [e, Finset.card_singleton]

theorem involution_count (S : Finset Nat) (f : Nat → Nat)
    (hmap : ∀ b ∈ S, f b ∈ S) (hinv : ∀ b ∈ S, f (f b) = b) :
    2 * (S.filter (fun b => b ≤ f b)).card =
      S.card + (S.filter (fun b => f b = b)).card := by
  have hU : (S.filter (fun b => b < f b)).card = (S.filter (fun b => f b < b)).card := by
    refine Finset.card_bij (fun b _ => f b) ?_ ?_ ?_
    · intro b hb
      rw [Finset.mem_filter] at hb ⊢
      exact ⟨hmap b hb.1, by rw [hinv b hb.1]; exact hb.2⟩
    · intro a ha b hb h
      rw [Finset.mem_filter] at ha hb
      have := congrArg f h
      rwa [hinv a ha.1, hinv b hb.1] at this
    · intro c hc
      rw [Finset.mem_filter] at hc
      refine ⟨f c, ?_, hinv c hc.1⟩
      rw [Finset.mem_filter]
      exact ⟨hmap c hc.1, by rw [hinv c hc.1]; exact hc.2⟩
  have hle : (S.filter (fun b => b ≤ f b)).card =
      (S.filter (fun b => b < f b)).card + (S.filter (fun b => f b = b)).card := by
    rw [← Finset.card_union_of_disjoint]
    · congr 1
      ext b
      simp only [Finset.mem_filter, Finset.mem_union]
      constructor
      · rintro ⟨hb, h⟩
        rcases Nat.lt_or_eq_of_le h with h | h
        · exact Or.inl ⟨hb, h⟩
        · exact Or.inr ⟨hb, h.symm⟩
      · rintro (⟨hb, h⟩ | ⟨hb, h⟩)
        · exact ⟨hb, h.le⟩
        · exact ⟨hb, h.ge⟩
    · rw [Finset.disjoint_filter]
      intro b _ h1 h2
      omega
  have htot : (S.filter (fun b => b ≤ f b)).card + (S.filter (fun b => f b < b)).card =
      S.card := by
    have := @Finset.filter_card_add_filter_neg_card_eq_card _ S (fun b => b ≤ f b) _ _
    rw [← this]
    congr 2
    ext b
    simp only [Finset.mem_filter, not_le]
  omega

theorem inversion_fixed_card (mesh : Vec3) (hm : mesh_positive mesh)
    (n0 n1 n2 : Nat) (e0 : mesh.c0 = n0) (e1 : mesh.c1 = n1) (e2 : mesh.c2 = n2) :
    ((Finset.range (n0 * n1 * n2)).filter (fun b : Nat =>
      rot_address mesh ⟨0, 0, 0⟩ inversion (b : Int) = (b : Int))).card =
      (if n0 % 2 = 0 then 2 else 1) *
        ((if n1 % 2 = 0 then 2 else 1) * (if n2 % 2 = 0 then 2 else 1)) := by
  obtain ⟨p0, p1, p2⟩ := hm
  have q0 : 0 < n0 := by omega
  have q1 : 0 < n1 := by omega
  have q2 : 0 < n2 := by omega
  rw [← fixed_cell_card n0 q0, ← fixed_cell_card n1 q1, ← fixed_cell_card n2 q2,
    ← Finset.card_product, ← Finset.card_product]
  symm
  have cast : ∀ k0 k1 k2 : Nat, ((k2 * n0 * n1 + k1 * n0 + k0 : Nat) : Int) =
      (k2 : Int) * mesh.c0 * mesh.c1 + (k1 : Int) * mesh.c0 + (k0 : Int) := by
    intro k0 k1 k2
    rw [e0, e1]
    push_cast
    ring
  refine Finset.card_bij (fun k _ => k.2.2 * n0 * n1 + k.2.1 * n0 + k.1) ?_ ?_ ?_
  · rintro ⟨k0, k1, k2⟩ hk
    simp only [Finset.mem_product, Finset.mem_filter, Finset.mem_range] at hk
    obtain ⟨⟨l0, f0⟩, ⟨l1, f1⟩, ⟨l2, f2⟩⟩ := hk
    rw [Finset.mem_filter, Finset.mem_range]
    constructor
    · have hb := (address_bound (k0 : Int) k1 k2 n0 n1 n2 (by omega) (by omega)
        (by omega) (by omega) (by omega) (by omega)).2
      exact_mod_cast hb
    · simp only
      rw [cast k0 k1 k2]
      exact (inversion_fixed_cells mesh ⟨p0, p1, p2⟩ k0 k1 k2 (by omega) (by omega)
        (by omega) (by omega) (by omega) (by omega)).mpr
        ⟨by omega, by omega, by omega⟩
  · rintro ⟨k0, k1, k2⟩ hk ⟨j0, j1, j2⟩ hj h
    simp only [Finset.mem_product, Finset.mem_filter, Finset.mem_range] at hk hj
    obtain ⟨⟨l0, _⟩, ⟨l1, _⟩, ⟨l2, _⟩⟩ := hk
    obtain ⟨⟨m0, _⟩, ⟨m1, _⟩, ⟨m2, _⟩⟩ := hj
    simp only at h
    have h2 : ((k2 * n0 * n1 + k1 * n0 + k0 : Nat) : Int) =
        ((j2 * n0 * n1 + j1 * n0 + j0 : Nat) : Int) := by rw [h]
    rw [cast, cast] at h2
    obtain ⟨a0, a1, a2⟩ := cells_injective mesh k0 k1 k2 j0 j1 j2 (by omega)
      (by omega) (by omega) (by omega) (by omega) (by omega) (by omega) (by omega)
      (by omega) (by omega) h2
    simp only [Prod.mk.injEq]
    omega
  · intro b hb
    rw [Finset.mem_filter, Finset.mem_range] at hb
    obtain ⟨hlt, hfix⟩ := hb
    have hN : ((b : Nat) : Int) < num_grid mesh := by
      unfold num_grid
      rw [e0, e1, e2]
      exact_mod_cast hlt
    obtain ⟨k0, k1, k2, ⟨a0, b0⟩, ⟨a1, b1⟩, ⟨a2, b2⟩, hcell⟩ :=
      address_cells (b : Int) mesh ⟨p0, p1, p2⟩ (by omega) hN
    rw [hcell] at hfix
    have hf := (inversion_fixed_cells mesh ⟨p0, p1, p2⟩ k0 k1 k2 a0 b0 a1 b1 a2
      b2).mp hfix
    lift k0 to Nat using a0
    lift k1 to Nat using a1
    lift k2 to Nat using a2
    refine ⟨(k0, k1, k2), ?_, ?_⟩
    · simp only [Finset.mem_product, Finset.mem_filter, Finset.mem_range]
      omega
    · simp only
      have : ((k2 * n0 * n1 + k1 * n0 + k0 : Nat) : Int) = (b : Int) := by
        rw [cast, hcell]
      exact_mod_cast this


theorem inversion_count (mesh : Vec3) (hm : mesh_positive mesh) :
    (count_irreducible mesh ⟨0, 0, 0⟩ [identity, inversion]
        (num_grid mesh).toNat : Int) =
      (num_grid mesh + inversion_fixed_count mesh) / 2 := by
  have hs : shift_valid ⟨0, 0, 0⟩ := by decide
  have hNpos := num_grid_pos mesh hm
  have hN : (((num_grid mesh).toNat : Nat) : Int) = num_grid mesh :=
    Int.toNat_of_nonneg hNpos.le
  have hrange : ∀ b ∈ Finset.range (num_grid mesh).toNat,
      (0 : Int) ≤ (b : Int) ∧ (b : Int) < num_grid mesh := by
    intro b hb
    rw [Finset.mem_range] at hb
    omega
  have hcount : count_irreducible mesh ⟨0, 0, 0⟩ [identity, inversion]
      (num_grid mesh).toNat =
      ((Finset.range (num_grid mesh).toNat).filter (fun b : Nat =>
        b ≤ (rot_address mesh ⟨0, 0, 0⟩ inversion (b : Int)).toNat)).card := by
    unfold count_irreducible
    rw [countP_range_eq_card]
    congr 1
    apply Finset.filter_congr
    intro b hb
    obtain ⟨h0, h1⟩ := hrange b hb
    obtain ⟨⟨r0, _⟩, _⟩ := inversion_involutive mesh hm b h0 h1
    have hid : lower mesh ⟨0, 0, 0⟩ (b : Int) identity = false := by
      rw [← Bool.not_eq_true, lower_spec,
        rot_address_identity mesh ⟨0, 0, 0⟩ hm hs b h0 h1]
      omega
    rw [List.find?_cons, hid]
    simp only [List.find?_cons, List.find?_nil]
    by_cases hl : lower mesh ⟨0, 0, 0⟩ (b : Int) inversion = true
    · rw [hl]
      have := (lower_spec mesh ⟨0, 0, 0⟩ b inversion).mp hl
      simp only [Option.isNone_some, Bool.false_eq_true, false_iff]
      omega
    · have hl2 : lower mesh ⟨0, 0, 0⟩ (b : Int) inversion = false := by
        simpa using hl
      rw [hl2]
      rw [lower_spec] at hl
      simp only [Option.isNone_none, true_iff]
      omega
  have hfix : ((Finset.range (num_grid mesh).toNat).filter (fun b : Nat =>
        (rot_address mesh ⟨0, 0, 0⟩ inversion (b : Int)).toNat = b)).card =
      (if mesh.c0.toNat % 2 = 0 then 2 else 1) *
        ((if mesh.c1.toNat % 2 = 0 then 2 else 1) *
          (if mesh.c2.toNat % 2 = 0 then 2 else 1)) := by
    have e0 : mesh.c0 = (mesh.c0.toNat : Nat) := (Int.toNat_of_nonneg hm.1.le).symm
    have e1 : mesh.c1 = (mesh.c1.toNat : Nat) := (Int.toNat_of_nonneg hm.2.1.le).symm
    have e2 : mesh.c2 = (mesh.c2.toNat : Nat) := (Int.toNat_of_nonneg hm.2.2.le).symm
    have eN : (num_grid mesh).toNat = mesh.c0.toNat * mesh.c1.toNat * mesh.c2.toNat := by
      have : num_grid mesh =
          ((mesh.c0.toNat * mesh.c1.toNat * mesh.c2.toNat : Nat) : Int) := by
        unfold num_grid
        push_cast
        rw [← e0, ← e1, ← e2]
      rw [this, Int.toNat_natCast]
    rw [← inversion_fixed_card mesh hm _ _ _ e0 e1 e2, eN]
    congr 1
    apply Finset.filter_congr
    intro b hb
    rw [← eN] at hb
    obtain ⟨h0, h1⟩ := hrange b hb
    obtain ⟨⟨r0, _⟩, _⟩ := inversion_involutive mesh hm b h0 h1
    omega
  have hinv := involution_count (Finset.range (num_grid mesh).toNat)
    (fun b => (rot_address mesh ⟨0, 0, 0⟩ inversion (b : Int)).toNat)
    (by
      intro b hb
      obtain ⟨h0, h1⟩ := hrange b hb
      obtain ⟨⟨r0, r1⟩, _⟩ := inversion_involutive mesh hm b h0 h1
      simp only [Finset.mem_range]
      omega)
    (by
      intro b hb
      obtain ⟨h0, h1⟩ := hrange b hb
      obtain ⟨⟨r0, r1⟩, r2⟩ := inversion_involutive mesh hm b h0 h1
      simp only
      rw [Int.toNat_of_nonneg r0, r2, Int.toNat_natCast])
  simp only at hinv
  rw [← hcount, hfix, Finset.card_range] at hinv
  have hF : inversion_fixed_count mesh =
      (((if mesh.c0.toNat % 2 = 0 then 2 else 1) *
        ((if mesh.c1.toNat % 2 = 0 then 2 else 1) *
          (if mesh.c2.toNat % 2 = 0 then 2 else 1)) : Nat) : Int) := by
    unfold inversion_fixed_count fixed_factor
    obtain ⟨p0, p1, p2⟩ := hm
    push_cast
    have a0 : (mesh.c0 % 2 = 0) ↔ (mesh.c0.toNat % 2 = 0) := by omega
    have a1 : (mesh.c1 % 2 = 0) ↔ (mesh.c1.toNat % 2 = 0) := by omega
    have a2 : (mesh.c2 % 2 = 0) ↔ (mesh.c2.toNat % 2 = 0) := by omega
    simp only [a0, a1, a2]
    ring
  have hinv2 : ((2 * count_irreducible mesh ⟨0, 0, 0⟩ [identity, inversion]
      (num_grid mesh).toNat : Nat) : Int) =
      (((num_grid mesh).toNat + (if mesh.c0.toNat % 2 = 0 then 2 else 1) *
        ((if mesh.c1.toNat % 2 = 0 then 2 else 1) *
          (if mesh.c2.toNat % 2 = 0 then 2 else 1)) : Nat) : Int) := by
    rw [hinv]
  rw [Nat.cast_add, ← hF, hN] at hinv2
  push_cast at hinv2
  omega

theorem point_group_of_identity_reversed :
    get_point_group_reciprocal [identity] 1 = [identity, inversion] := by
  decide

/-- C18: for every unshifted mesh with positive divisions, reducing with the
group of the identity and the inversion, given as such or built by
`get_point_group_reciprocal` from the identity with time reversal, returns
`num_ir = (N0*N1*N2 + F) / 2` in both reducers, where `F` is the product over
the axes of `2` if `N_i` is even, else `1`. -/
theorem inversion_reduction (openmp : Bool) (gp0 : Buf Vec3) (map0 : Buf Int)
    (mesh : Vec3) (hm : mesh_positive mesh) :
    get_point_group_reciprocal [identity] 1 = [identity, inversion] ∧
    (kpt_get_irreducible_reciprocal_mesh openmp gp0 map0 mesh ⟨0, 0, 0⟩ 1
        [identity]).num_ir =
      (mesh.c0 * mesh.c1 * mesh.c2 + inversion_fixed_count mesh) / 2 ∧
    (get_ir_reciprocal_mesh gp0 map0 mesh ⟨0, 0, 0⟩ [identity, inversion]).num_ir =
      (mesh.c0 * mesh.c1 * mesh.c2 + inversion_fixed_count mesh) / 2 ∧
    (get_ir_reciprocal_mesh_openmp gp0 map0 mesh ⟨0, 0, 0⟩
        [identity, inversion]).num_ir =
      (mesh.c0 * mesh.c1 * mesh.c2 + inversion_fixed_count mesh) / 2 := by
  have hs : shift_valid ⟨0, 0, 0⟩ := by decide
  have hc := inversion_count mesh hm
  unfold num_grid at hc
  refine ⟨point_group_of_identity_reversed, ?_, ?_, ?_⟩
  · rw [kpt_mesh_num_ir openmp gp0 map0 mesh ⟨0, 0, 0⟩ hm hs,
      point_group_of_identity_reversed]
    exact hc
  · rw [serial_num_ir gp0 map0 mesh ⟨0, 0, 0⟩ hm hs]
    exact hc
  · rw [openmp_num_ir, openmp_count_fixed gp0 map0 mesh ⟨0, 0, 0⟩ hm hs]
    exact hc

/-- Witness of C18: the 4x4x4 unshifted mesh has `F = 8` and `num_ir = 36`,
through the serial entry point with the identity and time reversal. -/
theorem inversion_reduction_witness :
    mesh_positive ⟨4, 4, 4⟩ ∧ inversion_fixed_count ⟨4, 4, 4⟩ = 8 ∧
    (kpt_get_irreducible_reciprocal_mesh false zero_points zero_map ⟨4, 4, 4⟩
        ⟨0, 0, 0⟩ 1 [identity]).num_ir = 36 ∧
    (get_ir_reciprocal_mesh_openmp zero_points zero_map ⟨4, 4, 4⟩ ⟨0, 0, 0⟩
        [identity, inversion]).num_ir = 36 :=
  ⟨by decide, by decide,
    (inversion_reduction false zero_points zero_map ⟨4, 4, 4⟩ (by decide)).2.1,
    (inversion_reduction false zero_points zero_map ⟨4, 4, 4⟩ (by decide)).2.2.2⟩

end Kpoint
